import Mathlib

/-!
# Visibility core of the dungeon game

A shallow embedding of `game/raycasting.go` and `game/tile.go`.

Conventions of the embedding:

* `float64` values are elements of a linearly ordered field `K` and every
  arithmetic operation is exact (no rounding, no NaN, no infinities); the
  tile line-of-sight code, which converts positions to integers, uses `ℚ`.
* `math.Cos`, `math.Sin` and `math.Atan2` are library functions; they are
  passed in as a `Trig K` record, so every theorem holds for whatever these
  functions compute.
* Go `int` is `Int`; no overflow is modelled.
* A run-time panic (index out of range, negative `make` length) is a value of
  `Fault`, and a loop without a bound in the source runs on explicit fuel.
-/

namespace Dungeon

/-! ## Definitions -/

section Geometry

/-- The source's `line`: a segment from `(X1, Y1)` to `(X2, Y2)`. -/
structure line (K : Type) where
  X1 : K
  Y1 : K
  X2 : K
  Y2 : K
deriving DecidableEq, Repr

/-- Library trigonometry (`math.Cos`, `math.Sin`, `math.Atan2`) used by the
ray caster, taken as parameters. -/
structure Trig (K : Type) where
  cos : K → K
  sin : K → K
  atan2 : K → K → K

variable {K : Type} [LinearOrderedField K]

/-- Source: `func (l line) angle()`. -/
def line.angle (T : Trig K) (l : line K) : K :=
  T.atan2 (l.Y2 - l.Y1) (l.X2 - l.X1)

/-- Source: `newRay`. -/
def newRay (T : Trig K) (x y length angle : K) : line K :=
  ⟨x, y, x + length * T.cos angle, y + length * T.sin angle⟩

/-- The denominator `d` computed on the first line of `intersection`. -/
def denom (a b : line K) : K :=
  (a.X1 - a.X2) * (b.Y1 - b.Y2) - (a.Y1 - a.Y2) * (b.X1 - b.X2)

/-- The parameter `t` (along `a`) computed by `intersection` when `d ≠ 0`. -/
def paramT (a b : line K) : K :=
  ((a.X1 - b.X1) * (b.Y1 - b.Y2) - (a.Y1 - b.Y1) * (b.X1 - b.X2)) / denom a b

/-- The parameter `u` (along `b`) computed by `intersection` when `d ≠ 0`. -/
def paramU (a b : line K) : K :=
  -((a.X1 - a.X2) * (a.Y1 - b.Y1) - (a.Y1 - a.Y2) * (a.X1 - b.X1)) / denom a b

/-- Source: `intersection`, returning `(x, y, ok)` together with the list of
divisors of the divisions executed on the path taken, in program order. The
named results are zero-initialised, so a bare `return` yields `(0, 0, false)`. -/
def intersectionLog (a b : line K) : (K × K × Bool) × List K :=
  let d := denom a b
  if d = 0 then
    ((0, 0, false), [])
  else
    let t := paramT a b
    let u := paramU a b
    if t < 0 ∨ t > 1 ∨ u < 0 ∨ u > 1 then
      ((0, 0, false), [d, d])
    else
      ((a.X1 + t * (a.X2 - a.X1), a.Y1 + t * (a.Y2 - a.Y1), true), [d, d])

/-- Source: `intersection`, the triple `(x, y, ok)` it returns. -/
def intersection (a b : line K) : K × K × Bool :=
  (intersectionLog a b).1

/-- The point `(x, y)` lies on the closed segment `s`. -/
def OnSegment (s : line K) (x y : K) : Prop :=
  ∃ t : K, 0 ≤ t ∧ t ≤ 1 ∧ x = s.X1 + t * (s.X2 - s.X1) ∧ y = s.Y1 + t * (s.Y2 - s.Y1)

/-- The direction vectors of `a` and `b` are parallel (collinear segments
included), or one of the two segments is degenerate (a single point). -/
def ParallelOrDegenerate (a b : line K) : Prop :=
  (a.X1 = a.X2 ∧ a.Y1 = a.Y2) ∨ (b.X1 = b.X2 ∧ b.Y1 = b.Y2) ∨
    ∃ k : K, a.X2 - a.X1 = k * (b.X2 - b.X1) ∧ a.Y2 - a.Y1 = k * (b.Y2 - b.Y1)

end Geometry

section RayCasting

variable {K : Type} [LinearOrderedField K]

/-- Source: the constant `rayLen` of `castRays`. -/
def rayLen : K := 2000

/-- Squared distance `(ix-px)*(ix-px) + (iy-py)*(iy-py)` from the viewer, as
computed in the inner loop of `castRays`. -/
def sqDist (px py ix iy : K) : K :=
  (ix - px) * (ix - px) + (iy - py) * (iy - py)

/-- One iteration of the inner loop of `castRays` (the loop over `seg`). The
state is `(hx, hy, best)`; `best = none` stands for the initial `math.Inf(1)`,
below which every squared distance lies. -/
def nearestStep (px py : K) (r : line K) (acc : K × K × Option K) (seg : line K) :
    K × K × Option K :=
  let hit := intersection r seg
  if hit.2.2 then
    let d := sqDist px py hit.1 hit.2.1
    match acc.2.2 with
    | none => (hit.1, hit.2.1, some d)
    | some best => if d < best then (hit.1, hit.2.1, some d) else acc
  else acc

/-- The body of the loop over `off` in `castRays` for the probe ray `r`: the
inner loop from `hx, hy, best := 0.0, 0.0, math.Inf(1)` and the ray
`line{px, py, hx, hy}` that is appended. -/
def castRay (px py : K) (segs : List (line K)) (r : line K) : line K :=
  let acc := segs.foldl (nearestStep px py r) (0, 0, none)
  ⟨px, py, acc.1, acc.2.1⟩

/-- The invariant of the inner loop of `castRays` after the segments `done`. -/
def NearestInv (px py : K) (r : line K) (done : List (line K)) (acc : K × K × Option K) : Prop :=
  match acc.2.2 with
  | none => acc = (0, 0, none) ∧ ∀ s ∈ done, (intersection r s).2.2 = false
  | some best =>
      best = sqDist px py acc.1 acc.2.1 ∧
      (∃ s ∈ done, intersection r s = (acc.1, acc.2.1, true)) ∧
      ∀ s ∈ done, (intersection r s).2.2 = true →
        best ≤ sqDist px py (intersection r s).1 (intersection r s).2.1

/-- Model of the library call `sort.Slice(xs, less)`: the elements of `xs`
rearranged so that no element is `less` than one before it (insertion sort;
the library leaves the order of equal elements unspecified). -/
def sortSlice {α : Type} (less : α → α → Bool) (xs : List α) : List α :=
  xs.insertionSort (fun a b => less b a = false)

/-- Source: the loops of `castRays` before the final sort. -/
def castRaysUnsorted (T : Trig K) (px py : K) (segs : List (line K)) : List (line K) :=
  segs.flatMap fun s =>
    [(s.X1, s.Y1), (s.X2, s.Y2)].flatMap fun p =>
      let base := T.atan2 (p.2 - py) (p.1 - px)
      [-0.0005, 0.0005].map fun off =>
        castRay px py segs (newRay T px py rayLen (base + off))

/-- Source: `castRays`. -/
def castRays (T : Trig K) (px py : K) (segs : List (line K)) : List (line K) :=
  sortSlice (fun a b => decide (a.angle T < b.angle T)) (castRaysUnsorted T px py segs)

/-- The probe ray cast from the viewer towards the point `(x, y)` with angular
offset `off`. -/
def probe (T : Trig K) (px py x y off : K) : line K :=
  newRay T px py rayLen (T.atan2 (y - py) (x - px) + off)

/-- The probe rays of `castRays`, in the order they are cast: two for each
endpoint of each segment. -/
def probes (T : Trig K) (px py : K) (segs : List (line K)) : List (line K) :=
  segs.flatMap fun s =>
    [probe T px py s.X1 s.Y1 (-0.0005), probe T px py s.X1 s.Y1 0.0005,
     probe T px py s.X2 s.Y2 (-0.0005), probe T px py s.X2 s.Y2 0.0005]

/-- A rational stand-in for the library trigonometry, for running the ray
caster on concrete inputs: the small-angle approximations `cos a = 1 - a²/2`,
`sin a = a`, and `atan2 y x = y / x` in the right half-plane. -/
def trigQ : Trig ℚ :=
  ⟨fun a => 1 - a * a / 2, fun a => a, fun y x => if 0 < x then y / x else 0⟩

end RayCasting

section Tiles

/-- Source: `cellSize` (`game/room.go`). -/
def cellSize : Int := 32

/-- Source: `type TileType uint8`. -/
abbrev TileType := Fin 256

/-- Source: `TileFloor` (`iota` = 0). -/
def TileFloor : TileType := 0

/-- Source: `TileWall` (1). -/
def TileWall : TileType := 1

/-- Source: `TileDoor` (2). -/
def TileDoor : TileType := 2

/-- Source: `type Tile struct { Type TileType }`. -/
structure Tile where
  «Type» : TileType
deriving DecidableEq, Repr

/-- Source: `type TileMap struct`, with `Data[y][x]`. -/
structure TileMap where
  W : Int
  H : Int
  Data : List (List Tile)
deriving DecidableEq, Repr

/-- Ways in which the modelled code can stop without a result: a run-time
panic of the source, or a loop of the model that ran out of fuel. -/
inductive Fault where
  | indexOutOfRange
  | negativeLen
  | outOfFuel
  | divideByZero
  | invalidArgument
deriving DecidableEq, Repr

deriving instance DecidableEq for Except

/-- Slice indexing `xs[i]`, which panics outside `0 ≤ i < len(xs)`. -/
def index {α : Type} (xs : List α) (i : Int) : Except Fault α :=
  if i < 0 then .error .indexOutOfRange
  else
    match xs[i.toNat]? with
    | some a => .ok a
    | none => .error .indexOutOfRange

/-- Slice assignment `xs[i] = a`, which panics outside `0 ≤ i < len(xs)`. -/
def assign {α : Type} (xs : List α) (i : Int) (a : α) : Except Fault (List α) :=
  if i < 0 ∨ xs.length ≤ i.toNat then .error .indexOutOfRange
  else .ok (xs.set i.toNat a)

/-- The values `lo, lo+1, ..., hi` of a counting `for` loop, in order. -/
def intsFromTo (lo hi : Int) : List Int :=
  (List.range (hi - lo + 1).toNat).map (fun (i : Nat) => lo + (i : Int))

/-- Source: `NewTileMap`; `make` panics on a negative length. -/
def NewTileMap (w h : Int) : Except Fault TileMap :=
  if h < 0 then .error .negativeLen
  else if 0 < h ∧ w < 0 then .error .negativeLen
  else .ok ⟨w, h, List.replicate h.toNat (List.replicate w.toNat ⟨TileFloor⟩)⟩

/-- Source: `TileMap.InBounds`. -/
def TileMap.InBounds (m : TileMap) (x y : Int) : Bool :=
  decide (x ≥ 0) && decide (y ≥ 0) && decide (x < m.W) && decide (y < m.H)

/-- Source: `TileMap.At`. -/
def TileMap.At (m : TileMap) (x y : Int) : Except Fault Tile :=
  if !m.InBounds x y then
    .ok ⟨TileWall⟩
  else do
    let row ← index m.Data y
    index row x

/-- Source: `TileMap.Set`. -/
def TileMap.Set (m : TileMap) (x y : Int) (t : TileType) : Except Fault TileMap :=
  if m.InBounds x y then do
    let row ← index m.Data y
    let row2 ← assign row x ⟨t⟩
    let data ← assign m.Data y row2
    pure { m with Data := data }
  else
    pure m

/-- The shape that `NewTileMap` builds and `Set` keeps: `H` rows of `W` tiles. -/
def TileMap.WellFormed (m : TileMap) : Prop :=
  (m.Data.length : Int) = m.H ∧ ∀ row ∈ m.Data, (row.length : Int) = m.W

instance (m : TileMap) : Decidable m.WellFormed := by
  unfold TileMap.WellFormed
  infer_instance

/-- The tile stored at `Data[y][x]`, for reading a well-formed map
(`TileFloor` where `Data` has no such entry). -/
def TileMap.stored (m : TileMap) (x y : Int) : Tile :=
  (m.Data.getD y.toNat []).getD x.toNat ⟨TileFloor⟩

/-- A 3×3 map whose only wall is the centre tile `(1, 1)`. -/
def pillarMap : TileMap :=
  ⟨3, 3, [[⟨TileFloor⟩, ⟨TileFloor⟩, ⟨TileFloor⟩],
          [⟨TileFloor⟩, ⟨TileWall⟩, ⟨TileFloor⟩],
          [⟨TileFloor⟩, ⟨TileFloor⟩, ⟨TileFloor⟩]]⟩

/-- The tile that `At` returns on a well-formed map: the stored tile in
bounds, a wall tile outside. -/
def TileMap.tileAt (m : TileMap) (x y : Int) : Tile :=
  if m.InBounds x y then m.stored x y else ⟨TileWall⟩

end Tiles

section Segments

variable {K : Type} [LinearOrderedField K]

/-- Source: `tileRectToLines`. -/
def tileRectToLines (tx ty : Int) : List (line K) :=
  let x : K := ((tx * cellSize : Int) : K)
  let y : K := ((ty * cellSize : Int) : K)
  let w : K := ((cellSize : Int) : K)
  let h : K := ((cellSize : Int) : K)
  [⟨x, y, x + w, y⟩,
   ⟨x + w, y, x + w, y + h⟩,
   ⟨x + w, y + h, x, y + h⟩,
   ⟨x, y + h, x, y⟩]

/-- The body of the inner loop of `MapSegments` at cell `(x, y)`. -/
def mapSegmentsCell (m : TileMap) (y : Int) (out : List (line K)) (x : Int) :
    Except Fault (List (line K)) := do
  let t ← m.At x y
  if t.«Type» = TileWall then
    pure (out ++ tileRectToLines x y)
  else
    pure out

/-- Source: `MapSegments`. -/
def MapSegments (m : TileMap) : Except Fault (List (line K)) :=
  (intsFromTo 0 (m.H - 1)).foldlM
    (fun out y => (intsFromTo 0 (m.W - 1)).foldlM (mapSegmentsCell m y) out) []

/-- The in-bounds cells of `m` in row-major order: `y` from `0` to `H-1`, and
for each `y`, `x` from `0` to `W-1`. -/
def TileMap.cells (m : TileMap) : List (Int × Int) :=
  (intsFromTo 0 (m.H - 1)).flatMap fun y => (intsFromTo 0 (m.W - 1)).map fun x => (x, y)

/-- The in-bounds cells of `m` that hold a wall tile, in row-major order. -/
def TileMap.wallCells (m : TileMap) : List (Int × Int) :=
  m.cells.filter fun c => decide ((m.stored c.1 c.2).«Type» = TileWall)

end Segments

section LineOfSight

/-- Source: the conversion `int(f)` of a `float64`, which truncates towards zero. -/
def goInt (f : ℚ) : Int :=
  if 0 ≤ f then ⌊f⌋ else ⌈f⌉

/-- Source: `abs`. -/
def abs (a : Int) : Int :=
  if a < 0 then -a else a

/-- Source: `viewRadius`. -/
def viewRadius : ℚ := 1000

/-- Source: `viewRadius2`. -/
def viewRadius2 : ℚ := viewRadius * viewRadius

/-- Source: the `for` loop of `hasLOS`, run for at most `fuel` iterations.
`(pcx, pcy)` is the viewer's tile `(int(px)/cellSize, int(py)/cellSize)`,
`(x0, y0)` the current tile and `err` the error term. -/
def hasLOSLoop (m : TileMap) (pcx pcy x1 y1 dx dy sx sy : Int) :
    Nat → Int → Int → Int → Except Fault Bool
  | 0, _, _, _ => .error .outOfFuel
  | fuel + 1, x0, y0, err =>
    if x0 = x1 ∧ y0 = y1 then
      .ok true
    else do
      let blocked ←
        if ¬(x0 = pcx ∧ y0 = pcy) then do
          let t ← m.At x0 y0
          pure (decide (t.«Type» = TileWall))
        else
          pure false
      if blocked then
        .ok false
      else
        let e2 := 2 * err
        let errA := if e2 > -dy then err - dy else err
        let x0A := if e2 > -dy then x0 + sx else x0
        let errB := if e2 < dx then errA + dx else errA
        let y0B := if e2 < dx then y0 + sy else y0
        hasLOSLoop m pcx pcy x1 y1 dx dy sx sy fuel x0A y0B errB

/-- Source: `hasLOS`, with the loop run on the given fuel. -/
def hasLOSFuel (fuel : Nat) (px py : ℚ) (tx ty : Int) (m : TileMap) : Except Fault Bool :=
  let x0 := (goInt px).tdiv cellSize
  let y0 := (goInt py).tdiv cellSize
  let x1 := tx
  let y1 := ty
  let dx := abs (x1 - x0)
  let dy := abs (y1 - y0)
  let sx : Int := if x0 > x1 then -1 else 1
  let sy : Int := if y0 > y1 then -1 else 1
  let err := dx - dy
  hasLOSLoop m x0 y0 x1 y1 dx dy sx sy fuel x0 y0 err

/-- Source: `hasLOS`. The loop of the source has no bound of its own; it is
run for `dx + dy + 1` iterations, which it never exhausts. -/
def hasLOS (px py : ℚ) (tx ty : Int) (m : TileMap) : Except Fault Bool :=
  let x0 := (goInt px).tdiv cellSize
  let y0 := (goInt py).tdiv cellSize
  hasLOSFuel (abs (tx - x0) + abs (ty - y0) + 1).toNat px py tx ty m

/-- The integer nearest to `x`; the even one of the two when `x` lies half way
between two integers. -/
def roundEven (x : ℚ) : Int :=
  if x - (⌊x⌋ : ℚ) < 1 / 2 then ⌊x⌋
  else if 1 / 2 < x - (⌊x⌋ : ℚ) then ⌊x⌋ + 1
  else if ⌊x⌋ % 2 = 0 then ⌊x⌋ else ⌊x⌋ + 1

/-- The number of halvings that bring `n` below 2, counted with `fuel` steps
allowed. -/
def log2Aux : Nat → Nat → Nat
  | 0, _ => 0
  | fuel + 1, n => if n < 2 then 0 else log2Aux fuel (n / 2) + 1

/-- The integer `k` with `2^k ≤ n < 2^(k+1)`, for `n ≠ 0`. -/
def natLog2 (n : Nat) : Nat := log2Aux n n

/-- The binary exponent of `q ≠ 0`: the integer `e` with `2^e ≤ |q| < 2^(e+1)`. -/
def binExp (q : ℚ) : Int :=
  if (2 : ℚ) ^ ((natLog2 q.num.natAbs : Int) - (natLog2 q.den : Int)) ≤
      (if 0 ≤ q then q else -q) then
    (natLog2 q.num.natAbs : Int) - (natLog2 q.den : Int)
  else (natLog2 q.num.natAbs : Int) - (natLog2 q.den : Int) - 1

/-- The `float64` nearest to the real number `q` (IEEE 754 binary64, round to
nearest, ties to even): `q` is rounded to a multiple of `2^(e-52)`, where `e`
is its binary exponent, so that 53 significant bits are kept. The exponent is
not bounded: the values that the radius test of `VisibleTiles` computes from
finite operands never underflow, and one that overflows to `+Inf` compares
with `viewRadius2` as its rounded finite value does. -/
def round64 (q : ℚ) : ℚ :=
  if q = 0 then 0
  else (roundEven (q / (2 : ℚ) ^ (binExp q - 52)) : ℚ) * (2 : ℚ) ^ (binExp q - 52)

/-- The `float64` subtraction `a - b`. -/
def fsub (a b : ℚ) : ℚ := round64 (a - b)

/-- The `float64` product `a * b`. -/
def fmul (a b : ℚ) : ℚ := round64 (a * b)

/-- The `float64` sum `a + b`. -/
def fadd (a b : ℚ) : ℚ := round64 (a + b)

/-- The allocation of `vis` in `VisibleTiles`: `m.H` rows of `m.W` times `false`. -/
def makeVis (m : TileMap) : Except Fault (List (List Bool)) :=
  if m.H < 0 then .error .negativeLen
  else if 0 < m.H ∧ m.W < 0 then .error .negativeLen
  else .ok (List.replicate m.H.toNat (List.replicate m.W.toNat false))

/-- The assignment `vis[ty][tx] = true`. -/
def setVis (vis : List (List Bool)) (tx ty : Int) : Except Fault (List (List Bool)) := do
  let row ← index vis ty
  let row2 ← assign row tx true
  assign vis ty row2

/-- The body of the inner loop of `VisibleTiles` for the tile `(tx, ty)`. The
radius test `(cx-px)*(cx-px)+(cy-py)*(cy-py) > viewRadius2` is evaluated as the
source evaluates it, in `float64`, each operation rounded on its own; the
conversions `float64(tx*cellSize + cellSize/2)` are exact, as they are for
integers up to `2^53`. -/
def visibleTilesCell (px py : ℚ) (m : TileMap) (vis : List (List Bool)) (tx ty : Int) :
    Except Fault (List (List Bool)) :=
  if !m.InBounds tx ty then
    pure vis
  else
    let cx : ℚ := ((tx * cellSize + cellSize.tdiv 2 : Int) : ℚ)
    let cy : ℚ := ((ty * cellSize + cellSize.tdiv 2 : Int) : ℚ)
    if fadd (fmul (fsub cx px) (fsub cx px)) (fmul (fsub cy py) (fsub cy py)) > viewRadius2 then
      pure vis
    else do
      let los ← hasLOS px py tx ty m
      if los then setVis vis tx ty else pure vis

/-- Source: `VisibleTiles`. -/
def VisibleTiles (px py : ℚ) (m : TileMap) : Except Fault (List (List Bool)) := do
  let vis ← makeVis m
  let pcx := (goInt px).tdiv cellSize
  let pcy := (goInt py).tdiv cellSize
  let max := goInt (⌊viewRadius / ((cellSize : Int) : ℚ)⌋ : Int) + 1
  (intsFromTo (-max) max).foldlM
    (fun vis dy => (intsFromTo (-max) max).foldlM
      (fun vis dx => visibleTilesCell px py m vis (pcx + dx) (pcy + dy)) vis) vis

/-- The read `vis[ty][tx]` of a visibility mask. -/
def visLookup (vis : List (List Bool)) (tx ty : Int) : Except Fault Bool := do
  let row ← index vis ty
  index row tx

/-- The shape of the mask that `VisibleTiles` allocates: `H` rows of `W` flags. -/
def VisShape (m : TileMap) (vis : List (List Bool)) : Prop :=
  (vis.length : Int) = m.H ∧ ∀ row ∈ vis, (row.length : Int) = m.W

/-- The mask `vis` with the flag of `(tx, ty)` set, for an index in range. -/
def markVis (vis : List (List Bool)) (tx ty : Int) : List (List Bool) :=
  vis.set ty.toNat ((vis.getD ty.toNat []).set tx.toNat true)

/-- The flag of `(tx, ty)` in `vis`, for an index in range. -/
def visGet (vis : List (List Bool)) (tx ty : Int) : Bool :=
  (vis.getD ty.toNat []).getD tx.toNat false

/-- The exact squared distance from the viewer to the centre
`(tx*cellSize + cellSize/2, ty*cellSize + cellSize/2)` of the tile `(tx, ty)`. -/
def centreSqDist (px py : ℚ) (tx ty : Int) : ℚ :=
  (((tx * cellSize + cellSize.tdiv 2 : Int) : ℚ) - px) *
      (((tx * cellSize + cellSize.tdiv 2 : Int) : ℚ) - px) +
    (((ty * cellSize + cellSize.tdiv 2 : Int) : ℚ) - py) *
      (((ty * cellSize + cellSize.tdiv 2 : Int) : ℚ) - py)

/-- The squared distance from the viewer to the centre of the tile `(tx, ty)`
as the radius test of `VisibleTiles` computes it in `float64`. -/
def floatSqDist (px py : ℚ) (tx ty : Int) : ℚ :=
  fadd
    (fmul (fsub ((tx * cellSize + cellSize.tdiv 2 : Int) : ℚ) px)
      (fsub ((tx * cellSize + cellSize.tdiv 2 : Int) : ℚ) px))
    (fmul (fsub ((ty * cellSize + cellSize.tdiv 2 : Int) : ℚ) py)
      (fsub ((ty * cellSize + cellSize.tdiv 2 : Int) : ℚ) py))

/-- The three tests of the inner loop of `VisibleTiles` that lead to
`vis[ty][tx] = true`: in bounds, radius test passed, line of sight. -/
def visCond (px py : ℚ) (m : TileMap) (tx ty : Int) : Bool :=
  m.InBounds tx ty && !decide (floatSqDist px py tx ty > viewRadius2) &&
    decide (hasLOS px py tx ty m = .ok true)

/-- The half-width `max` of the box of tiles that `VisibleTiles` scans. -/
def visMax : Int :=
  goInt (⌊viewRadius / ((cellSize : Int) : ℚ)⌋ : Int) + 1

/-- The inner-loop body of `VisibleTiles` on a mask of the right shape: the
flag of the tile is set when the three tests pass. -/
def visStep (px py : ℚ) (m : TileMap) (vis : List (List Bool)) (c : Int × Int) :
    List (List Bool) :=
  if visCond px py m c.1 c.2 then markVis vis c.1 c.2 else vis

/-- The tiles that `VisibleTiles` tests, in the order of its two loops. -/
def boxCells (pcx pcy : Int) : List (Int × Int) :=
  (intsFromTo (-visMax) visMax).flatMap fun dy =>
    (intsFromTo (-visMax) visMax).map fun dx => (pcx + dx, pcy + dy)

end LineOfSight

section Walk

/-- Source: the update of `(x0, y0, err)` at the end of the loop body of
`hasLOS` (`e2 := 2 * err` and the two conditional steps). -/
def losStep (dx dy sx sy : Int) (s : Int × Int × Int) : Int × Int × Int :=
  let e2 := 2 * s.2.2
  let errA := if e2 > -dy then s.2.2 - dy else s.2.2
  let x0A := if e2 > -dy then s.1 + sx else s.1
  let errB := if e2 < dx then errA + dx else errA
  let y0B := if e2 < dx then s.2.1 + sy else s.2.1
  (x0A, y0B, errB)

/-- The state `(x0, y0, err)` of the loop of `hasLOS` from the viewer's tile
`(x0, y0)` to the target `(x1, y1)` at the start of iteration `k`, when no
earlier iteration returned. -/
def losWalk (x0 y0 x1 y1 : Int) : Nat → Int × Int × Int
  | 0 => (x0, y0, abs (x1 - x0) - abs (y1 - y0))
  | k + 1 =>
    losStep (abs (x1 - x0)) (abs (y1 - y0)) (if x0 > x1 then -1 else 1)
      (if y0 > y1 then -1 else 1) (losWalk x0 y0 x1 y1 k)

/-- The loop state that lies `rx` columns and `ry` rows before the target
`(x1, y1)`, with the error term that the walk has there. -/
def bresState (x1 y1 dx dy sx sy rx ry : Int) : Int × Int × Int :=
  (x1 - sx * rx, y1 - sy * ry, dx - dy + rx * dy - ry * dx)

/-- The invariant of the walk of `hasLOS`: the remaining distances lie within
`dx` and `dy`, and the walk stays within half a step of the straight line,
on the side that makes the longer axis advance at every iteration. -/
def BresInv (dx dy rx ry : Int) : Prop :=
  0 ≤ rx ∧ rx ≤ dx ∧ 0 ≤ ry ∧ ry ≤ dy ∧
    (dy ≤ dx → -dx ≤ 2 * (rx * dy - ry * dx)) ∧
    (dx < dy → 2 * (rx * dy - ry * dx) ≤ dy)

/-- The walk invariant with both sides of the half-step bound: the walk stays
within half a step of the straight line, the tie being broken the same way
along the whole walk. -/
def BresInv2 (dx dy rx ry : Int) : Prop :=
  BresInv dx dy rx ry ∧
    (dy ≤ dx → 0 < dx → 2 * (rx * dy - ry * dx) < dx) ∧
    (dx < dy → -dy < 2 * (rx * dy - ry * dx))

/-- A 3×3 map without any wall. -/
def openMap : TileMap :=
  ⟨3, 3, [[⟨TileFloor⟩, ⟨TileFloor⟩, ⟨TileFloor⟩],
          [⟨TileFloor⟩, ⟨TileFloor⟩, ⟨TileFloor⟩],
          [⟨TileFloor⟩, ⟨TileFloor⟩, ⟨TileFloor⟩]]⟩

/-- The 3×3 map whose only wall is the corner tile `(0, 0)`. -/
def cornerMap : TileMap :=
  ⟨3, 3, [[⟨TileWall⟩, ⟨TileFloor⟩, ⟨TileFloor⟩],
          [⟨TileFloor⟩, ⟨TileFloor⟩, ⟨TileFloor⟩],
          [⟨TileFloor⟩, ⟨TileFloor⟩, ⟨TileFloor⟩]]⟩

/-- A map of `h` rows of `w` floor tiles, as `NewTileMap` builds it. -/
def floorMap (w h : Nat) : TileMap :=
  ⟨w, h, List.replicate h (List.replicate w ⟨TileFloor⟩)⟩

end Walk

section Rooms

/-- A 5×3 room: walls on the whole outer border, floor inside. -/
def borderRoom : TileMap :=
  ⟨5, 3, [[⟨TileWall⟩, ⟨TileWall⟩, ⟨TileWall⟩, ⟨TileWall⟩, ⟨TileWall⟩],
          [⟨TileWall⟩, ⟨TileFloor⟩, ⟨TileFloor⟩, ⟨TileFloor⟩, ⟨TileWall⟩],
          [⟨TileWall⟩, ⟨TileWall⟩, ⟨TileWall⟩, ⟨TileWall⟩, ⟨TileWall⟩]]⟩

end Rooms

section Light

variable {K : Type} [LinearOrderedField K]

/-- The fields of `ebiten.Vertex` that `triangleVerts` sets. -/
structure Vertex (K : Type) where
  DstX : K
  DstY : K
  ColorR : K
  ColorG : K
  ColorB : K
  ColorA : K
deriving DecidableEq, Repr

/-- Source: `triangleVerts` (the conversions to `float32` are exact here). -/
def triangleVerts (x1 y1 x2 y2 x3 y3 : K) : List (Vertex K) :=
  [⟨x1, y1, 1, 1, 1, 1⟩, ⟨x2, y2, 1, 1, 1, 1⟩, ⟨x3, y3, 1, 1, 1, 1⟩]

/-- The integer remainder `a % b`, which panics when `b` is zero. -/
def goMod (a b : Int) : Except Fault Int :=
  if b = 0 then .error .divideByZero else .ok (a.tmod b)

/-- The body of the loop `for i, r := range rays` of `DrawLight`: the neighbour
`n := rays[(i+1)%len(rays)]` and the triangle handed to `DrawTriangles`, added
to the triangles drawn so far. -/
def drawLightStep (px py camX camY : K) (rays : List (line K))
    (drawn : List (List (Vertex K))) (ir : Nat × line K) :
    Except Fault (List (List (Vertex K))) := do
  let j ← goMod ((ir.1 : Int) + 1) (rays.length : Int)
  let n ← index rays j
  let v := triangleVerts (px - camX) (py - camY) (n.X2 - camX) (n.Y2 - camY)
    (ir.2.X2 - camX) (ir.2.Y2 - camY)
  pure (drawn ++ [v])

/-- Source: `DrawLight`, reduced to the triangles it draws onto the shadow
image, in order. The images, the blend options and the debug lines are not
modelled. -/
def DrawLight (T : Trig K) (px py : K) (segs : List (line K)) (camX camY : K) :
    Except Fault (List (List (Vertex K))) :=
  let rays := castRays T px py segs
  rays.enum.foldlM (drawLightStep px py camX camY rays) []

end Light

section PlayerModel

/-- Source: `playerSize` (`player/player.go`). -/
def playerSize : Int := 16

/-- Source: `playerSpeed`. -/
def playerSpeed : Int := 2

/-- Source: `type Player struct`, without the image. -/
structure Player where
  X : ℚ
  Y : ℚ
deriving DecidableEq, Repr

/-- The state of the four movement keys read by `ebiten.IsKeyPressed`. -/
structure Keys where
  A : Bool
  D : Bool
  W : Bool
  S : Bool
deriving DecidableEq, Repr

/-- The candidate position `(nextX, nextY)` computed by `Player.Update`. -/
def Player.candidate (p : Player) (keys : Keys) : Player :=
  let vx0 : ℚ := 0
  let vy0 : ℚ := 0
  let vx1 := if keys.A then vx0 - (playerSpeed : ℚ) else vx0
  let vx2 := if keys.D then vx1 + (playerSpeed : ℚ) else vx1
  let vy1 := if keys.W then vy0 - (playerSpeed : ℚ) else vy0
  let vy2 := if keys.S then vy1 + (playerSpeed : ℚ) else vy1
  ⟨p.X + vx2, p.Y + vy2⟩

/-- The tile `(int(cx / cellSize), int(cy / cellSize))` under the centre
`(X + playerSize/2, Y + playerSize/2)` of a player at `(X, Y)`, as
`Player.Update` computes it. -/
def Player.tileUnder (p : Player) : Int × Int :=
  (goInt ((p.X + ((playerSize.tdiv 2 : Int) : ℚ)) / ((cellSize : Int) : ℚ)),
   goInt ((p.Y + ((playerSize.tdiv 2 : Int) : ℚ)) / ((cellSize : Int) : ℚ)))

/-- Source: `Player.Update`; returns the player after the call and the
direction `(doorDirX, doorDirY)`. -/
def Player.Update (p : Player) (keys : Keys) (m : TileMap) :
    Except Fault (Player × Int × Int) := do
  let next := p.candidate keys
  let tx := next.tileUnder.1
  let ty := next.tileUnder.2
  let tile ← m.At tx ty
  if tile.«Type» = TileWall then
    pure (p, 0, 0)
  else if tile.«Type» = TileDoor then
    if tx = 0 then pure (next, -1, 0)
    else if tx = m.W - 1 then pure (next, 1, 0)
    else if ty = 0 then pure (next, 0, -1)
    else if ty = m.H - 1 then pure (next, 0, 1)
    else pure (next, 0, 0)
  else
    pure (next, 0, 0)

end PlayerModel

section RoomGeneration

/-- Source: `screenWidth` (`game/game.go`). -/
def screenWidth : Int := 800

/-- Source: `screenHeight`. -/
def screenHeight : Int := 600

/-- Source: `gridWidth = 800 / cellSize`. -/
def gridWidth : Int := (800 : Int).tdiv cellSize

/-- Source: `gridHeight = 600 / cellSize`. -/
def gridHeight : Int := (600 : Int).tdiv cellSize

/-- Source: `roomCount`. -/
def roomCount : Int := 5

/-- Source: `minRoomSize`. -/
def minRoomSize : Int := 4

/-- Source: `maxRoomSize`. -/
def maxRoomSize : Int := 8

/-- Source: `wTiles` of `GenerateRoom`. -/
def wTiles : Int := screenWidth.tdiv cellSize

/-- Source: `hTiles` of `GenerateRoom`. -/
def hTiles : Int := screenHeight.tdiv cellSize

/-- Source: `type Room struct`. -/
structure Room where
  X : Int
  Y : Int
  Map : TileMap
deriving DecidableEq, Repr

/-- A random number generator (`*rand.Rand`): the sequence of raw numbers it
will produce and the position reached in it. -/
structure Rng where
  stream : Nat → Nat
  pos : Nat

/-- The library call `rng.Intn(n)`: a number in `[0, n)`, drawn from the next
raw number; it panics when `n ≤ 0`. -/
def Rng.Intn (r : Rng) (n : Int) : Except Fault (Int × Rng) :=
  if n ≤ 0 then .error .invalidArgument
  else .ok ((r.stream r.pos : Int) % n, ⟨r.stream, r.pos + 1⟩)

/-- The state of `addRandomRooms`: the generator, the map and `taken`. -/
structure RoomGen where
  rng : Rng
  m : TileMap
  taken : List (Int × Int × Int × Int)

/-- Source: the overlap check of `addRandomRooms` against `taken`, whose
entries are `{x0, y0, rw, rh}`. -/
def overlapsTaken (taken : List (Int × Int × Int × Int)) (x0 y0 rw rh : Int) : Bool :=
  taken.any fun t =>
    decide (x0 < t.1 + t.2.2.1) && decide (x0 + rw > t.1) &&
      decide (y0 < t.2.1 + t.2.2.2) && decide (y0 + rh > t.2.1)

/-- Source: the choice of the entrance `(ex, ey)` in `addRandomRooms`
(`side := rng.Intn(4)` and the `switch`). -/
def pickEntrance (rng : Rng) (x0 y0 rw rh : Int) : Except Fault ((Int × Int) × Rng) := do
  let (side, rng) ← rng.Intn 4
  if side = 0 then
    if rw > 2 then do
      let (k, rng) ← rng.Intn (rw - 2)
      pure ((x0 + 1 + k, y0), rng)
    else pure ((x0 + rw.tdiv 2, y0), rng)
  else if side = 1 then
    if rw > 2 then do
      let (k, rng) ← rng.Intn (rw - 2)
      pure ((x0 + 1 + k, y0 + rh - 1), rng)
    else pure ((x0 + rw.tdiv 2, y0 + rh - 1), rng)
  else if side = 2 then
    if rh > 2 then do
      let (k, rng) ← rng.Intn (rh - 2)
      pure ((x0, y0 + 1 + k), rng)
    else pure ((x0, y0 + rh.tdiv 2), rng)
  else if side = 3 then
    if rh > 2 then do
      let (k, rng) ← rng.Intn (rh - 2)
      pure ((x0 + rw - 1, y0 + 1 + k), rng)
    else pure ((x0 + rw - 1, y0 + rh.tdiv 2), rng)
  else pure ((0, 0), rng)

/-- Source: `if x != ex || y != ey { m.Set(x, y, TileWall) }`. -/
def setWallUnless (m : TileMap) (x y ex ey : Int) : Except Fault TileMap :=
  if x ≠ ex ∨ y ≠ ey then m.Set x y TileWall else pure m

/-- Source: the two loops of `addRandomRooms` that draw the perimeter walls. -/
def drawPerimeter (m : TileMap) (x0 y0 rw rh ex ey : Int) : Except Fault TileMap := do
  let m ← (intsFromTo 0 (rw - 1)).foldlM
    (fun m cx => do
      let m ← setWallUnless m (x0 + cx) y0 ex ey
      setWallUnless m (x0 + cx) (y0 + rh - 1) ex ey) m
  (intsFromTo 1 (rh - 1 - 1)).foldlM
    (fun m cy => do
      let m ← setWallUnless m x0 (y0 + cy) ex ey
      setWallUnless m (x0 + rw - 1) (y0 + cy) ex ey) m

/-- Source: the loop `for attempts := 0; attempts < 10; attempts++` of
`addRandomRooms`, with `n` attempts left. -/
def placeRoom (rw rh : Int) : Nat → RoomGen → Except Fault RoomGen
  | 0, st => pure st
  | n + 1, st => do
    let (a, rng) ← st.rng.Intn (gridWidth - 2 - rw)
    let x0 := a + 1
    let (b, rng) ← rng.Intn (gridHeight - 2 - rh)
    let y0 := b + 1
    if x0 ≤ gridWidth.tdiv 2 ∧ x0 + rw > gridWidth.tdiv 2 then
      placeRoom rw rh n ⟨rng, st.m, st.taken⟩
    else if y0 ≤ gridHeight.tdiv 2 ∧ y0 + rh > gridHeight.tdiv 2 then
      placeRoom rw rh n ⟨rng, st.m, st.taken⟩
    else if overlapsTaken st.taken x0 y0 rw rh then
      placeRoom rw rh n ⟨rng, st.m, st.taken⟩
    else do
      let taken := st.taken ++ [(x0, y0, rw, rh)]
      let (e, rng) ← pickEntrance rng x0 y0 rw rh
      let m ← drawPerimeter st.m x0 y0 rw rh e.1 e.2
      pure ⟨rng, m, taken⟩

/-- The body of the loop `for i := 0; i < roomCount; i++` of `addRandomRooms`. -/
def addRandomRoom (st : RoomGen) : Except Fault RoomGen := do
  let (a, rng) ← st.rng.Intn (maxRoomSize - minRoomSize + 1)
  let rw := a + minRoomSize
  let (b, rng) ← rng.Intn (maxRoomSize - minRoomSize + 1)
  let rh := b + minRoomSize
  placeRoom rw rh 10 ⟨rng, st.m, st.taken⟩

/-- Source: `addRandomRooms`. -/
def addRandomRooms (rng : Rng) (m : TileMap) : Except Fault RoomGen :=
  (intsFromTo 0 (roomCount - 1)).foldlM (fun st _ => addRandomRoom st) ⟨rng, m, []⟩

/-- Source: `GenerateRoom` up to the door gaps: the empty map, the border
walls and the four doors. -/
def baseRoomMap : Except Fault TileMap := do
  let m ← NewTileMap wTiles hTiles
  let m ← (intsFromTo 0 (wTiles - 1)).foldlM
    (fun m tx => do
      let m ← m.Set tx 0 TileWall
      m.Set tx (hTiles - 1) TileWall) m
  let m ← (intsFromTo 0 (hTiles - 1)).foldlM
    (fun m ty => do
      let m ← m.Set 0 ty TileWall
      m.Set (wTiles - 1) ty TileWall) m
  let m ← m.Set (wTiles.tdiv 2) 0 TileDoor
  let m ← m.Set (wTiles.tdiv 2) (hTiles - 1) TileDoor
  let m ← m.Set 0 (hTiles.tdiv 2) TileDoor
  m.Set (wTiles - 1) (hTiles.tdiv 2) TileDoor

/-- Source: `GenerateRoom`; `stream` is the sequence of raw numbers of the
generator that the source seeds from the clock. -/
def GenerateRoom (stream : Nat → Nat) (x y : Int) : Except Fault Room := do
  let m ← baseRoomMap
  let st ← addRandomRooms ⟨stream, 0⟩ m
  pure ⟨x, y, st.m⟩

/-- The tiles that the random rooms must leave alone in a 25×18 map: the
border and the two central corridors. -/
def Protected (x y : Int) : Prop :=
  x = 0 ∨ x = wTiles - 1 ∨ y = 0 ∨ y = hTiles - 1 ∨
    x = gridWidth.tdiv 2 ∨ y = gridHeight.tdiv 2

/-- The map `m2` has the shape and size of `m` and the same tiles as `m` on
the protected tiles. -/
def KeepsProtected (m m2 : TileMap) : Prop :=
  m2.WellFormed ∧ m2.W = m.W ∧ m2.H = m.H ∧
    ∀ x y, Protected x y → m2.At x y = m.At x y

end RoomGeneration

section GameModel

/-- Source: `camLerp`. -/
def camLerp : ℚ := 1 / 10

/-- Source: `NewPlayer`, without the image. -/
def NewPlayer : Player := ⟨100, 100⟩

/-- Source: `Player.SetCenter`. -/
def Player.SetCenter (_p : Player) (cx cy : ℚ) : Player :=
  ⟨cx - ((playerSize.tdiv 2 : Int) : ℚ), cy - ((playerSize.tdiv 2 : Int) : ℚ)⟩

/-- Source: `type World struct`. The map `Rooms` is a list of entries, the
newest first; the key `fmt.Sprintf("%d, %d", x, y)` is modelled by the pair
`(x, y)` that it prints. -/
structure World where
  Rooms : List ((Int × Int) × Room)
  RoomX : Int
  RoomY : Int
  Current : Room

/-- Source: `World.loadRoom`; `stream` is the sequence of raw numbers that
`GenerateRoom` draws from if the room has to be generated by this call. -/
def World.loadRoom (w : World) (stream : Nat → Nat) (x y : Int) : Except Fault World :=
  match w.Rooms.lookup (x, y) with
  | some r => pure ⟨w.Rooms, x, y, r⟩
  | none => do
    let r ← GenerateRoom stream x y
    pure ⟨((x, y), r) :: w.Rooms, x, y, r⟩

/-- Source: `World.MoveTo`. -/
def World.MoveTo (w : World) (stream : Nat → Nat) (dx dy : Int) : Except Fault World :=
  w.loadRoom stream (w.RoomX + dx) (w.RoomY + dy)

/-- Source: `NewWorld`: `loadRoom(0, 0)` on a world without rooms. -/
def NewWorld (stream : Nat → Nat) : Except Fault World := do
  let r ← GenerateRoom stream 0 0
  pure ⟨[((0, 0), r)], 0, 0, r⟩

/-- Source: `type Game struct`, without the image buffer. -/
structure Game where
  Player : Player
  World : World
  CamX : ℚ
  CamY : ℚ
  Transitioning : Bool
  TransitionT : ℚ
  TransitionDir : Int
  PendingRoomX : Int
  PendingRoomY : Int
  ShowRays : Bool

/-- What one call of `Game.Update` reads from outside the game state: whether
the key R was just pressed, the movement keys held, and the sequence of raw
numbers of the generator that a room generated by this call is built from. -/
structure Input where
  R : Bool
  keys : Keys
  stream : Nat → Nat

/-- Source: `NewGame`. -/
def NewGame (stream : Nat → Nat) : Except Fault Game := do
  let w ← NewWorld stream
  pure ⟨NewPlayer, w, 0, 0, false, 0, 0, 0, 0, false⟩

/-- Source: the branch `if g.Transitioning` of `Game.Update`. -/
def Game.animate (g : Game) (stream : Nat → Nat) : Except Fault Game :=
  let t := g.TransitionT + (1 / 20 : ℚ) * ((g.TransitionDir : Int) : ℚ)
  if t ≥ 1 then do
    let w ← g.World.MoveTo stream g.PendingRoomX g.PendingRoomY
    pure ⟨g.Player.SetCenter 384 284, w, g.CamX, g.CamY, g.Transitioning, t, -1,
      g.PendingRoomX, g.PendingRoomY, g.ShowRays⟩
  else if t ≤ 0 then
    pure ⟨g.Player, g.World, g.CamX, g.CamY, false, 0, g.TransitionDir,
      g.PendingRoomX, g.PendingRoomY, g.ShowRays⟩
  else
    pure ⟨g.Player, g.World, g.CamX, g.CamY, g.Transitioning, t, g.TransitionDir,
      g.PendingRoomX, g.PendingRoomY, g.ShowRays⟩

/-- Source: `Game.Update` after the animation branch: the camera, the player
and the start of a room transition. -/
def Game.play (g : Game) (keys : Keys) : Except Fault Game := do
  let tx := g.Player.X + ((playerSize.tdiv 2 : Int) : ℚ) - ((screenWidth.tdiv 2 : Int) : ℚ)
  let ty := g.Player.Y + ((playerSize.tdiv 2 : Int) : ℚ) - ((screenHeight.tdiv 2 : Int) : ℚ)
  let camX := g.CamX + (tx - g.CamX) * camLerp
  let camY := g.CamY + (ty - g.CamY) * camLerp
  let (p, dx, dy) ← g.Player.Update keys g.World.Current.Map
  if (dx ≠ 0 ∨ dy ≠ 0) ∧ g.Transitioning = false then
    pure ⟨p, g.World, camX, camY, true, 0, 1, g.World.Current.X + dx,
      g.World.Current.Y + dy, g.ShowRays⟩
  else
    pure ⟨p, g.World, camX, camY, g.Transitioning, g.TransitionT, g.TransitionDir,
      g.PendingRoomX, g.PendingRoomY, g.ShowRays⟩

/-- Source: `Game.Update`. -/
def Game.Update (g : Game) (inp : Input) : Except Fault Game :=
  let g : Game := if inp.R then
      ⟨g.Player, g.World, g.CamX, g.CamY, g.Transitioning, g.TransitionT, g.TransitionDir,
        g.PendingRoomX, g.PendingRoomY, !g.ShowRays⟩
    else g
  if g.Transitioning then g.animate inp.stream else g.play inp.keys

/-- The game after the calls of `Game.Update` with the inputs of the list,
one call per tick. -/
def Game.run (g : Game) (inps : List Input) : Except Fault Game :=
  inps.foldlM Game.Update g

/-- The states of the game that a run can be in: the state `NewGame` returns
and the states that calls of `Game.Update` lead to from it. -/
def Reachable (g : Game) : Prop :=
  ∃ (stream : Nat → Nat) (g0 : Game) (inps : List Input),
    NewGame stream = .ok g0 ∧ g0.run inps = .ok g

/-- The input of a tick with the keys given held, R not pressed, and the
generator yielding `14, 14, ...`. -/
def press (a d w s : Bool) : Input := ⟨false, ⟨a, d, w, s⟩, fun _ => 14⟩

/-- A run from the start of the game: down and left to the left wall, down to
the row of the doors, through the left door, the 40 ticks of the transition,
then up the central column. -/
def walkWest : List Input :=
  List.replicate 38 (press true false false true) ++ List.replicate 52 (press false false false true)
    ++ [press true false false false] ++ List.replicate 40 (press false false false false)
    ++ List.replicate 126 (press false false true false)

/-- The run `walkWest` from the start of the game with the generator
yielding `14, 14, ...`. -/
def westRun : Except Fault Game := do
  let g ← NewGame (fun _ => 14)
  g.run walkWest

/-- The coordinates `RoomX`, `RoomY` are those of the current room, each
stored room has the coordinates of its key, and the maps of the rooms have
the shape that `NewTileMap` builds. -/
def World.Consistent (w : World) : Prop :=
  w.RoomX = w.Current.X ∧ w.RoomY = w.Current.Y ∧ w.Current.Map.WellFormed ∧
    ∀ k r, (k, r) ∈ w.Rooms → r.X = k.1 ∧ r.Y = k.2 ∧ r.Map.WellFormed

end GameModel

/-! ## Theorems -/

section GeometryProofs

variable {K : Type} [LinearOrderedField K]

theorem intersection_of_denom_eq_zero (a b : line K) (h : denom a b = 0) :
    intersectionLog a b = ((0, 0, false), []) := by
  simp [intersectionLog, h]

theorem intersection_of_denom_ne_zero (a b : line K) (h : denom a b ≠ 0) :
    intersection a b =
      (if paramT a b < 0 ∨ paramT a b > 1 ∨ paramU a b < 0 ∨ paramU a b > 1 then (0, 0, false)
        else (a.X1 + paramT a b * (a.X2 - a.X1), a.Y1 + paramT a b * (a.Y2 - a.Y1), true)) := by
  simp only [intersection, intersectionLog, h, if_false]
  split_ifs <;> rfl

/-- When `d ≠ 0` the flag is set exactly when both parameters lie in `[0, 1]`. -/
theorem intersection_ok_iff (a b : line K) (h : denom a b ≠ 0) :
    (intersection a b).2.2 = true ↔
      (0 ≤ paramT a b ∧ paramT a b ≤ 1) ∧ (0 ≤ paramU a b ∧ paramU a b ≤ 1) := by
  rw [intersection_of_denom_ne_zero a b h]
  split_ifs with hc
  · simp only [Bool.false_eq_true, false_iff]
    rintro ⟨⟨h1, h2⟩, h3, h4⟩
    rcases hc with hc | hc | hc | hc
    · exact absurd h1 (not_le.mpr hc)
    · exact absurd h2 (not_le.mpr hc)
    · exact absurd h3 (not_le.mpr hc)
    · exact absurd h4 (not_le.mpr hc)
  · simp only [not_or, not_lt] at hc
    simp only [true_iff]
    exact ⟨⟨hc.1, hc.2.1⟩, hc.2.2.1, hc.2.2.2⟩

/-- When the flag is set the returned point is the point of `a` at parameter `t`. -/
theorem intersection_point (a b : line K) (h : (intersection a b).2.2 = true) :
    (intersection a b).1 = a.X1 + paramT a b * (a.X2 - a.X1) ∧
      (intersection a b).2.1 = a.Y1 + paramT a b * (a.Y2 - a.Y1) := by
  by_cases hd : denom a b = 0
  · simp [intersection, intersection_of_denom_eq_zero a b hd] at h
  · rw [intersection_of_denom_ne_zero a b hd] at h ⊢
    split_ifs at h ⊢ with hc
    exact ⟨rfl, rfl⟩

/-- The two parametrisations meet: the point of `a` at `t` is the point of `b` at `u`. -/
theorem param_point_eq (a b : line K) (h : denom a b ≠ 0) :
    a.X1 + paramT a b * (a.X2 - a.X1) = b.X1 + paramU a b * (b.X2 - b.X1) ∧
      a.Y1 + paramT a b * (a.Y2 - a.Y1) = b.Y1 + paramU a b * (b.Y2 - b.Y1) := by
  have h0 := h
  unfold denom at h0
  unfold paramT paramU denom
  constructor
  · field_simp
    ring
  · field_simp
    ring

/-- Any common point of the two supporting lines has the parameters `t` and `u`. -/
theorem param_unique (a b : line K) (h : denom a b ≠ 0) (s v : K)
    (hx : a.X1 + s * (a.X2 - a.X1) = b.X1 + v * (b.X2 - b.X1))
    (hy : a.Y1 + s * (a.Y2 - a.Y1) = b.Y1 + v * (b.Y2 - b.Y1)) :
    s = paramT a b ∧ v = paramU a b := by
  have h0 := h
  unfold denom at h0
  unfold paramT paramU denom
  constructor
  · rw [eq_div_iff h0]
    linear_combination (b.Y2 - b.Y1) * hx - (b.X2 - b.X1) * hy
  · rw [eq_div_iff h0]
    linear_combination (a.Y2 - a.Y1) * hx - (a.X2 - a.X1) * hy

/-- Every point of a segment common with the other one is the returned point. -/
theorem intersection_of_common_point (a b : line K) (h : denom a b ≠ 0) (x y : K)
    (ha : OnSegment a x y) (hb : OnSegment b x y) : intersection a b = (x, y, true) := by
  obtain ⟨s, hs0, hs1, hsx, hsy⟩ := ha
  obtain ⟨v, hv0, hv1, hvx, hvy⟩ := hb
  obtain ⟨hst, hvu⟩ := param_unique a b h s v (hsx ▸ hvx) (hsy ▸ hvy)
  have hok : (intersection a b).2.2 = true :=
    (intersection_ok_iff a b h).2 ⟨⟨hst ▸ hs0, hst ▸ hs1⟩, hvu ▸ hv0, hvu ▸ hv1⟩
  obtain ⟨hx, hy⟩ := intersection_point a b hok
  rw [← hst, ← hsx] at hx
  rw [← hst, ← hsy] at hy
  rw [← hx, ← hy, ← hok]

/-- The denominator vanishes exactly for parallel or degenerate pairs. -/
theorem denom_eq_zero_iff (a b : line K) : denom a b = 0 ↔ ParallelOrDegenerate a b := by
  unfold denom ParallelOrDegenerate
  constructor
  · intro h
    by_cases hbx : b.X2 - b.X1 = 0
    · by_cases hby : b.Y2 - b.Y1 = 0
      · exact Or.inr (Or.inl ⟨by linear_combination -hbx, by linear_combination -hby⟩)
      · refine Or.inr (Or.inr ⟨(a.Y2 - a.Y1) / (b.Y2 - b.Y1), ?_, ?_⟩)
        · rw [hbx, mul_zero]
          have h2 : (a.X2 - a.X1) * (b.Y2 - b.Y1) = 0 := by
            linear_combination h - (a.Y1 - a.Y2) * hbx
          rcases mul_eq_zero.mp h2 with h3 | h3
          · exact h3
          · exact absurd h3 hby
        · field_simp
    · refine Or.inr (Or.inr ⟨(a.X2 - a.X1) / (b.X2 - b.X1), ?_, ?_⟩)
      · field_simp
      · field_simp
        linear_combination -h
  · rintro (⟨h1, h2⟩ | ⟨h1, h2⟩ | ⟨k, h1, h2⟩)
    · rw [h1, h2]; ring
    · rw [h1, h2]; ring
    · linear_combination (b.Y2 - b.Y1) * h1 - (b.X2 - b.X1) * h2

/-- Every division executed by `intersection` has a non-zero divisor. -/
theorem intersectionLog_divisors_ne_zero (a b : line K) :
    ∀ d ∈ (intersectionLog a b).2, d ≠ 0 := by
  intro d hmem
  unfold intersectionLog at hmem
  by_cases hd : denom a b = 0
  · simp [hd] at hmem
  · simp only [hd, if_false] at hmem
    split_ifs at hmem <;> simp at hmem <;> rw [hmem] <;> exact hd

/-- C1: for segments with non-zero denominator `d`, `intersection` sets `ok`
exactly when the two closed segments share a point; the returned point then
lies on both segments and is their only common point; in particular a pair
that only touches at an endpoint of either segment is reported, with that
endpoint as the returned point. -/
theorem intersection_iff_segments_meet (a b : line K) (hd : denom a b ≠ 0) :
    ((intersection a b).2.2 = true ↔ ∃ x y, OnSegment a x y ∧ OnSegment b x y) ∧
    ((intersection a b).2.2 = true →
      OnSegment a (intersection a b).1 (intersection a b).2.1 ∧
      OnSegment b (intersection a b).1 (intersection a b).2.1) ∧
    (∀ x y, OnSegment a x y → OnSegment b x y → intersection a b = (x, y, true)) ∧
    (OnSegment b a.X1 a.Y1 → intersection a b = (a.X1, a.Y1, true)) ∧
    (OnSegment b a.X2 a.Y2 → intersection a b = (a.X2, a.Y2, true)) ∧
    (OnSegment a b.X1 b.Y1 → intersection a b = (b.X1, b.Y1, true)) ∧
    (OnSegment a b.X2 b.Y2 → intersection a b = (b.X2, b.Y2, true)) := by
  have hpt : (intersection a b).2.2 = true →
      OnSegment a (intersection a b).1 (intersection a b).2.1 ∧
      OnSegment b (intersection a b).1 (intersection a b).2.1 := by
    intro hok
    obtain ⟨⟨ht0, ht1⟩, hu0, hu1⟩ := (intersection_ok_iff a b hd).1 hok
    obtain ⟨hx, hy⟩ := intersection_point a b hok
    obtain ⟨hex, hey⟩ := param_point_eq a b hd
    exact ⟨⟨paramT a b, ht0, ht1, hx, hy⟩, ⟨paramU a b, hu0, hu1, hx.trans hex, hy.trans hey⟩⟩
  refine ⟨⟨fun hok => ⟨_, _, hpt hok⟩, ?_⟩, hpt, ?_, ?_, ?_, ?_, ?_⟩
  · rintro ⟨x, y, ha, hb⟩
    rw [intersection_of_common_point a b hd x y ha hb]
  · exact intersection_of_common_point a b hd
  · exact fun hb => intersection_of_common_point a b hd _ _ ⟨0, le_rfl, zero_le_one, by ring, by ring⟩ hb
  · exact fun hb => intersection_of_common_point a b hd _ _ ⟨1, zero_le_one, le_rfl, by ring, by ring⟩ hb
  · exact fun ha => intersection_of_common_point a b hd _ _ ha ⟨0, le_rfl, zero_le_one, by ring, by ring⟩
  · exact fun ha => intersection_of_common_point a b hd _ _ ha ⟨1, zero_le_one, le_rfl, by ring, by ring⟩

/-- Witness for C1: the segments from `(0,0)` to `(2,2)` and from `(2,2)` to
`(4,0)` only touch at the endpoint `(2,2)`. -/
theorem intersection_iff_segments_meet_witness :
    denom (⟨0, 0, 2, 2⟩ : line ℚ) ⟨2, 2, 4, 0⟩ ≠ 0 ∧
    OnSegment (⟨2, 2, 4, 0⟩ : line ℚ) 2 2 ∧
    intersection (⟨0, 0, 2, 2⟩ : line ℚ) ⟨2, 2, 4, 0⟩ = (2, 2, true) :=
  ⟨by norm_num [denom], ⟨0, by norm_num⟩,
    (intersection_iff_segments_meet (⟨0, 0, 2, 2⟩ : line ℚ) ⟨2, 2, 4, 0⟩
      (by norm_num [denom])).2.2.2.2.1 ⟨0, by norm_num⟩⟩

/-- C7: for a parallel (or collinear) pair, or a pair with a degenerate
segment, `intersection` returns `(0, 0, false)` and executes no division. -/
theorem intersection_parallel_no_division (a b : line K) (h : ParallelOrDegenerate a b) :
    denom a b = 0 ∧ intersection a b = (0, 0, false) ∧ (intersectionLog a b).2 = [] := by
  have hd : denom a b = 0 := (denom_eq_zero_iff a b).2 h
  refine ⟨hd, ?_, ?_⟩
  · rw [intersection, intersection_of_denom_eq_zero a b hd]
  · rw [intersection_of_denom_eq_zero a b hd]

/-- Witness for C7: the parallel segments from `(0,0)` to `(1,1)` and from
`(0,1)` to `(1,2)`. -/
theorem intersection_parallel_no_division_witness :
    ParallelOrDegenerate (⟨0, 0, 1, 1⟩ : line ℚ) ⟨0, 1, 1, 2⟩ ∧
    denom (⟨0, 0, 1, 1⟩ : line ℚ) ⟨0, 1, 1, 2⟩ = 0 ∧
    intersection (⟨0, 0, 1, 1⟩ : line ℚ) ⟨0, 1, 1, 2⟩ = (0, 0, false) ∧
    (intersectionLog (⟨0, 0, 1, 1⟩ : line ℚ) ⟨0, 1, 1, 2⟩).2 = [] :=
  ⟨Or.inr (Or.inr ⟨1, by norm_num⟩),
    intersection_parallel_no_division (⟨0, 0, 1, 1⟩ : line ℚ) ⟨0, 1, 1, 2⟩
      (Or.inr (Or.inr ⟨1, by norm_num⟩))⟩

end GeometryProofs

section RayCastingProofs

variable {K : Type} [LinearOrderedField K]

theorem nearestInv_step (px py : K) (r : line K) (done : List (line K))
    (acc : K × K × Option K) (seg : line K) (h : NearestInv px py r done acc) :
    NearestInv px py r (done ++ [seg]) (nearestStep px py r acc seg) := by
  obtain ⟨hx, hy, best⟩ := acc
  unfold nearestStep
  by_cases hok : (intersection r seg).2.2 = true
  · have hhit : intersection r seg =
        ((intersection r seg).1, (intersection r seg).2.1, true) := by
      rw [← hok]
    cases best with
    | none =>
      simp only [NearestInv] at h
      simp only [hok, if_true, NearestInv]
      refine ⟨trivial, ⟨seg, by simp, hhit⟩, ?_⟩
      intro s hs hsok
      rcases List.mem_append.mp hs with hs | hs
      · rw [h.2 s hs] at hsok
        exact absurd hsok (by simp)
      · rw [List.mem_singleton.mp hs]
    | some b =>
      simp only [NearestInv] at h
      obtain ⟨hb, ⟨s0, hs0, hs0eq⟩, hmin⟩ := h
      simp only [hok, if_true]
      by_cases hlt : sqDist px py (intersection r seg).1 (intersection r seg).2.1 < b
      · simp only [hlt, if_true, NearestInv]
        refine ⟨trivial, ⟨seg, by simp, hhit⟩, ?_⟩
        intro s hs hsok
        rcases List.mem_append.mp hs with hs | hs
        · exact le_trans (le_of_lt hlt) (hmin s hs hsok)
        · rw [List.mem_singleton.mp hs]
      · simp only [hlt, if_false, NearestInv]
        refine ⟨hb, ⟨s0, by simp [hs0], hs0eq⟩, ?_⟩
        intro s hs hsok
        rcases List.mem_append.mp hs with hs | hs
        · exact hmin s hs hsok
        · rw [List.mem_singleton.mp hs]
          exact not_lt.mp hlt
  · have hok2 : (intersection r seg).2.2 = false := by simpa using hok
    simp only [hok2, Bool.false_eq_true, if_false]
    cases best with
    | none =>
      simp only [NearestInv] at h ⊢
      refine ⟨h.1, ?_⟩
      intro s hs
      rcases List.mem_append.mp hs with hs | hs
      · exact h.2 s hs
      · rw [List.mem_singleton.mp hs]; exact hok2
    | some b =>
      simp only [NearestInv] at h ⊢
      obtain ⟨hb, ⟨s0, hs0, hs0eq⟩, hmin⟩ := h
      refine ⟨hb, ⟨s0, by simp [hs0], hs0eq⟩, ?_⟩
      intro s hs hsok
      rcases List.mem_append.mp hs with hs | hs
      · exact hmin s hs hsok
      · rw [List.mem_singleton.mp hs, hok2] at hsok
        exact absurd hsok (by simp)

theorem nearestInv_foldl (px py : K) (r : line K) (segs done : List (line K))
    (acc : K × K × Option K) (h : NearestInv px py r done acc) :
    NearestInv px py r (done ++ segs) (segs.foldl (nearestStep px py r) acc) := by
  induction segs generalizing done acc with
  | nil => simpa using h
  | cons seg rest ih =>
    have h2 := ih (done ++ [seg]) (nearestStep px py r acc seg) (nearestInv_step px py r done acc seg h)
    simpa using h2

/-- The inner loop of `castRays` establishes its invariant for the whole list. -/
theorem nearestInv_all (px py : K) (r : line K) (segs : List (line K)) :
    NearestInv px py r segs (segs.foldl (nearestStep px py r) (0, 0, none)) := by
  have h0 : NearestInv px py r [] ((0, 0, none) : K × K × Option K) := by
    simp [NearestInv]
  simpa using nearestInv_foldl px py r segs [] (0, 0, none) h0

/-- A probe that meets a segment ends at a nearest valid intersection. -/
theorem castRay_of_hit (px py : K) (r : line K) (segs : List (line K))
    (hhit : ∃ s ∈ segs, (intersection r s).2.2 = true) :
    (∃ s ∈ segs, intersection r s = ((castRay px py segs r).X2, (castRay px py segs r).Y2, true)) ∧
    ∀ s ∈ segs, (intersection r s).2.2 = true →
      sqDist px py (castRay px py segs r).X2 (castRay px py segs r).Y2 ≤
        sqDist px py (intersection r s).1 (intersection r s).2.1 := by
  have h := nearestInv_all px py r segs
  unfold castRay
  generalize segs.foldl (nearestStep px py r) (0, 0, none) = acc at h ⊢
  obtain ⟨hx, hy, best⟩ := acc
  cases best with
  | none =>
    simp only [NearestInv] at h
    obtain ⟨s, hs, hsok⟩ := hhit
    rw [h.2 s hs] at hsok
    exact absurd hsok (by simp)
  | some b =>
    simp only [NearestInv] at h
    obtain ⟨hb, hex, hmin⟩ := h
    exact ⟨hex, fun s hs hsok => hb ▸ hmin s hs hsok⟩

/-- A probe that meets no segment yields the ray from the viewer to `(0, 0)`. -/
theorem castRay_of_no_hit (px py : K) (r : line K) (segs : List (line K))
    (hmiss : ∀ s ∈ segs, (intersection r s).2.2 = false) :
    castRay px py segs r = ⟨px, py, 0, 0⟩ := by
  have h := nearestInv_all px py r segs
  unfold castRay
  generalize segs.foldl (nearestStep px py r) (0, 0, none) = acc at h ⊢
  obtain ⟨hx, hy, best⟩ := acc
  cases best with
  | none =>
    simp only [NearestInv] at h
    obtain ⟨h1, -⟩ := h
    simp only [Prod.mk.injEq] at h1
    simp [h1.1, h1.2.1]
  | some b =>
    simp only [NearestInv] at h
    obtain ⟨-, ⟨s, hs, hseq⟩, -⟩ := h
    have := hmiss s hs
    rw [hseq] at this
    exact absurd this (by simp)

theorem castRaysUnsorted_eq_map (T : Trig K) (px py : K) (segs : List (line K)) :
    castRaysUnsorted T px py segs = (probes T px py segs).map (castRay px py segs) := by
  unfold castRaysUnsorted probes probe
  rw [List.map_flatMap]
  simp

theorem probes_length (T : Trig K) (px py : K) (segs : List (line K)) :
    (probes T px py segs).length = 4 * segs.length := by
  unfold probes
  induction segs with
  | nil => rfl
  | cons s rest ih =>
    simp only [List.flatMap_cons, List.length_append, ih, List.length_cons, List.length_nil]
    ring

theorem sortSlice_perm {α : Type} (less : α → α → Bool) (xs : List α) :
    (sortSlice less xs).Perm xs :=
  List.perm_insertionSort _ xs

theorem castRays_perm (T : Trig K) (px py : K) (segs : List (line K)) :
    (castRays T px py segs).Perm (castRaysUnsorted T px py segs) :=
  sortSlice_perm _ _

theorem sortSlice_sorted_by_key {α : Type} (key : α → K) (xs : List α) :
    (sortSlice (fun a b => decide (key a < key b)) xs).Pairwise (fun a b => key a ≤ key b) := by
  unfold sortSlice
  haveI : IsTotal α (fun a b => decide (key b < key a) = false) :=
    ⟨fun a b => by
      simp only [decide_eq_false_iff_not, not_lt]
      exact le_total (key a) (key b)⟩
  haveI : IsTrans α (fun a b => decide (key b < key a) = false) :=
    ⟨fun a b c hab hbc => by
      simp only [decide_eq_false_iff_not, not_lt] at hab hbc ⊢
      exact le_trans hab hbc⟩
  have h := List.sorted_insertionSort (fun a b => decide (key b < key a) = false) xs
  refine List.Pairwise.imp ?_ h
  intro a b hab
  simpa using hab

/-- C3: every ray returned by `castRays` is the ray computed for one of the
probe rays, and every probe ray has its ray in the result; when the probe meets
at least one segment, its ray starts at the viewer and ends at a valid
intersection of the probe with a segment of the list, and no valid
intersection of the probe with a segment of the list is strictly nearer to the
viewer (in squared distance). -/
theorem castRays_nearest_hit (T : Trig K) (px py : K) (segs : List (line K)) :
    (∀ ray ∈ castRays T px py segs, ∃ r ∈ probes T px py segs, ray = castRay px py segs r) ∧
    (∀ r ∈ probes T px py segs,
      castRay px py segs r ∈ castRays T px py segs ∧
      (castRay px py segs r).X1 = px ∧ (castRay px py segs r).Y1 = py ∧
      ((∃ s ∈ segs, (intersection r s).2.2 = true) →
        (∃ s ∈ segs, intersection r s =
          ((castRay px py segs r).X2, (castRay px py segs r).Y2, true)) ∧
        ∀ s ∈ segs, (intersection r s).2.2 = true →
          sqDist px py (castRay px py segs r).X2 (castRay px py segs r).Y2 ≤
            sqDist px py (intersection r s).1 (intersection r s).2.1)) := by
  have hmem : ∀ ray, ray ∈ castRays T px py segs ↔
      ray ∈ (probes T px py segs).map (castRay px py segs) := by
    intro ray
    rw [← castRaysUnsorted_eq_map]
    exact (castRays_perm T px py segs).mem_iff
  constructor
  · intro ray hray
    obtain ⟨r, hr, hre⟩ := List.mem_map.mp ((hmem ray).1 hray)
    exact ⟨r, hr, hre.symm⟩
  · intro r hr
    exact ⟨(hmem _).2 (List.mem_map.mpr ⟨r, hr, rfl⟩), rfl, rfl, castRay_of_hit px py r segs⟩

/-- Witness for C3: the viewer at `(0, 0)`, one segment from `(100, -1)` to
`(100, 1)`, and the probe ray that ends at `(7999639/4000, 19)`, which meets
the segment. -/
theorem castRays_nearest_hit_witness :
    (⟨0, 0, 7999639 / 4000, 19⟩ : line ℚ) ∈ probes trigQ 0 0 [⟨100, -1, 100, 1⟩] ∧
    (∃ s ∈ [(⟨100, -1, 100, 1⟩ : line ℚ)],
      (intersection (⟨0, 0, 7999639 / 4000, 19⟩ : line ℚ) s).2.2 = true) ∧
    ((∃ s ∈ [(⟨100, -1, 100, 1⟩ : line ℚ)],
        intersection (⟨0, 0, 7999639 / 4000, 19⟩ : line ℚ) s =
          ((castRay 0 0 [⟨100, -1, 100, 1⟩] (⟨0, 0, 7999639 / 4000, 19⟩ : line ℚ)).X2,
           (castRay 0 0 [⟨100, -1, 100, 1⟩] (⟨0, 0, 7999639 / 4000, 19⟩ : line ℚ)).Y2, true)) ∧
      ∀ s ∈ [(⟨100, -1, 100, 1⟩ : line ℚ)],
        (intersection (⟨0, 0, 7999639 / 4000, 19⟩ : line ℚ) s).2.2 = true →
          sqDist 0 0 (castRay 0 0 [⟨100, -1, 100, 1⟩] (⟨0, 0, 7999639 / 4000, 19⟩ : line ℚ)).X2
              (castRay 0 0 [⟨100, -1, 100, 1⟩] (⟨0, 0, 7999639 / 4000, 19⟩ : line ℚ)).Y2 ≤
            sqDist 0 0 (intersection (⟨0, 0, 7999639 / 4000, 19⟩ : line ℚ) s).1
              (intersection (⟨0, 0, 7999639 / 4000, 19⟩ : line ℚ) s).2.1) :=
  have hr : (⟨0, 0, 7999639 / 4000, 19⟩ : line ℚ) ∈ probes trigQ 0 0 [⟨100, -1, 100, 1⟩] := by
    simp only [probes, probe, newRay, trigQ, rayLen, List.flatMap_cons, List.flatMap_nil,
      List.append_nil, List.mem_cons, line.mk.injEq]
    norm_num
  have hhit : ∃ s ∈ [(⟨100, -1, 100, 1⟩ : line ℚ)],
      (intersection (⟨0, 0, 7999639 / 4000, 19⟩ : line ℚ) s).2.2 = true := by
    refine ⟨_, List.mem_singleton_self _, ?_⟩
    rw [intersection_ok_iff _ _ (by norm_num [denom])]
    norm_num [paramT, paramU, denom]
  ⟨hr, hhit, ((castRays_nearest_hit trigQ 0 0 [⟨100, -1, 100, 1⟩]).2 _ hr).2.2.2 hhit⟩

/-- C5: the list returned by `castRays` is ordered by non-decreasing `angle`
and is a permutation of the rays computed for the probes, which are two for
each endpoint of each segment (so four per segment). -/
theorem castRays_sorted_perm (T : Trig K) (px py : K) (segs : List (line K)) :
    (castRays T px py segs).Pairwise (fun a b => a.angle T ≤ b.angle T) ∧
    (castRays T px py segs).Perm ((probes T px py segs).map (castRay px py segs)) ∧
    probes T px py segs = segs.flatMap (fun s =>
      [probe T px py s.X1 s.Y1 (-0.0005), probe T px py s.X1 s.Y1 0.0005,
       probe T px py s.X2 s.Y2 (-0.0005), probe T px py s.X2 s.Y2 0.0005]) ∧
    (castRays T px py segs).length = 4 * segs.length := by
  refine ⟨sortSlice_sorted_by_key _ _, ?_, rfl, ?_⟩
  · rw [← castRaysUnsorted_eq_map]
    exact castRays_perm T px py segs
  · rw [(castRays_perm T px py segs).length_eq, castRaysUnsorted_eq_map, List.length_map,
      probes_length]

/-- A ray from `(3, 7)` never meets the segment from `(4, 7)` to `(5, 7)`, which
lies on a line through the viewer, whatever its direction. -/
theorem intersection_collinear_viewer (c s : K) :
    (intersection (⟨3, 7, 3 + 2000 * c, 7 + 2000 * s⟩ : line K) ⟨4, 7, 5, 7⟩).2.2 = false := by
  by_cases hs : s = 0
  · have hd : denom (⟨3, 7, 3 + 2000 * c, 7 + 2000 * s⟩ : line K) ⟨4, 7, 5, 7⟩ = 0 := by
      simp only [denom, hs]; ring
    rw [intersection, intersection_of_denom_eq_zero _ _ hd]
  · have hd : denom (⟨3, 7, 3 + 2000 * c, 7 + 2000 * s⟩ : line K) ⟨4, 7, 5, 7⟩ ≠ 0 := by
      simp only [denom]
      intro h
      apply hs
      have h2 : (2000 : K) * s = 0 := by linear_combination -h
      rcases mul_eq_zero.mp h2 with h3 | h3
      · norm_num at h3
      · exact h3
    have hu : paramU (⟨3, 7, 3 + 2000 * c, 7 + 2000 * s⟩ : line K) ⟨4, 7, 5, 7⟩ = -1 := by
      have hd0 := hd
      unfold denom at hd0
      unfold paramU denom
      rw [div_eq_iff hd0]
      ring
    by_contra hne
    have hok := (intersection_ok_iff _ _ hd).1 (by simpa using hne)
    rw [hu] at hok
    linarith [hok.2.1]

/-- C4, at a failing input: for the viewer `(3, 7)` and the single segment from
`(4, 7)` to `(5, 7)`, whatever the trigonometric functions return, none of the
four probe rays meets the segment and every ray returned by `castRays` ends at
`(0, 0)`, not at the end of its probe. -/
theorem castRays_miss_ends_at_origin (T : Trig K) :
    (probes T 3 7 [⟨4, 7, 5, 7⟩]).all
        (fun r => !(intersection r (⟨4, 7, 5, 7⟩ : line K)).2.2) = true ∧
    castRays T 3 7 [⟨4, 7, 5, 7⟩] =
      [⟨3, 7, 0, 0⟩, ⟨3, 7, 0, 0⟩, ⟨3, 7, 0, 0⟩, ⟨3, 7, 0, 0⟩] := by
  have hall : ∀ r ∈ probes T 3 7 [(⟨4, 7, 5, 7⟩ : line K)],
      ∀ s ∈ [(⟨4, 7, 5, 7⟩ : line K)], (intersection r s).2.2 = false := by
    intro r hr s hs
    rw [List.mem_singleton.mp hs]
    simp only [probes, probe, newRay, rayLen, List.flatMap_cons, List.flatMap_nil,
      List.append_nil, List.mem_cons, List.mem_singleton, List.not_mem_nil, or_false] at hr
    rcases hr with hr | hr | hr | hr <;> rw [hr] <;> exact intersection_collinear_viewer _ _
  constructor
  · rw [List.all_eq_true]
    intro r hr
    simp [hall r hr _ (List.mem_singleton_self _)]
  · have hmap : (probes T 3 7 [(⟨4, 7, 5, 7⟩ : line K)]).map (castRay 3 7 [⟨4, 7, 5, 7⟩]) =
        [⟨3, 7, 0, 0⟩, ⟨3, 7, 0, 0⟩, ⟨3, 7, 0, 0⟩, ⟨3, 7, 0, 0⟩] := by
      have h4 : (probes T 3 7 [(⟨4, 7, 5, 7⟩ : line K)]).length = 4 := by
        rw [probes_length]; rfl
      have hc : ∀ r ∈ probes T 3 7 [(⟨4, 7, 5, 7⟩ : line K)],
          castRay 3 7 [⟨4, 7, 5, 7⟩] r = ⟨3, 7, 0, 0⟩ :=
        fun r hr => castRay_of_no_hit 3 7 r _ (hall r hr)
      rw [List.map_congr_left hc]
      generalize probes T 3 7 [(⟨4, 7, 5, 7⟩ : line K)] = l at h4
      match l, h4 with
      | [_, _, _, _], _ => rfl
    unfold castRays
    rw [castRaysUnsorted_eq_map, hmap]
    simp [sortSlice, List.insertionSort, List.orderedInsert]

end RayCastingProofs

section TileProofs

theorem index_eq_ok_iff {α : Type} (xs : List α) (i : Int) (a : α) :
    index xs i = .ok a ↔ 0 ≤ i ∧ xs[i.toNat]? = some a := by
  unfold index
  by_cases hi : i < 0
  · simp only [hi, if_true]
    constructor
    · intro h; cases h
    · intro h; exact absurd h.1 (not_le.mpr hi)
  · simp only [hi, if_false]
    have hi2 : 0 ≤ i := not_lt.mp hi
    cases hget : xs[i.toNat]? with
    | none => simp
    | some b => simp [hi2]

theorem index_of_lt {α : Type} (xs : List α) (i : Int) (h0 : 0 ≤ i) (h1 : i < (xs.length : Int)) :
    ∃ a, xs[i.toNat]? = some a ∧ index xs i = .ok a := by
  have hlt : i.toNat < xs.length := by omega
  refine ⟨xs[i.toNat], List.getElem?_eq_getElem hlt, ?_⟩
  rw [index_eq_ok_iff]
  exact ⟨h0, List.getElem?_eq_getElem hlt⟩

theorem inBounds_iff (m : TileMap) (x y : Int) :
    m.InBounds x y = true ↔ 0 ≤ x ∧ x < m.W ∧ 0 ≤ y ∧ y < m.H := by
  simp only [TileMap.InBounds, Bool.and_eq_true, decide_eq_true_eq, ge_iff_le]
  tauto

theorem at_out_of_bounds (m : TileMap) (x y : Int) (h : m.InBounds x y = false) :
    m.At x y = .ok ⟨TileWall⟩ := by
  simp [TileMap.At, h]

theorem at_in_bounds_iff (m : TileMap) (x y : Int) (h : m.InBounds x y = true) (t : Tile) :
    m.At x y = .ok t ↔ ∃ row, m.Data[y.toNat]? = some row ∧ row[x.toNat]? = some t := by
  obtain ⟨hx0, -, hy0, -⟩ := (inBounds_iff m x y).1 h
  simp only [TileMap.At, h, Bool.not_true, Bool.false_eq_true, if_false]
  constructor
  · intro hat
    cases hrow : index m.Data y with
    | error e => rw [hrow] at hat; cases hat
    | ok row =>
      rw [hrow] at hat
      exact ⟨row, ((index_eq_ok_iff _ _ _).1 hrow).2, ((index_eq_ok_iff _ _ _).1 hat).2⟩
  · rintro ⟨row, hrow, ht⟩
    rw [(index_eq_ok_iff m.Data y row).2 ⟨hy0, hrow⟩]
    exact (index_eq_ok_iff row x t).2 ⟨hx0, ht⟩

/-- On a well-formed map an in-bounds query returns the tile stored at `Data[y][x]`. -/
theorem at_in_bounds (m : TileMap) (hwf : m.WellFormed) (x y : Int) (h : m.InBounds x y = true) :
    (∃ row, m.Data[y.toNat]? = some row ∧ row[x.toNat]? = some (m.stored x y)) ∧
      m.At x y = .ok (m.stored x y) := by
  obtain ⟨hx0, hx1, hy0, hy1⟩ := (inBounds_iff m x y).1 h
  obtain ⟨hH, hW⟩ := hwf
  have hylt : y.toNat < m.Data.length := by omega
  have hrowmem : m.Data[y.toNat] ∈ m.Data := List.getElem_mem hylt
  have hxlt : x.toNat < (m.Data[y.toNat]).length := by
    have := hW _ hrowmem
    omega
  have hex : ∃ row, m.Data[y.toNat]? = some row ∧ row[x.toNat]? = some (m.stored x y) := by
    refine ⟨m.Data[y.toNat], List.getElem?_eq_getElem hylt, ?_⟩
    rw [List.getElem?_eq_getElem hxlt]
    simp [TileMap.stored, List.getD_eq_getElem?_getD, List.getElem?_eq_getElem hylt,
      List.getElem?_eq_getElem hxlt]
  exact ⟨hex, (at_in_bounds_iff m x y h _).2 hex⟩

/-- On a well-formed map every query returns a tile: the stored one in bounds,
a wall outside. -/
theorem at_eq (m : TileMap) (hwf : m.WellFormed) (x y : Int) :
    m.At x y = .ok (m.tileAt x y) := by
  unfold TileMap.tileAt
  cases h : m.InBounds x y with
  | true => simpa using (at_in_bounds m hwf x y h).2
  | false => simpa using at_out_of_bounds m x y h

/-- C2: outside `0 ≤ x < W`, `0 ≤ y < H` the query `At` returns a wall tile and
does not fail, for every map; inside, it returns a tile exactly when that tile
is stored at `Data[y][x]`, and on a map of the shape built by `NewTileMap`
(`H` rows of `W` tiles) that entry exists, so `At` returns it. -/
theorem at_closed_world (m : TileMap) (x y : Int) :
    (¬(0 ≤ x ∧ x < m.W ∧ 0 ≤ y ∧ y < m.H) → m.At x y = .ok ⟨TileWall⟩) ∧
    ((0 ≤ x ∧ x < m.W ∧ 0 ≤ y ∧ y < m.H) →
      (∀ t, m.At x y = .ok t ↔ ∃ row, m.Data[y.toNat]? = some row ∧ row[x.toNat]? = some t) ∧
      (m.WellFormed → ∃ row t, m.Data[y.toNat]? = some row ∧ row[x.toNat]? = some t ∧
        m.At x y = .ok t)) := by
  constructor
  · intro h
    apply at_out_of_bounds
    rw [← Bool.not_eq_true, inBounds_iff]
    exact h
  · intro h
    have hin := (inBounds_iff m x y).2 h
    refine ⟨at_in_bounds_iff m x y hin, ?_⟩
    intro hwf
    obtain ⟨⟨row, hrow, ht⟩, hat⟩ := at_in_bounds m hwf x y hin
    exact ⟨row, _, hrow, ht, hat⟩

/-- Witness for C2 on the 3×3 map with a centre wall: `(5, 5)` is outside,
`(1, 1)` is inside. -/
theorem at_closed_world_witness :
    (¬(0 ≤ (5 : Int) ∧ (5 : Int) < pillarMap.W ∧ 0 ≤ (5 : Int) ∧ (5 : Int) < pillarMap.H) ∧
      pillarMap.At 5 5 = .ok ⟨TileWall⟩) ∧
    ((0 ≤ (1 : Int) ∧ (1 : Int) < pillarMap.W ∧ 0 ≤ (1 : Int) ∧ (1 : Int) < pillarMap.H) ∧
      pillarMap.WellFormed ∧
      ∃ row t, pillarMap.Data[(1 : Int).toNat]? = some row ∧ row[(1 : Int).toNat]? = some t ∧
        pillarMap.At 1 1 = .ok t) :=
  ⟨⟨by decide, (at_closed_world pillarMap 5 5).1 (by decide)⟩,
    by decide, by decide, ((at_closed_world pillarMap 1 1).2 (by decide)).2 (by decide)⟩

/-- The map built by `NewTileMap` has `H` rows of `W` tiles. -/
theorem newTileMap_wellFormed (w h : Int) (m : TileMap) (hm : NewTileMap w h = .ok m) :
    m.WellFormed ∧ m.W = w ∧ m.H = h := by
  unfold NewTileMap at hm
  split_ifs at hm with h1 h2
  injection hm with hm
  subst hm
  refine ⟨⟨?_, ?_⟩, rfl, rfl⟩
  · simp only [List.length_replicate]
    omega
  · intro row hrow
    obtain ⟨hne, rfl⟩ := List.mem_replicate.1 hrow
    simp only [List.length_replicate]
    have hpos : 0 < h := by omega
    have : ¬(w < 0) := fun hw => h2 ⟨hpos, hw⟩
    omega

/-- On a well-formed map `Set` does not fail and keeps the shape and the size. -/
theorem set_wellFormed (m : TileMap) (hwf : m.WellFormed) (x y : Int) (t : TileType) :
    ∃ m2, m.Set x y t = .ok m2 ∧ m2.WellFormed ∧ m2.W = m.W ∧ m2.H = m.H := by
  unfold TileMap.Set
  cases hin : m.InBounds x y with
  | false => exact ⟨m, by simp [pure, Except.pure], hwf, rfl, rfl⟩
  | true =>
    obtain ⟨hx0, hx1, hy0, hy1⟩ := (inBounds_iff m x y).1 hin
    obtain ⟨hH, hW⟩ := hwf
    have hylt : y.toNat < m.Data.length := by omega
    have hrowlen := hW _ (List.getElem_mem hylt)
    have hxlt : x.toNat < (m.Data[y.toNat]).length := by omega
    have hi1 : index m.Data y = .ok (m.Data[y.toNat]) :=
      (index_eq_ok_iff _ _ _).2 ⟨hy0, List.getElem?_eq_getElem hylt⟩
    have ha1 : assign (m.Data[y.toNat]) x (⟨t⟩ : Tile) =
        .ok ((m.Data[y.toNat]).set x.toNat ⟨t⟩) := by
      unfold assign
      rw [if_neg]
      rintro (h | h) <;> omega
    have ha2 : assign m.Data y ((m.Data[y.toNat]).set x.toNat ⟨t⟩) =
        .ok (m.Data.set y.toNat ((m.Data[y.toNat]).set x.toNat ⟨t⟩)) := by
      unfold assign
      rw [if_neg]
      rintro (h | h) <;> omega
    refine ⟨{ m with Data := m.Data.set y.toNat ((m.Data[y.toNat]).set x.toNat ⟨t⟩) }, ?_, ?_,
      rfl, rfl⟩
    · simp only [if_true, bind, Except.bind, hi1, ha1, ha2, pure, Except.pure]
    · refine ⟨by simp only [List.length_set]; exact hH, ?_⟩
      intro row hrow
      rcases List.mem_or_eq_of_mem_set hrow with h | h
      · exact hW row h
      · rw [h, List.length_set]
        exact hrowlen

end TileProofs

section SegmentProofs

variable {K : Type} [LinearOrderedField K]

theorem mem_intsFromTo (lo hi x : Int) : x ∈ intsFromTo lo hi ↔ lo ≤ x ∧ x ≤ hi := by
  unfold intsFromTo
  simp only [List.mem_map, List.mem_range]
  constructor
  · rintro ⟨i, hi1, rfl⟩
    omega
  · intro h
    exact ⟨(x - lo).toNat, by omega, by omega⟩

theorem nodup_intsFromTo (lo hi : Int) : (intsFromTo lo hi).Nodup := by
  unfold intsFromTo
  refine List.Nodup.map ?_ (List.nodup_range _)
  intro a b hab
  simpa using hab

/-- A loop whose body never fails computes the fold of the body's results. -/
theorem foldlM_eq_ok {α β : Type} (f : β → α → Except Fault β) (g : β → α → β) (l : List α)
    (h : ∀ b, ∀ a ∈ l, f b a = .ok (g b a)) (b : β) :
    l.foldlM f b = .ok (l.foldl g b) := by
  induction l generalizing b with
  | nil => rfl
  | cons a rest ih =>
    rw [List.foldlM_cons, h b a (List.mem_cons_self _ _)]
    exact ih (fun b2 a2 ha2 => h b2 a2 (List.mem_cons_of_mem _ ha2)) (g b a)

theorem foldl_append_eq_flatMap {α β : Type} (g : α → List β) (l : List α) (init : List β) :
    l.foldl (fun out a => out ++ g a) init = init ++ l.flatMap g := by
  induction l generalizing init with
  | nil => simp
  | cons a rest ih => simp [ih, List.append_assoc]

theorem filter_flatMap_eq {α β : Type} (p : α → Bool) (g : α → List β) (l : List α) :
    (l.filter p).flatMap g = l.flatMap (fun a => if p a then g a else []) := by
  induction l with
  | nil => rfl
  | cons a rest ih =>
    by_cases hp : p a = true
    · simp [List.filter_cons, hp, ih]
    · simp [List.filter_cons, hp, ih]

theorem mem_cells (m : TileMap) (x y : Int) : (x, y) ∈ m.cells ↔ m.InBounds x y = true := by
  unfold TileMap.cells
  simp only [List.mem_flatMap, List.mem_map, Prod.mk.injEq, mem_intsFromTo, inBounds_iff]
  constructor
  · rintro ⟨y2, hy2, x2, hx2, rfl, rfl⟩
    omega
  · intro h
    exact ⟨y, by omega, x, by omega, rfl, rfl⟩

theorem nodup_cells (m : TileMap) : m.cells.Nodup := by
  unfold TileMap.cells
  rw [List.nodup_flatMap]
  constructor
  · intro y _
    refine List.Nodup.map ?_ (nodup_intsFromTo _ _)
    intro a b hab
    simpa using hab
  · refine List.Pairwise.imp_of_mem ?_ (nodup_intsFromTo 0 (m.H - 1))
    intro a b _ _ hab
    simp only [Function.onFun, List.disjoint_left, List.mem_map]
    rintro c ⟨x1, _, rfl⟩ ⟨x2, _, h2⟩
    simp only [Prod.mk.injEq] at h2
    exact hab h2.2.symm

theorem mapSegments_eq (m : TileMap) (hwf : m.WellFormed) :
    (MapSegments m : Except Fault (List (line K))) =
      .ok (m.wallCells.flatMap fun c => tileRectToLines c.1 c.2) := by
  have hcell : ∀ y ∈ intsFromTo 0 (m.H - 1), ∀ (out : List (line K)),
      ∀ x ∈ intsFromTo 0 (m.W - 1), mapSegmentsCell m y out x =
        .ok (out ++ if (m.stored x y).«Type» = TileWall then tileRectToLines x y else []) := by
    intro y hy out x hx
    have hin : m.InBounds x y = true := by
      rw [inBounds_iff]
      rw [mem_intsFromTo] at hx hy
      omega
    unfold mapSegmentsCell
    rw [(at_in_bounds m hwf x y hin).2]
    by_cases hw : (m.stored x y).«Type» = TileWall
    · simp [hw, bind, Except.bind, pure, Except.pure]
    · simp [hw, bind, Except.bind, pure, Except.pure]
  have hrow : ∀ (out : List (line K)), ∀ y ∈ intsFromTo 0 (m.H - 1),
      (intsFromTo 0 (m.W - 1)).foldlM (mapSegmentsCell m y) out =
        .ok (out ++ (intsFromTo 0 (m.W - 1)).flatMap fun x =>
          if (m.stored x y).«Type» = TileWall then tileRectToLines x y else []) := by
    intro out y hy
    rw [foldlM_eq_ok _ _ _ (fun b a ha => hcell y hy b a ha), foldl_append_eq_flatMap]
  unfold MapSegments
  rw [foldlM_eq_ok _ _ _ hrow, foldl_append_eq_flatMap]
  unfold TileMap.wallCells TileMap.cells
  rw [filter_flatMap_eq, List.flatMap_assoc]
  simp [List.flatMap_map]

theorem mem_wallCells (m : TileMap) (hwf : m.WellFormed) (x y : Int) :
    (x, y) ∈ m.wallCells ↔
      (0 ≤ x ∧ x < m.W ∧ 0 ≤ y ∧ y < m.H) ∧ m.At x y = .ok ⟨TileWall⟩ := by
  unfold TileMap.wallCells
  rw [List.mem_filter, mem_cells, ← inBounds_iff]
  constructor
  · rintro ⟨hin, hw⟩
    refine ⟨hin, ?_⟩
    rw [(at_in_bounds m hwf x y hin).2]
    have hw2 : (m.stored x y).«Type» = TileWall := by simpa using hw
    rw [← hw2]
  · rintro ⟨hin, hat⟩
    refine ⟨hin, ?_⟩
    rw [(at_in_bounds m hwf x y hin).2] at hat
    have h2 : m.stored x y = ⟨TileWall⟩ := by injection hat
    simp [h2]

theorem tileRectToLines_eq (tx ty : Int) :
    (tileRectToLines tx ty : List (line K)) =
      [⟨(tx : K) * 32, (ty : K) * 32, ((tx : K) + 1) * 32, (ty : K) * 32⟩,
       ⟨((tx : K) + 1) * 32, (ty : K) * 32, ((tx : K) + 1) * 32, ((ty : K) + 1) * 32⟩,
       ⟨((tx : K) + 1) * 32, ((ty : K) + 1) * 32, (tx : K) * 32, ((ty : K) + 1) * 32⟩,
       ⟨(tx : K) * 32, ((ty : K) + 1) * 32, (tx : K) * 32, (ty : K) * 32⟩] := by
  have h1 : (tx : K) * 32 + 32 = ((tx : K) + 1) * 32 := by ring
  have h2 : (ty : K) * 32 + 32 = ((ty : K) + 1) * 32 := by ring
  simp only [tileRectToLines, cellSize]
  push_cast
  simp only [h1, h2]

theorem length_flatMap_tileRectToLines (cs : List (Int × Int)) :
    (cs.flatMap fun c => (tileRectToLines c.1 c.2 : List (line K))).length = 4 * cs.length := by
  induction cs with
  | nil => rfl
  | cons c rest ih =>
    rw [List.flatMap_cons, List.length_append, ih, List.length_cons]
    simp only [tileRectToLines, List.length_cons, List.length_nil]
    ring

/-- C6: on a map of the shape built by `NewTileMap`, `MapSegments` returns, for
the in-bounds wall cells taken in row-major order, the four sides of each
cell's square with corners `(x*32, y*32)` and `((x+1)*32, (y+1)*32)`, and
nothing else; each wall cell is taken once, so the length is four times the
number of wall cells (no merging of shared edges). -/
theorem mapSegments_four_per_wall (m : TileMap) (hwf : m.WellFormed) :
    (MapSegments m : Except Fault (List (line K))) =
      .ok (m.wallCells.flatMap fun c => tileRectToLines c.1 c.2) ∧
    (∀ x y, (x, y) ∈ m.wallCells ↔
      (0 ≤ x ∧ x < m.W ∧ 0 ≤ y ∧ y < m.H) ∧ m.At x y = .ok ⟨TileWall⟩) ∧
    m.wallCells.Nodup ∧
    (∀ tx ty : Int, (tileRectToLines tx ty : List (line K)) =
      [⟨(tx : K) * 32, (ty : K) * 32, ((tx : K) + 1) * 32, (ty : K) * 32⟩,
       ⟨((tx : K) + 1) * 32, (ty : K) * 32, ((tx : K) + 1) * 32, ((ty : K) + 1) * 32⟩,
       ⟨((tx : K) + 1) * 32, ((ty : K) + 1) * 32, (tx : K) * 32, ((ty : K) + 1) * 32⟩,
       ⟨(tx : K) * 32, ((ty : K) + 1) * 32, (tx : K) * 32, (ty : K) * 32⟩]) ∧
    (∀ segs : List (line K), MapSegments m = .ok segs →
      segs.length = 4 * m.wallCells.length) := by
  refine ⟨mapSegments_eq m hwf, mem_wallCells m hwf, ?_, tileRectToLines_eq, ?_⟩
  · exact (nodup_cells m).filter _
  · intro segs hsegs
    rw [mapSegments_eq m hwf] at hsegs
    injection hsegs with hsegs
    rw [← hsegs, length_flatMap_tileRectToLines]

/-- Witness for C6: the 3×3 map with a centre wall yields the four sides of the
square from `(32, 32)` to `(64, 64)`. -/
theorem mapSegments_four_per_wall_witness :
    pillarMap.WellFormed ∧
    (MapSegments pillarMap : Except Fault (List (line ℚ))) =
      .ok [⟨32, 32, 64, 32⟩, ⟨64, 32, 64, 64⟩, ⟨64, 64, 32, 64⟩, ⟨32, 64, 32, 32⟩] :=
  ⟨by decide, by
    rw [(@mapSegments_four_per_wall ℚ _ pillarMap (by decide)).1]
    have hc : pillarMap.wallCells = [(1, 1)] := by decide
    rw [hc]
    simp only [List.flatMap_cons, List.flatMap_nil, List.append_nil, tileRectToLines_eq]
    norm_num⟩

end SegmentProofs

section LineOfSightProofs

theorem goInt_intCast (n : Int) : goInt (n : ℚ) = n := by
  unfold goInt
  split_ifs
  · exact Int.floor_intCast n
  · exact Int.ceil_intCast n

/-- One iteration of the loop of `hasLOS` on a well-formed map. -/
theorem hasLOSLoop_succ (m : TileMap) (hwf : m.WellFormed)
    (pcx pcy x1 y1 dx dy sx sy : Int) (fuel : Nat) (x0 y0 err : Int) :
    hasLOSLoop m pcx pcy x1 y1 dx dy sx sy (fuel + 1) x0 y0 err =
      if x0 = x1 ∧ y0 = y1 then .ok true
      else if ¬(x0 = pcx ∧ y0 = pcy) ∧ (m.tileAt x0 y0).«Type» = TileWall then .ok false
      else hasLOSLoop m pcx pcy x1 y1 dx dy sx sy fuel
        (if 2 * err > -dy then x0 + sx else x0)
        (if 2 * err < dx then y0 + sy else y0)
        (if 2 * err < dx then (if 2 * err > -dy then err - dy else err) + dx
          else (if 2 * err > -dy then err - dy else err)) := by
  rw [hasLOSLoop]
  by_cases htgt : x0 = x1 ∧ y0 = y1
  · rw [if_pos htgt, if_pos htgt]
  · rw [if_neg htgt, if_neg htgt]
    by_cases hown : x0 = pcx ∧ y0 = pcy
    · simp [hown, bind, Except.bind, pure, Except.pure]
    · by_cases hw : (m.tileAt x0 y0).«Type» = TileWall
      · simp [hown, hw, at_eq m hwf, bind, Except.bind, pure, Except.pure]
      · simp [hown, hw, at_eq m hwf, bind, Except.bind, pure, Except.pure]

/-- More fuel does not change a result of the loop of `hasLOS`: whatever the
loop returns within `fuel` iterations, it returns within `fuel + 1`. -/
theorem hasLOSLoop_fuel_succ (m : TileMap) (pcx pcy x1 y1 dx dy sx sy : Int) :
    ∀ (fuel : Nat) (x0 y0 err : Int),
      hasLOSLoop m pcx pcy x1 y1 dx dy sx sy fuel x0 y0 err ≠ .error .outOfFuel →
      hasLOSLoop m pcx pcy x1 y1 dx dy sx sy (fuel + 1) x0 y0 err =
        hasLOSLoop m pcx pcy x1 y1 dx dy sx sy fuel x0 y0 err := by
  intro fuel
  induction fuel with
  | zero =>
    intro x0 y0 err h
    exact absurd rfl h
  | succ fuel ih =>
    intro x0 y0 err h
    rw [hasLOSLoop] at h
    rw [hasLOSLoop]
    conv_rhs => rw [hasLOSLoop]
    by_cases htgt : x0 = x1 ∧ y0 = y1
    · rw [if_pos htgt, if_pos htgt]
    · rw [if_neg htgt] at h ⊢
      rw [if_neg htgt]
      by_cases hown : x0 = pcx ∧ y0 = pcy
      · simp only [hown, and_self, not_true_eq_false, if_false, bind, Except.bind, pure,
          Except.pure, Bool.false_eq_true] at h ⊢
        exact ih _ _ _ h
      · cases hat : m.At x0 y0 with
        | error e => simp [hown, hat, bind, Except.bind]
        | ok t =>
          by_cases hw : t.«Type» = TileWall
          · simp [hown, hat, hw, bind, Except.bind, pure, Except.pure]
          · simp only [hown, hat, hw, not_false_eq_true, if_true, bind, Except.bind, pure,
              Except.pure, decide_False, Bool.false_eq_true, if_false] at h ⊢
            exact ih _ _ _ h

/-- The loop of `hasLOS` returns within `rx + ry + 1` iterations from a state at
`rx` columns and `ry` rows from the target, when the error term is the one
Bresenham's walk maintains. -/
theorem hasLOSLoop_returns (m : TileMap) (hwf : m.WellFormed)
    (pcx pcy x1 y1 dx dy sx sy : Int) :
    ∀ (fuel : Nat) (rx ry : Int), 0 ≤ rx → 0 ≤ ry → rx ≤ dx → ry ≤ dy → rx + ry < fuel →
      ∃ b, hasLOSLoop m pcx pcy x1 y1 dx dy sx sy fuel (x1 - sx * rx) (y1 - sy * ry)
        (dx - dy + rx * dy - ry * dx) = .ok b := by
  intro fuel
  induction fuel with
  | zero => intro rx ry h1 h2 _ _ h5; omega
  | succ fuel ih =>
    intro rx ry hrx hry hrxd hryd hfuel
    rw [hasLOSLoop_succ m hwf]
    by_cases htgt : x1 - sx * rx = x1 ∧ y1 - sy * ry = y1
    · exact ⟨true, by rw [if_pos htgt]⟩
    · rw [if_neg htgt]
      by_cases hblk : ¬(x1 - sx * rx = pcx ∧ y1 - sy * ry = pcy) ∧
          (m.tileAt (x1 - sx * rx) (y1 - sy * ry)).«Type» = TileWall
      · exact ⟨false, by rw [if_pos hblk]⟩
      · rw [if_neg hblk]
        have hne : ¬(rx = 0 ∧ ry = 0) := by
          rintro ⟨h1, h2⟩
          apply htgt
          rw [h1, h2]
          constructor <;> ring
        have hdx0 : 0 ≤ dx := le_trans hrx hrxd
        have hdy0 : 0 ≤ dy := le_trans hry hryd
        by_cases hA : 2 * (dx - dy + rx * dy - ry * dx) > -dy
        · have hrx1 : 1 ≤ rx := by
            by_contra hcon
            have hrx0 : rx = 0 := by omega
            have hry1 : 1 ≤ ry := by
              by_contra hc2
              exact hne ⟨hrx0, by omega⟩
            rw [hrx0] at hA
            nlinarith [mul_nonneg hdx0 (sub_nonneg.2 hry1)]
          by_cases hB : 2 * (dx - dy + rx * dy - ry * dx) < dx
          · have hry1 : 1 ≤ ry := by
              by_contra hcon
              have hry0 : ry = 0 := by omega
              rw [hry0] at hB
              nlinarith [mul_nonneg hdy0 (sub_nonneg.2 hrx1)]
            have h := ih (rx - 1) (ry - 1) (by omega) (by omega) (by omega) (by omega) (by omega)
            simp only [hA, hB, if_true]
            have e1 : x1 - sx * rx + sx = x1 - sx * (rx - 1) := by ring
            have e2 : y1 - sy * ry + sy = y1 - sy * (ry - 1) := by ring
            have e3 : dx - dy + rx * dy - ry * dx - dy + dx =
                dx - dy + (rx - 1) * dy - (ry - 1) * dx := by ring
            rw [e1, e2, e3]
            exact h
          · have h := ih (rx - 1) ry (by omega) hry (by omega) hryd (by omega)
            simp only [hA, hB, if_true, if_false]
            have e1 : x1 - sx * rx + sx = x1 - sx * (rx - 1) := by ring
            have e3 : dx - dy + rx * dy - ry * dx - dy =
                dx - dy + (rx - 1) * dy - ry * dx := by ring
            rw [e1, e3]
            exact h
        · have hB : 2 * (dx - dy + rx * dy - ry * dx) < dx := by
            by_contra hcon
            have hzero : dx = 0 ∧ dy = 0 := by
              constructor <;> nlinarith
            exact hne ⟨by omega, by omega⟩
          have hry1 : 1 ≤ ry := by
            by_contra hcon
            have hry0 : ry = 0 := by omega
            have hrx1 : 1 ≤ rx := by
              by_contra hc2
              exact hne ⟨by omega, hry0⟩
            rw [hry0] at hB
            nlinarith [mul_nonneg hdy0 (sub_nonneg.2 hrx1)]
          have h := ih rx (ry - 1) hrx (by omega) hrxd (by omega) (by omega)
          simp only [hA, hB, if_true, if_false]
          have e2 : y1 - sy * ry + sy = y1 - sy * (ry - 1) := by ring
          have e3 : dx - dy + rx * dy - ry * dx + dx =
              dx - dy + rx * dy - (ry - 1) * dx := by ring
          rw [e2, e3]
          exact h

theorem abs_eq (a : Int) : abs a = |a| := by
  unfold abs
  split_ifs with h
  · exact (abs_of_neg h).symm
  · exact (abs_of_nonneg (not_lt.mp h)).symm

/-- The walk starts at the viewer's tile: `x0 = x1 - sx * dx`. -/
theorem start_eq (x0 x1 : Int) :
    x0 = x1 - (if x0 > x1 then (-1 : Int) else 1) * abs (x1 - x0) := by
  unfold abs
  split_ifs <;> omega

/-- On a well-formed map `hasLOS` returns a result for every target. -/
theorem hasLOS_returns (m : TileMap) (hwf : m.WellFormed) (px py : ℚ) (tx ty : Int) :
    ∃ b, hasLOS px py tx ty m = .ok b := by
  unfold hasLOS hasLOSFuel
  simp only []
  generalize (goInt px).tdiv cellSize = x0
  generalize (goInt py).tdiv cellSize = y0
  have hdx : 0 ≤ abs (tx - x0) := by rw [abs_eq]; exact abs_nonneg _
  have hdy : 0 ≤ abs (ty - y0) := by rw [abs_eq]; exact abs_nonneg _
  have h := hasLOSLoop_returns m hwf x0 y0 tx ty (abs (tx - x0)) (abs (ty - y0))
    (if x0 > tx then -1 else 1) (if y0 > ty then -1 else 1)
    (abs (tx - x0) + abs (ty - y0) + 1).toNat (abs (tx - x0)) (abs (ty - y0))
    hdx hdy le_rfl le_rfl (by omega)
  rw [← start_eq x0 tx, ← start_eq y0 ty] at h
  have e : abs (tx - x0) - abs (ty - y0) + abs (tx - x0) * abs (ty - y0) -
      abs (ty - y0) * abs (tx - x0) = abs (tx - x0) - abs (ty - y0) := by ring
  rw [e] at h
  exact h

/-- The viewer's own tile is always in line of sight. -/
theorem hasLOS_own_tile (m : TileMap) (px py : ℚ) :
    hasLOS px py ((goInt px).tdiv cellSize) ((goInt py).tdiv cellSize) m = .ok true := by
  unfold hasLOS hasLOSFuel
  simp only [sub_self]
  have h0 : abs 0 = 0 := by decide
  rw [h0]
  have h1 : ((0 : Int) + 0 + 1).toNat = 0 + 1 := by decide
  rw [h1, hasLOSLoop]
  simp

/-- The walk along a row: from `rx` columns before the target, with every tile
on the way other than the viewer's free of walls, the loop returns `true`. -/
theorem hasLOSLoop_row_clear (m : TileMap) (hwf : m.WellFormed)
    (pcx pcy x1 dx sx sy : Int) :
    ∀ (fuel : Nat) (rx : Int), 0 ≤ rx → rx ≤ dx → rx < fuel →
      (∀ k, 1 ≤ k → k ≤ rx →
        x1 - sx * k = pcx ∨ (m.tileAt (x1 - sx * k) pcy).«Type» ≠ TileWall) →
      hasLOSLoop m pcx pcy x1 pcy dx 0 sx sy fuel (x1 - sx * rx) pcy dx = .ok true := by
  intro fuel
  induction fuel with
  | zero => intro rx h1 _ h3; omega
  | succ fuel ih =>
    intro rx hrx hrxd hfuel hclear
    rw [hasLOSLoop_succ m hwf]
    by_cases htgt : x1 - sx * rx = x1 ∧ pcy = pcy
    · rw [if_pos htgt]
    · rw [if_neg htgt]
      have hrx1 : 1 ≤ rx := by
        by_contra hcon
        have hrx0 : rx = 0 := by omega
        apply htgt
        rw [hrx0]
        exact ⟨by ring, rfl⟩
      have hblk : ¬(¬(x1 - sx * rx = pcx ∧ pcy = pcy) ∧
          (m.tileAt (x1 - sx * rx) pcy).«Type» = TileWall) := by
        rintro ⟨h1, h2⟩
        rcases hclear rx hrx1 le_rfl with h3 | h3
        · exact h1 ⟨h3, rfl⟩
        · exact h3 h2
      rw [if_neg hblk]
      have hA : 2 * dx > -0 := by omega
      have hB : ¬(2 * dx < dx) := by omega
      simp only [hA, hB, if_true, if_false, sub_zero]
      have e1 : x1 - sx * rx + sx = x1 - sx * (rx - 1) := by ring
      rw [e1]
      exact ih (rx - 1) (by omega) (by omega) (by omega)
        (fun k hk1 hk2 => hclear k hk1 (by omega))

/-- The walk along a row is stopped by a wall tile on the way that is not the
viewer's tile. -/
theorem hasLOSLoop_row_blocked (m : TileMap) (hwf : m.WellFormed)
    (pcx pcy x1 dx sx sy : Int) (hsx : sx = 1 ∨ sx = -1) :
    ∀ (fuel : Nat) (rx : Int), 0 ≤ rx → rx ≤ dx → rx < fuel →
      (∃ k, 1 ≤ k ∧ k ≤ rx ∧
        x1 - sx * k ≠ pcx ∧ (m.tileAt (x1 - sx * k) pcy).«Type» = TileWall) →
      hasLOSLoop m pcx pcy x1 pcy dx 0 sx sy fuel (x1 - sx * rx) pcy dx = .ok false := by
  intro fuel
  induction fuel with
  | zero => intro rx h1 _ h3; omega
  | succ fuel ih =>
    intro rx hrx hrxd hfuel hwall
    obtain ⟨k, hk1, hk2, hkne, hkw⟩ := hwall
    rw [hasLOSLoop_succ m hwf]
    have htgt : ¬(x1 - sx * rx = x1 ∧ pcy = pcy) := by
      rintro ⟨h1, -⟩
      have : sx * rx = 0 := by omega
      rcases mul_eq_zero.mp this with h | h
      · rcases hsx with h2 | h2 <;> omega
      · omega
    rw [if_neg htgt]
    by_cases hblk : ¬(x1 - sx * rx = pcx ∧ pcy = pcy) ∧
        (m.tileAt (x1 - sx * rx) pcy).«Type» = TileWall
    · rw [if_pos hblk]
    · rw [if_neg hblk]
      have hkrx : k ≠ rx := by
        rintro rfl
        exact hblk ⟨fun h => hkne h.1, hkw⟩
      have hA : 2 * dx > -0 := by omega
      have hB : ¬(2 * dx < dx) := by omega
      simp only [hA, hB, if_true, if_false, sub_zero]
      have e1 : x1 - sx * rx + sx = x1 - sx * (rx - 1) := by ring
      rw [e1]
      exact ih (rx - 1) (by omega) (by omega) (by omega) ⟨k, hk1, by omega, hkne, hkw⟩

/-- The walk along a column: from `ry` rows before the target, with every tile
on the way other than the viewer's free of walls, the loop returns `true`. -/
theorem hasLOSLoop_col_clear (m : TileMap) (hwf : m.WellFormed)
    (pcx pcy y1 dy sx sy : Int) :
    ∀ (fuel : Nat) (ry : Int), 0 ≤ ry → ry ≤ dy → ry < fuel →
      (∀ k, 1 ≤ k → k ≤ ry →
        y1 - sy * k = pcy ∨ (m.tileAt pcx (y1 - sy * k)).«Type» ≠ TileWall) →
      hasLOSLoop m pcx pcy pcx y1 0 dy sx sy fuel pcx (y1 - sy * ry) (-dy) = .ok true := by
  intro fuel
  induction fuel with
  | zero => intro ry h1 _ h3; omega
  | succ fuel ih =>
    intro ry hry hryd hfuel hclear
    rw [hasLOSLoop_succ m hwf]
    by_cases htgt : pcx = pcx ∧ y1 - sy * ry = y1
    · rw [if_pos htgt]
    · rw [if_neg htgt]
      have hry1 : 1 ≤ ry := by
        by_contra hcon
        have hry0 : ry = 0 := by omega
        apply htgt
        rw [hry0]
        exact ⟨rfl, by ring⟩
      have hblk : ¬(¬(pcx = pcx ∧ y1 - sy * ry = pcy) ∧
          (m.tileAt pcx (y1 - sy * ry)).«Type» = TileWall) := by
        rintro ⟨h1, h2⟩
        rcases hclear ry hry1 le_rfl with h3 | h3
        · exact h1 ⟨rfl, h3⟩
        · exact h3 h2
      rw [if_neg hblk]
      have hA : ¬(2 * -dy > -dy) := by omega
      have hB : 2 * -dy < 0 := by omega
      simp only [hA, hB, if_true, if_false, add_zero]
      have e1 : y1 - sy * ry + sy = y1 - sy * (ry - 1) := by ring
      rw [e1]
      exact ih (ry - 1) (by omega) (by omega) (by omega)
        (fun k hk1 hk2 => hclear k hk1 (by omega))

/-- The walk along a column is stopped by a wall tile on the way that is not
the viewer's tile. -/
theorem hasLOSLoop_col_blocked (m : TileMap) (hwf : m.WellFormed)
    (pcx pcy y1 dy sx sy : Int) (hsy : sy = 1 ∨ sy = -1) :
    ∀ (fuel : Nat) (ry : Int), 0 ≤ ry → ry ≤ dy → ry < fuel →
      (∃ k, 1 ≤ k ∧ k ≤ ry ∧
        y1 - sy * k ≠ pcy ∧ (m.tileAt pcx (y1 - sy * k)).«Type» = TileWall) →
      hasLOSLoop m pcx pcy pcx y1 0 dy sx sy fuel pcx (y1 - sy * ry) (-dy) = .ok false := by
  intro fuel
  induction fuel with
  | zero => intro ry h1 _ h3; omega
  | succ fuel ih =>
    intro ry hry hryd hfuel hwall
    obtain ⟨k, hk1, hk2, hkne, hkw⟩ := hwall
    rw [hasLOSLoop_succ m hwf]
    have htgt : ¬(pcx = pcx ∧ y1 - sy * ry = y1) := by
      rintro ⟨-, h1⟩
      have : sy * ry = 0 := by omega
      rcases mul_eq_zero.mp this with h | h
      · rcases hsy with h2 | h2 <;> omega
      · omega
    rw [if_neg htgt]
    by_cases hblk : ¬(pcx = pcx ∧ y1 - sy * ry = pcy) ∧
        (m.tileAt pcx (y1 - sy * ry)).«Type» = TileWall
    · rw [if_pos hblk]
    · rw [if_neg hblk]
      have hkry : k ≠ ry := by
        rintro rfl
        exact hblk ⟨fun h => hkne h.2, hkw⟩
      have hA : ¬(2 * -dy > -dy) := by omega
      have hB : 2 * -dy < 0 := by omega
      simp only [hA, hB, if_true, if_false, add_zero]
      have e1 : y1 - sy * ry + sy = y1 - sy * (ry - 1) := by ring
      rw [e1]
      exact ih (ry - 1) (by omega) (by omega) (by omega) ⟨k, hk1, by omega, hkne, hkw⟩

theorem tileAt_wall_iff (m : TileMap) (hwf : m.WellFormed) (x y : Int) :
    (m.tileAt x y).«Type» = TileWall ↔ m.At x y = .ok ⟨TileWall⟩ := by
  rw [at_eq m hwf]
  constructor
  · intro h
    rw [← h]
  · intro h
    injection h with h
    rw [h]

/-- Line of sight along the viewer's row, from the viewer's tile `x0` to `tx`. -/
theorem hasLOS_row (m : TileMap) (hwf : m.WellFormed) (px py : ℚ) (tx : Int) :
    ((∀ x, ((goInt px).tdiv cellSize < x ∧ x < tx) ∨ (tx < x ∧ x < (goInt px).tdiv cellSize) →
        m.At x ((goInt py).tdiv cellSize) ≠ .ok ⟨TileWall⟩) →
      hasLOS px py tx ((goInt py).tdiv cellSize) m = .ok true) ∧
    ((∃ x, (((goInt px).tdiv cellSize < x ∧ x < tx) ∨ (tx < x ∧ x < (goInt px).tdiv cellSize)) ∧
        m.At x ((goInt py).tdiv cellSize) = .ok ⟨TileWall⟩) →
      hasLOS px py tx ((goInt py).tdiv cellSize) m = .ok false) := by
  unfold hasLOS hasLOSFuel
  simp only [sub_self]
  generalize (goInt px).tdiv cellSize = x0
  generalize (goInt py).tdiv cellSize = y0
  have h0 : abs 0 = 0 := by decide
  rw [h0]
  have hdx : 0 ≤ abs (tx - x0) := by rw [abs_eq]; exact abs_nonneg _
  have hsx : (if x0 > tx then (-1 : Int) else 1) = 1 ∨ (if x0 > tx then (-1 : Int) else 1) = -1 := by
    split_ifs
    · exact Or.inr rfl
    · exact Or.inl rfl
  have hstart := start_eq x0 tx
  have hk : ∀ k, 1 ≤ k → k ≤ abs (tx - x0) →
      (tx - (if x0 > tx then (-1 : Int) else 1) * k = x0 ∨
        ((x0 < tx - (if x0 > tx then (-1 : Int) else 1) * k ∧
            tx - (if x0 > tx then (-1 : Int) else 1) * k < tx) ∨
          (tx < tx - (if x0 > tx then (-1 : Int) else 1) * k ∧
            tx - (if x0 > tx then (-1 : Int) else 1) * k < x0))) := by
    intro k hk1 hk2
    unfold abs at hk2
    split_ifs at hk2 ⊢ <;> omega
  constructor
  · intro hclear
    have h := hasLOSLoop_row_clear m hwf x0 y0 tx (abs (tx - x0))
      (if x0 > tx then -1 else 1) 1 (abs (tx - x0) + 0 + 1).toNat (abs (tx - x0))
      hdx le_rfl (by omega) (by
        intro k hk1 hk2
        rcases hk k hk1 hk2 with h | h
        · exact Or.inl h
        · refine Or.inr ?_
          rw [Ne, tileAt_wall_iff m hwf]
          exact hclear _ h)
    rw [← hstart] at h
    simpa using h
  · rintro ⟨x, hx, hxw⟩
    have h := hasLOSLoop_row_blocked m hwf x0 y0 tx (abs (tx - x0))
      (if x0 > tx then -1 else 1) 1 hsx (abs (tx - x0) + 0 + 1).toNat (abs (tx - x0))
      hdx le_rfl (by omega) (by
        refine ⟨(if x0 > tx then (-1 : Int) else 1) * (tx - x), ?_, ?_, ?_, ?_⟩
        · split_ifs <;> omega
        · unfold abs; split_ifs <;> omega
        · split_ifs <;> omega
        · rw [tileAt_wall_iff m hwf]
          have e : tx - (if x0 > tx then (-1 : Int) else 1) *
              ((if x0 > tx then (-1 : Int) else 1) * (tx - x)) = x := by
            split_ifs <;> ring
          rw [e]
          exact hxw)
    rw [← hstart] at h
    simpa using h

/-- Line of sight along the viewer's column, from the viewer's tile `y0` to `ty`. -/
theorem hasLOS_col (m : TileMap) (hwf : m.WellFormed) (px py : ℚ) (ty : Int) :
    ((∀ y, ((goInt py).tdiv cellSize < y ∧ y < ty) ∨ (ty < y ∧ y < (goInt py).tdiv cellSize) →
        m.At ((goInt px).tdiv cellSize) y ≠ .ok ⟨TileWall⟩) →
      hasLOS px py ((goInt px).tdiv cellSize) ty m = .ok true) ∧
    ((∃ y, (((goInt py).tdiv cellSize < y ∧ y < ty) ∨ (ty < y ∧ y < (goInt py).tdiv cellSize)) ∧
        m.At ((goInt px).tdiv cellSize) y = .ok ⟨TileWall⟩) →
      hasLOS px py ((goInt px).tdiv cellSize) ty m = .ok false) := by
  unfold hasLOS hasLOSFuel
  simp only [sub_self]
  generalize (goInt px).tdiv cellSize = x0
  generalize (goInt py).tdiv cellSize = y0
  have h0 : abs 0 = 0 := by decide
  rw [h0]
  have hdy : 0 ≤ abs (ty - y0) := by rw [abs_eq]; exact abs_nonneg _
  have hsy : (if y0 > ty then (-1 : Int) else 1) = 1 ∨ (if y0 > ty then (-1 : Int) else 1) = -1 := by
    split_ifs
    · exact Or.inr rfl
    · exact Or.inl rfl
  have hstart := start_eq y0 ty
  have hk : ∀ k, 1 ≤ k → k ≤ abs (ty - y0) →
      (ty - (if y0 > ty then (-1 : Int) else 1) * k = y0 ∨
        ((y0 < ty - (if y0 > ty then (-1 : Int) else 1) * k ∧
            ty - (if y0 > ty then (-1 : Int) else 1) * k < ty) ∨
          (ty < ty - (if y0 > ty then (-1 : Int) else 1) * k ∧
            ty - (if y0 > ty then (-1 : Int) else 1) * k < y0))) := by
    intro k hk1 hk2
    unfold abs at hk2
    split_ifs at hk2 ⊢ <;> omega
  constructor
  · intro hclear
    have h := hasLOSLoop_col_clear m hwf x0 y0 ty (abs (ty - y0))
      (if x0 > x0 then -1 else 1) (if y0 > ty then -1 else 1)
      (0 + abs (ty - y0) + 1).toNat (abs (ty - y0))
      hdy le_rfl (by omega) (by
        intro k hk1 hk2
        rcases hk k hk1 hk2 with h | h
        · exact Or.inl h
        · refine Or.inr ?_
          rw [Ne, tileAt_wall_iff m hwf]
          exact hclear _ h)
    rw [← hstart] at h
    rw [zero_sub]
    exact h
  · rintro ⟨y, hy, hyw⟩
    have h := hasLOSLoop_col_blocked m hwf x0 y0 ty (abs (ty - y0))
      (if x0 > x0 then -1 else 1) (if y0 > ty then -1 else 1) hsy
      (0 + abs (ty - y0) + 1).toNat (abs (ty - y0))
      hdy le_rfl (by omega) (by
        refine ⟨(if y0 > ty then (-1 : Int) else 1) * (ty - y), ?_, ?_, ?_, ?_⟩
        · split_ifs <;> omega
        · unfold abs; split_ifs <;> omega
        · split_ifs <;> omega
        · rw [tileAt_wall_iff m hwf]
          have e : ty - (if y0 > ty then (-1 : Int) else 1) *
              ((if y0 > ty then (-1 : Int) else 1) * (ty - y)) = y := by
            split_ifs <;> ring
          rw [e]
          exact hyw)
    rw [← hstart] at h
    rw [zero_sub]
    exact h

/-- C10: on a map of the shape built by `NewTileMap`, for a target in the
viewer's row (column), a wall tile strictly between the viewer's tile and the
target in that row (column) makes `hasLOS` return `false`; and when the wall at
`wx` (`wy`) is the nearest one, so that no wall lies strictly between the
viewer's tile and it, `hasLOS` returns `true` for every tile of the row
(column) from the viewer's tile up to that wall. -/
theorem hasLOS_occlusion (m : TileMap) (hwf : m.WellFormed) (px py : ℚ) :
    (∀ tx wx : Int,
      (((goInt px).tdiv cellSize < wx ∧ wx < tx) ∨ (tx < wx ∧ wx < (goInt px).tdiv cellSize)) →
      m.At wx ((goInt py).tdiv cellSize) = .ok ⟨TileWall⟩ →
      hasLOS px py tx ((goInt py).tdiv cellSize) m = .ok false) ∧
    (∀ wx t : Int,
      (∀ x, (((goInt px).tdiv cellSize < x ∧ x < wx) ∨ (wx < x ∧ x < (goInt px).tdiv cellSize)) →
        m.At x ((goInt py).tdiv cellSize) ≠ .ok ⟨TileWall⟩) →
      (((goInt px).tdiv cellSize ≤ t ∧ t ≤ wx) ∨ (wx ≤ t ∧ t ≤ (goInt px).tdiv cellSize)) →
      hasLOS px py t ((goInt py).tdiv cellSize) m = .ok true) ∧
    (∀ ty wy : Int,
      (((goInt py).tdiv cellSize < wy ∧ wy < ty) ∨ (ty < wy ∧ wy < (goInt py).tdiv cellSize)) →
      m.At ((goInt px).tdiv cellSize) wy = .ok ⟨TileWall⟩ →
      hasLOS px py ((goInt px).tdiv cellSize) ty m = .ok false) ∧
    (∀ wy t : Int,
      (∀ y, (((goInt py).tdiv cellSize < y ∧ y < wy) ∨ (wy < y ∧ y < (goInt py).tdiv cellSize)) →
        m.At ((goInt px).tdiv cellSize) y ≠ .ok ⟨TileWall⟩) →
      (((goInt py).tdiv cellSize ≤ t ∧ t ≤ wy) ∨ (wy ≤ t ∧ t ≤ (goInt py).tdiv cellSize)) →
      hasLOS px py ((goInt px).tdiv cellSize) t m = .ok true) := by
  refine ⟨?_, ?_, ?_, ?_⟩
  · intro tx wx hbetween hwall
    exact (hasLOS_row m hwf px py tx).2 ⟨wx, hbetween, hwall⟩
  · intro wx t hnear ht
    apply (hasLOS_row m hwf px py t).1
    intro x hx
    apply hnear
    omega
  · intro ty wy hbetween hwall
    exact (hasLOS_col m hwf px py ty).2 ⟨wy, hbetween, hwall⟩
  · intro wy t hnear ht
    apply (hasLOS_col m hwf px py t).1
    intro y hy
    apply hnear
    omega

/-- Witness for C10: in the 3×3 map with a centre wall, the viewer at
`(5, 40)` in tile `(0, 1)` and the target `(2, 1)` of the same row, with the
wall `(1, 1)` between them. -/
theorem hasLOS_occlusion_witness :
    pillarMap.WellFormed ∧
    ((((goInt 5).tdiv cellSize < 1 ∧ (1 : Int) < 2) ∨
      ((2 : Int) < 1 ∧ 1 < (goInt 5).tdiv cellSize)) ∧
    pillarMap.At 1 ((goInt 40).tdiv cellSize) = .ok ⟨TileWall⟩ ∧
    hasLOS 5 40 2 ((goInt 40).tdiv cellSize) pillarMap = .ok false) :=
  have h5 : (goInt 5).tdiv cellSize = 0 := by
    have h : goInt 5 = 5 := by exact_mod_cast goInt_intCast 5
    rw [h]
    decide
  have h40 : (goInt 40).tdiv cellSize = 1 := by
    have h : goInt 40 = 40 := by exact_mod_cast goInt_intCast 40
    rw [h]
    decide
  have hb : ((goInt 5).tdiv cellSize < 1 ∧ (1 : Int) < 2) ∨
      ((2 : Int) < 1 ∧ 1 < (goInt 5).tdiv cellSize) := by
    rw [h5]
    decide
  have hw : pillarMap.At 1 ((goInt 40).tdiv cellSize) = .ok ⟨TileWall⟩ := by
    rw [h40]
    decide
  ⟨by decide, hb, hw, (hasLOS_occlusion pillarMap (by decide) 5 40).1 2 1 hb hw⟩

end LineOfSightProofs

section FloatProofs

/-- The halving count brackets `n` between two consecutive powers of two. -/
theorem log2Aux_spec : ∀ (fuel n : Nat), n ≤ fuel → n ≠ 0 →
    2 ^ log2Aux fuel n ≤ n ∧ n < 2 ^ (log2Aux fuel n + 1) := by
  intro fuel
  induction fuel with
  | zero =>
    intro n hle hn
    omega
  | succ fuel ih =>
    intro n hle hn
    rw [log2Aux]
    split_ifs with h2
    · have : n = 1 := by omega
      subst this
      simp
    · obtain ⟨h3, h4⟩ := ih (n / 2) (by omega) (by omega)
      have e1 : 2 ^ (log2Aux fuel (n / 2) + 1) = 2 * 2 ^ log2Aux fuel (n / 2) := by
        rw [pow_succ, mul_comm]
      have e2 : 2 ^ (log2Aux fuel (n / 2) + 1 + 1) = 4 * 2 ^ log2Aux fuel (n / 2) := by
        rw [pow_succ, pow_succ]
        ring
      rw [e1] at h4
      rw [e1, e2]
      generalize 2 ^ log2Aux fuel (n / 2) = a at h3 h4 ⊢
      constructor <;> omega

theorem natLog2_spec (n : Nat) (hn : n ≠ 0) :
    2 ^ natLog2 n ≤ n ∧ n < 2 ^ (natLog2 n + 1) :=
  log2Aux_spec n n (le_refl n) hn

/-- Rounding to the nearest integer moves a number by at most one half. -/
theorem roundEven_err (x : ℚ) : |((roundEven x : Int) : ℚ) - x| ≤ 1 / 2 := by
  have h1 := Int.floor_le x
  have h2 := Int.lt_floor_add_one x
  unfold roundEven
  split_ifs <;> push_cast <;> rw [abs_le] <;> constructor <;> linarith

theorem abs_eq_ite (q : ℚ) : (if 0 ≤ q then q else -q) = |q| := by
  split_ifs with h
  · exact (abs_of_nonneg h).symm
  · exact (abs_of_neg (not_le.1 h)).symm

theorem abs_eq_natAbs_div (q : ℚ) : |q| = (q.num.natAbs : ℚ) / (q.den : ℚ) := by
  have hd : (0 : ℚ) < (q.den : ℚ) := by exact_mod_cast q.den_pos
  conv_lhs => rw [← Rat.num_div_den q]
  rw [abs_div, abs_of_pos hd]
  rw [Nat.cast_natAbs, Int.cast_abs]

/-- The binary exponent brackets `|q|` between two consecutive powers of two. -/
theorem binExp_spec (q : ℚ) (hq : q ≠ 0) :
    (2 : ℚ) ^ binExp q ≤ |q| ∧ |q| < (2 : ℚ) ^ (binExp q + 1) := by
  have ha : q.num.natAbs ≠ 0 := by
    intro h
    exact hq (Rat.num_eq_zero.1 (Int.natAbs_eq_zero.1 h))
  obtain ⟨ha1, ha2⟩ := natLog2_spec q.num.natAbs ha
  obtain ⟨hd1, hd2⟩ := natLog2_spec q.den q.den_nz
  have ha1q : (2 : ℚ) ^ natLog2 q.num.natAbs ≤ (q.num.natAbs : ℚ) := by exact_mod_cast ha1
  have ha2q : (q.num.natAbs : ℚ) < (2 : ℚ) ^ (natLog2 q.num.natAbs + 1) := by exact_mod_cast ha2
  have hd1q : (2 : ℚ) ^ natLog2 q.den ≤ (q.den : ℚ) := by exact_mod_cast hd1
  have hd2q : (q.den : ℚ) < (2 : ℚ) ^ (natLog2 q.den + 1) := by exact_mod_cast hd2
  have hdpos : (0 : ℚ) < (q.den : ℚ) := by exact_mod_cast q.den_pos
  have h2 : (2 : ℚ) ≠ 0 := two_ne_zero
  have hpa : (0 : ℚ) < (2 : ℚ) ^ natLog2 q.num.natAbs := by positivity
  have hpd : (0 : ℚ) < (2 : ℚ) ^ natLog2 q.den := by positivity
  have he0 : (2 : ℚ) ^ ((natLog2 q.num.natAbs : Int) - (natLog2 q.den : Int)) =
      (2 : ℚ) ^ natLog2 q.num.natAbs / (2 : ℚ) ^ natLog2 q.den := by
    rw [zpow_sub₀ h2, zpow_natCast, zpow_natCast]
  have hup : |q| < (2 : ℚ) ^ ((natLog2 q.num.natAbs : Int) - (natLog2 q.den : Int) + 1) := by
    rw [zpow_add_one₀ h2, he0, abs_eq_natAbs_div, div_mul_eq_mul_div, div_lt_div_iff₀ hdpos hpd]
    rw [pow_succ] at ha2q
    nlinarith
  have hlo : (2 : ℚ) ^ ((natLog2 q.num.natAbs : Int) - (natLog2 q.den : Int) - 1) ≤ |q| := by
    rw [zpow_sub_one₀ h2, he0, abs_eq_natAbs_div, div_mul_eq_mul_div, ← div_eq_mul_inv] 
    rw [pow_succ] at hd2q
    rw [div_div, div_le_div_iff₀ (by positivity) hdpos]
    nlinarith
  unfold binExp
  rw [abs_eq_ite]
  split_ifs with h
  · exact ⟨h, hup⟩
  · refine ⟨hlo, ?_⟩
    rw [sub_add_cancel]
    exact not_le.1 h

/-- Rounding to `float64` moves a number by at most the fraction `2^-53` of
its size. -/
theorem round64_err (q : ℚ) : |round64 q - q| ≤ |q| / 2 ^ 53 := by
  unfold round64
  split_ifs with h0
  · rw [h0]
    simp
  · obtain ⟨hlo, _⟩ := binExp_spec q h0
    have h2 : (2 : ℚ) ≠ 0 := two_ne_zero
    have hU : (0 : ℚ) < (2 : ℚ) ^ (binExp q - 52) := by positivity
    have hre := roundEven_err (q / (2 : ℚ) ^ (binExp q - 52))
    have e : ((roundEven (q / (2 : ℚ) ^ (binExp q - 52)) : Int) : ℚ) * (2 : ℚ) ^ (binExp q - 52) - q =
        (((roundEven (q / (2 : ℚ) ^ (binExp q - 52)) : Int) : ℚ) - q / (2 : ℚ) ^ (binExp q - 52)) *
          (2 : ℚ) ^ (binExp q - 52) := by
      field_simp
    rw [e, abs_mul, abs_of_pos hU]
    have hU2 : (2 : ℚ) ^ (binExp q - 52) = (2 : ℚ) ^ binExp q / 2 ^ 52 := by
      rw [zpow_sub₀ h2]
      norm_num
    have h3 : |((roundEven (q / (2 : ℚ) ^ (binExp q - 52)) : Int) : ℚ) -
        q / (2 : ℚ) ^ (binExp q - 52)| * (2 : ℚ) ^ (binExp q - 52) ≤
        1 / 2 * (2 : ℚ) ^ (binExp q - 52) := mul_le_mul_of_nonneg_right hre hU.le
    refine h3.trans ?_
    rw [hU2]
    have : (1 : ℚ) / 2 * ((2 : ℚ) ^ binExp q / 2 ^ 52) = (2 : ℚ) ^ binExp q / 2 ^ 53 := by
      norm_num
      ring
    rw [this]
    exact div_le_div_of_nonneg_right hlo (by positivity)

/-- Rounding a non-negative number moves it by at most the fraction `2^-53`. -/
theorem round64_bounds (q : ℚ) (h : 0 ≤ q) :
    (1 - 1 / 2 ^ 53) * q ≤ round64 q ∧ round64 q ≤ (1 + 1 / 2 ^ 53) * q := by
  have he := round64_err q
  rw [abs_of_nonneg h, abs_le] at he
  constructor <;> linarith [he.1, he.2]

/-- The square of a rounded number is within the factors `(1 ± 2^-53)^2` of
the square of the number. -/
theorem round64_sq_bounds (d : ℚ) :
    (1 - 1 / 2 ^ 53) ^ 2 * (d * d) ≤ round64 d * round64 d ∧
      round64 d * round64 d ≤ (1 + 1 / 2 ^ 53) ^ 2 * (d * d) := by
  have he := round64_err d
  have h1 : |round64 d| ≤ (1 + 1 / 2 ^ 53) * |d| := by
    have := abs_sub_abs_le_abs_sub (round64 d) d
    linarith
  have h2 : (1 - 1 / 2 ^ 53) * |d| ≤ |round64 d| := by
    have := abs_sub_abs_le_abs_sub d (round64 d)
    rw [abs_sub_comm d (round64 d)] at this
    linarith
  have hd : 0 ≤ |d| := abs_nonneg d
  have hr : 0 ≤ |round64 d| := abs_nonneg _
  have hu : (0 : ℚ) ≤ 1 - 1 / 2 ^ 53 := by norm_num
  have e1 : round64 d * round64 d = |round64 d| * |round64 d| := (abs_mul_abs_self _).symm
  have e2 : d * d = |d| * |d| := (abs_mul_abs_self _).symm
  rw [e1, e2]
  constructor
  · have := mul_le_mul h2 h2 (mul_nonneg hu hd) hr
    calc (1 - 1 / 2 ^ 53) ^ 2 * (|d| * |d|)
        = (1 - 1 / 2 ^ 53) * |d| * ((1 - 1 / 2 ^ 53) * |d|) := by ring
      _ ≤ |round64 d| * |round64 d| := this
  · have := mul_le_mul h1 h1 hr (by positivity)
    calc |round64 d| * |round64 d|
        ≤ (1 + 1 / 2 ^ 53) * |d| * ((1 + 1 / 2 ^ 53) * |d|) := this
      _ = (1 + 1 / 2 ^ 53) ^ 2 * (|d| * |d|) := by ring

/-- The squared distance computed in `float64` is within the factors
`(1 ± 2^-53)^4` of the exact one. -/
theorem float_sq_bounds (cx px cy py : ℚ) :
    (1 - 1 / 2 ^ 53) ^ 4 * ((cx - px) * (cx - px) + (cy - py) * (cy - py)) ≤
        fadd (fmul (fsub cx px) (fsub cx px)) (fmul (fsub cy py) (fsub cy py)) ∧
      fadd (fmul (fsub cx px) (fsub cx px)) (fmul (fsub cy py) (fsub cy py)) ≤
        (1 + 1 / 2 ^ 53) ^ 4 * ((cx - px) * (cx - px) + (cy - py) * (cy - py)) := by
  unfold fadd fmul fsub
  obtain ⟨hx1, hx2⟩ := round64_sq_bounds (cx - px)
  obtain ⟨hy1, hy2⟩ := round64_sq_bounds (cy - py)
  have hsx : 0 ≤ round64 (cx - px) * round64 (cx - px) := mul_self_nonneg _
  have hsy : 0 ≤ round64 (cy - py) * round64 (cy - py) := mul_self_nonneg _
  obtain ⟨hp1, hp2⟩ := round64_bounds _ hsx
  obtain ⟨hq1, hq2⟩ := round64_bounds _ hsy
  have hu : (0 : ℚ) ≤ 1 - 1 / 2 ^ 53 := by norm_num
  have hv : (0 : ℚ) ≤ 1 + 1 / 2 ^ 53 := by norm_num
  have hp0 : 0 ≤ round64 (round64 (cx - px) * round64 (cx - px)) :=
    le_trans (mul_nonneg hu hsx) hp1
  have hq0 : 0 ≤ round64 (round64 (cy - py) * round64 (cy - py)) :=
    le_trans (mul_nonneg hu hsy) hq1
  obtain ⟨ht1, ht2⟩ := round64_bounds _ (add_nonneg hp0 hq0)
  generalize round64 (round64 (round64 (cx - px) * round64 (cx - px)) +
    round64 (round64 (cy - py) * round64 (cy - py))) = F at ht1 ht2 ⊢
  generalize round64 (round64 (cx - px) * round64 (cx - px)) = P at hp1 hp2 hp0 ht1 ht2
  generalize round64 (round64 (cy - py) * round64 (cy - py)) = Q at hq1 hq2 hq0 ht1 ht2
  generalize round64 (cx - px) * round64 (cx - px) = A at hx1 hx2 hsx hp1 hp2
  generalize round64 (cy - py) * round64 (cy - py) = B at hy1 hy2 hsy hq1 hq2
  generalize (cx - px) * (cx - px) = X at hx1 hx2 ⊢
  generalize (cy - py) * (cy - py) = Y at hy1 hy2 ⊢
  constructor
  · have a1 : (1 - 1 / 2 ^ 53) * ((1 - 1 / 2 ^ 53) ^ 2 * X) ≤ (1 - 1 / 2 ^ 53) * A :=
      mul_le_mul_of_nonneg_left hx1 hu
    have b1 : (1 - 1 / 2 ^ 53) * ((1 - 1 / 2 ^ 53) ^ 2 * Y) ≤ (1 - 1 / 2 ^ 53) * B :=
      mul_le_mul_of_nonneg_left hy1 hu
    have c1 : (1 - 1 / 2 ^ 53) * ((1 - 1 / 2 ^ 53) ^ 3 * (X + Y)) ≤ (1 - 1 / 2 ^ 53) * (P + Q) := by
      apply mul_le_mul_of_nonneg_left _ hu
      have e : (1 - 1 / 2 ^ 53 : ℚ) ^ 3 * (X + Y) =
          (1 - 1 / 2 ^ 53) * ((1 - 1 / 2 ^ 53) ^ 2 * X) +
            (1 - 1 / 2 ^ 53) * ((1 - 1 / 2 ^ 53) ^ 2 * Y) := by ring
      rw [e]
      linarith
    have e : (1 - 1 / 2 ^ 53 : ℚ) ^ 4 * (X + Y) =
        (1 - 1 / 2 ^ 53) * ((1 - 1 / 2 ^ 53) ^ 3 * (X + Y)) := by ring
    rw [e]
    linarith
  · have a1 : (1 + 1 / 2 ^ 53) * A ≤ (1 + 1 / 2 ^ 53) * ((1 + 1 / 2 ^ 53) ^ 2 * X) :=
      mul_le_mul_of_nonneg_left hx2 hv
    have b1 : (1 + 1 / 2 ^ 53) * B ≤ (1 + 1 / 2 ^ 53) * ((1 + 1 / 2 ^ 53) ^ 2 * Y) :=
      mul_le_mul_of_nonneg_left hy2 hv
    have c1 : (1 + 1 / 2 ^ 53) * (P + Q) ≤ (1 + 1 / 2 ^ 53) * ((1 + 1 / 2 ^ 53) ^ 3 * (X + Y)) := by
      apply mul_le_mul_of_nonneg_left _ hv
      have e : (1 + 1 / 2 ^ 53 : ℚ) ^ 3 * (X + Y) =
          (1 + 1 / 2 ^ 53) * ((1 + 1 / 2 ^ 53) ^ 2 * X) +
            (1 + 1 / 2 ^ 53) * ((1 + 1 / 2 ^ 53) ^ 2 * Y) := by ring
      rw [e]
      linarith
    have e : (1 + 1 / 2 ^ 53 : ℚ) ^ 4 * (X + Y) =
        (1 + 1 / 2 ^ 53) * ((1 + 1 / 2 ^ 53) ^ 3 * (X + Y)) := by ring
    rw [e]
    linarith

/-- The squared distance that `VisibleTiles` computes is within the factors
`(1 ± 2^-53)^4` of the exact squared distance to the centre of the tile. -/
theorem floatSqDist_bounds (px py : ℚ) (tx ty : Int) :
    (1 - 1 / 2 ^ 53) ^ 4 * centreSqDist px py tx ty ≤ floatSqDist px py tx ty ∧
      floatSqDist px py tx ty ≤ (1 + 1 / 2 ^ 53) ^ 4 * centreSqDist px py tx ty :=
  float_sq_bounds _ _ _ _

theorem centreSqDist_nonneg (px py : ℚ) (tx ty : Int) : 0 ≤ centreSqDist px py tx ty := by
  unfold centreSqDist
  exact add_nonneg (mul_self_nonneg _) (mul_self_nonneg _)

/-- A tile whose centre is at exact squared distance at most
`viewRadius² * (1 - 2^-50)` passes the radius test of `VisibleTiles`. -/
theorem floatSqDist_le_of_exact (px py : ℚ) (tx ty : Int)
    (h : centreSqDist px py tx ty ≤ viewRadius2 * (1 - 1 / 2 ^ 50)) :
    floatSqDist px py tx ty ≤ viewRadius2 := by
  have hb := (floatSqDist_bounds px py tx ty).2
  have h0 := centreSqDist_nonneg px py tx ty
  have hk : (1 + 1 / 2 ^ 53 : ℚ) ^ 4 * (1 - 1 / 2 ^ 50) ≤ 1 := by norm_num
  have hv : (0 : ℚ) ≤ viewRadius2 := by norm_num [viewRadius2, viewRadius]
  have h1 : (1 + 1 / 2 ^ 53 : ℚ) ^ 4 * centreSqDist px py tx ty ≤
      (1 + 1 / 2 ^ 53) ^ 4 * (viewRadius2 * (1 - 1 / 2 ^ 50)) :=
    mul_le_mul_of_nonneg_left h (by positivity)
  have h2 : (1 + 1 / 2 ^ 53 : ℚ) ^ 4 * (viewRadius2 * (1 - 1 / 2 ^ 50)) ≤ viewRadius2 := by
    have := mul_le_mul_of_nonneg_left hk hv
    linarith
  linarith

/-- A tile that passes the radius test of `VisibleTiles` has its centre at
exact squared distance at most `viewRadius² * (1 + 2^-50)`. -/
theorem exact_le_of_floatSqDist (px py : ℚ) (tx ty : Int)
    (h : floatSqDist px py tx ty ≤ viewRadius2) :
    centreSqDist px py tx ty ≤ viewRadius2 * (1 + 1 / 2 ^ 50) := by
  have hb := (floatSqDist_bounds px py tx ty).1
  have h0 := centreSqDist_nonneg px py tx ty
  have hk : (1 : ℚ) ≤ (1 - 1 / 2 ^ 53) ^ 4 * (1 + 1 / 2 ^ 50) := by norm_num
  have hv : (0 : ℚ) ≤ viewRadius2 := by norm_num [viewRadius2, viewRadius]
  have h1 : (1 - 1 / 2 ^ 53 : ℚ) ^ 4 * centreSqDist px py tx ty ≤ viewRadius2 := le_trans hb h
  have h2 : (1 - 1 / 2 ^ 53 : ℚ) ^ 4 * centreSqDist px py tx ty * (1 + 1 / 2 ^ 50) ≤
      viewRadius2 * (1 + 1 / 2 ^ 50) :=
    mul_le_mul_of_nonneg_right h1 (by norm_num)
  have h3 : centreSqDist px py tx ty * 1 ≤
      centreSqDist px py tx ty * ((1 - 1 / 2 ^ 53) ^ 4 * (1 + 1 / 2 ^ 50)) :=
    mul_le_mul_of_nonneg_left hk h0
  linarith

end FloatProofs

section VisibleTilesProofs

theorem index_getElem {α : Type} (xs : List α) (i : Int) (h0 : 0 ≤ i)
    (h1 : i.toNat < xs.length) : index xs i = .ok (xs[i.toNat]) := by
  rw [index_eq_ok_iff]
  exact ⟨h0, List.getElem?_eq_getElem h1⟩

theorem assign_eq_ok {α : Type} (xs : List α) (i : Int) (a : α) (h0 : 0 ≤ i)
    (h1 : i.toNat < xs.length) : assign xs i a = .ok (xs.set i.toNat a) := by
  unfold assign
  rw [if_neg]
  rintro (h | h) <;> omega

theorem visShape_row (m : TileMap) (vis : List (List Bool)) (hs : VisShape m vis)
    (tx ty : Int) (hin : m.InBounds tx ty = true) :
    ∃ h : ty.toNat < vis.length, tx.toNat < (vis[ty.toNat]).length := by
  obtain ⟨hx0, hx1, hy0, hy1⟩ := (inBounds_iff m tx ty).1 hin
  obtain ⟨hH, hW⟩ := hs
  have hylt : ty.toNat < vis.length := by omega
  refine ⟨hylt, ?_⟩
  have := hW _ (List.getElem_mem hylt)
  omega

theorem visLookup_eq (m : TileMap) (vis : List (List Bool)) (hs : VisShape m vis)
    (tx ty : Int) (hin : m.InBounds tx ty = true) :
    visLookup vis tx ty = .ok (visGet vis tx ty) := by
  obtain ⟨hx0, hx1, hy0, hy1⟩ := (inBounds_iff m tx ty).1 hin
  obtain ⟨hylt, hxlt⟩ := visShape_row m vis hs tx ty hin
  unfold visLookup visGet
  rw [index_getElem vis ty hy0 hylt]
  simp only [bind, Except.bind]
  rw [index_getElem _ tx hx0 hxlt]
  simp [List.getElem?_eq_getElem hylt, List.getElem?_eq_getElem hxlt]

theorem setVis_eq (m : TileMap) (vis : List (List Bool)) (hs : VisShape m vis)
    (tx ty : Int) (hin : m.InBounds tx ty = true) :
    setVis vis tx ty = .ok (markVis vis tx ty) := by
  obtain ⟨hx0, hx1, hy0, hy1⟩ := (inBounds_iff m tx ty).1 hin
  obtain ⟨hylt, hxlt⟩ := visShape_row m vis hs tx ty hin
  unfold setVis markVis
  rw [index_getElem vis ty hy0 hylt]
  simp only [bind, Except.bind]
  rw [assign_eq_ok _ tx true hx0 hxlt]
  simp only []
  rw [assign_eq_ok vis ty _ hy0 hylt]
  simp [List.getElem?_eq_getElem hylt]

theorem markVis_shape (m : TileMap) (vis : List (List Bool)) (hs : VisShape m vis)
    (tx ty : Int) : VisShape m (markVis vis tx ty) := by
  obtain ⟨hH, hW⟩ := hs
  unfold markVis
  refine ⟨by rw [List.length_set]; exact hH, ?_⟩
  intro row hrow
  rcases List.mem_or_eq_of_mem_set hrow with h | h
  · exact hW row h
  · rw [h, List.length_set]
    by_cases hylt : ty.toNat < vis.length
    · have := hW _ (List.getElem_mem hylt)
      simpa [List.getElem?_eq_getElem hylt] using this
    · rw [List.set_eq_of_length_le (not_lt.mp hylt)] at hrow
      rw [h] at hrow
      exact (List.length_set _ _ _) ▸ hW _ hrow

theorem visGet_markVis (m : TileMap) (vis : List (List Bool)) (hs : VisShape m vis)
    (tx ty x y : Int) (hin : m.InBounds tx ty = true) (hin2 : m.InBounds x y = true) :
    visGet (markVis vis tx ty) x y = (decide (x = tx ∧ y = ty) || visGet vis x y) := by
  obtain ⟨hx0, hx1, hy0, hy1⟩ := (inBounds_iff m tx ty).1 hin
  obtain ⟨hx20, hx21, hy20, hy21⟩ := (inBounds_iff m x y).1 hin2
  obtain ⟨hylt, hxlt⟩ := visShape_row m vis hs tx ty hin
  unfold visGet markVis
  simp only [List.getD_eq_getElem?_getD]
  by_cases hy : y = ty
  · subst hy
    rw [List.getElem?_set_self hylt]
    simp only [Option.getD_some, List.getElem?_eq_getElem hylt]
    by_cases hx : x = tx
    · subst hx
      rw [List.getElem?_set_self hxlt]
      simp
    · have hne : tx.toNat ≠ x.toNat := by omega
      rw [List.getElem?_set_ne hne]
      simp [hx]
  · have hne : ty.toNat ≠ y.toNat := by omega
    rw [List.getElem?_set_ne hne]
    simp [hy]

/-- A loop whose body does not fail on states satisfying an invariant computes
the fold of the body's results, and keeps the invariant. -/
theorem foldlM_eq_ok_of_inv {α β : Type} (P : β → Prop) (f : β → α → Except Fault β)
    (g : β → α → β) (l : List α)
    (h : ∀ b, P b → ∀ a ∈ l, f b a = .ok (g b a) ∧ P (g b a)) (b : β) (hb : P b) :
    l.foldlM f b = .ok (l.foldl g b) ∧ P (l.foldl g b) := by
  induction l generalizing b with
  | nil => exact ⟨rfl, hb⟩
  | cons a rest ih =>
    obtain ⟨h1, h2⟩ := h b hb a (List.mem_cons_self _ _)
    rw [List.foldlM_cons, h1]
    exact ih (fun b2 hb2 a2 ha2 => h b2 hb2 a2 (List.mem_cons_of_mem _ ha2)) (g b a) h2

theorem foldl_flatMap_map {α β γ : Type} (g : γ → β → γ) (ys xs : List α) (c : α → α → β)
    (init : γ) :
    (ys.flatMap fun y => xs.map fun x => c x y).foldl g init =
      ys.foldl (fun acc y => xs.foldl (fun acc x => g acc (c x y)) acc) init := by
  induction ys generalizing init with
  | nil => rfl
  | cons y rest ih =>
    rw [List.flatMap_cons, List.foldl_append, List.foldl_cons, ← ih, List.foldl_map]

theorem visCond_inBounds (px py : ℚ) (m : TileMap) (tx ty : Int)
    (h : visCond px py m tx ty = true) : m.InBounds tx ty = true := by
  unfold visCond at h
  simp only [Bool.and_eq_true] at h
  exact h.1.1

theorem visibleTilesCell_eq (px py : ℚ) (m : TileMap) (hwf : m.WellFormed)
    (vis : List (List Bool)) (hs : VisShape m vis) (tx ty : Int) :
    visibleTilesCell px py m vis tx ty = .ok (visStep px py m vis (tx, ty)) := by
  unfold visibleTilesCell visStep visCond
  cases hin : m.InBounds tx ty with
  | false => simp [pure, Except.pure]
  | true =>
    simp only [Bool.not_true, Bool.false_eq_true, if_false, Bool.true_and]
    change (if floatSqDist px py tx ty > viewRadius2 then _ else _) = _
    by_cases hd : floatSqDist px py tx ty > viewRadius2
    · simp [hd, pure, Except.pure]
    · obtain ⟨b, hb⟩ := hasLOS_returns m hwf px py tx ty
      cases b with
      | true => simp [hd, hb, bind, Except.bind, setVis_eq m vis hs tx ty hin]
      | false => simp [hd, hb, bind, Except.bind, pure, Except.pure]

theorem visStep_shape (px py : ℚ) (m : TileMap) (vis : List (List Bool))
    (hs : VisShape m vis) (c : Int × Int) : VisShape m (visStep px py m vis c) := by
  unfold visStep
  split_ifs
  · exact markVis_shape m vis hs _ _
  · exact hs

theorem visGet_foldl (px py : ℚ) (m : TileMap) (cells : List (Int × Int))
    (vis : List (List Bool)) (hs : VisShape m vis) (x y : Int)
    (hin : m.InBounds x y = true) :
    visGet (cells.foldl (visStep px py m) vis) x y =
      (visGet vis x y || (decide ((x, y) ∈ cells) && visCond px py m x y)) := by
  induction cells generalizing vis with
  | nil => simp
  | cons c rest ih =>
    rw [List.foldl_cons, ih _ (visStep_shape px py m vis hs c)]
    obtain ⟨cx, cy⟩ := c
    unfold visStep
    by_cases hc : visCond px py m cx cy = true
    · simp only [hc, if_true]
      rw [visGet_markVis m vis hs cx cy x y (visCond_inBounds px py m cx cy hc) hin]
      by_cases he : x = cx ∧ y = cy
      · obtain ⟨rfl, rfl⟩ := he
        simp [hc]
      · have hne : (x, y) ≠ (cx, cy) := by
          intro h
          simp only [Prod.mk.injEq] at h
          exact he h
        simp [he, hne]
    · simp only [hc, if_false]
      by_cases he : x = cx ∧ y = cy
      · obtain ⟨rfl, rfl⟩ := he
        have hc2 : visCond px py m x y = false := by simpa using hc
        simp [hc2]
      · have hne : (x, y) ≠ (cx, cy) := by
          intro h
          simp only [Prod.mk.injEq] at h
          exact he h
        simp [hne]

theorem visMax_eq : visMax = 32 := by
  have hfloor : ⌊viewRadius / ((cellSize : Int) : ℚ)⌋ = 31 := by
    rw [Int.floor_eq_iff]
    norm_num [viewRadius, cellSize]
  unfold visMax
  rw [hfloor]
  have h0 : (0 : ℚ) ≤ ((31 : Int) : ℚ) := by norm_num
  rw [goInt, if_pos h0, Int.floor_intCast]
  rfl

theorem mem_boxCells (pcx pcy x y : Int) :
    (x, y) ∈ boxCells pcx pcy ↔
      pcx - 32 ≤ x ∧ x ≤ pcx + 32 ∧ pcy - 32 ≤ y ∧ y ≤ pcy + 32 := by
  unfold boxCells
  rw [visMax_eq]
  simp only [List.mem_flatMap, List.mem_map, Prod.mk.injEq, mem_intsFromTo]
  constructor
  · rintro ⟨dy, hdy, dx, hdx, rfl, rfl⟩
    omega
  · intro h
    exact ⟨y - pcy, by omega, x - pcx, by omega, by omega, by omega⟩

theorem makeVis_eq (m : TileMap) (hwf : m.WellFormed) :
    makeVis m = .ok (List.replicate m.H.toNat (List.replicate m.W.toNat false)) ∧
      VisShape m (List.replicate m.H.toNat (List.replicate m.W.toNat false)) := by
  obtain ⟨hH, hW⟩ := hwf
  have hH0 : 0 ≤ m.H := by omega
  have hW0 : 0 < m.H → 0 ≤ m.W := by
    intro hpos
    have hlen : 0 < m.Data.length := by omega
    have := hW _ (List.getElem_mem hlen)
    omega
  constructor
  · unfold makeVis
    rw [if_neg (by omega), if_neg]
    rintro ⟨h1, h2⟩
    have := hW0 h1
    omega
  · refine ⟨by rw [List.length_replicate]; omega, ?_⟩
    intro row hrow
    obtain ⟨hne, rfl⟩ := List.mem_replicate.1 hrow
    rw [List.length_replicate]
    have := hW0 (by omega)
    omega

theorem visGet_replicate (h w : Nat) (x y : Int) :
    visGet (List.replicate h (List.replicate w false)) x y = false := by
  unfold visGet
  simp only [List.getD_eq_getElem?_getD, List.getElem?_replicate]
  by_cases hy : y.toNat < h
  · simp only [hy, if_true, Option.getD_some, List.getElem?_replicate]
    split_ifs <;> rfl
  · simp [hy]

/-- On a well-formed map `VisibleTiles` returns a mask of the map's shape, in
which the flag of an in-bounds tile is set exactly when the tile lies in the
scanned box around the viewer's tile and passes the radius and line-of-sight
tests. -/
theorem visibleTiles_spec (m : TileMap) (hwf : m.WellFormed) (px py : ℚ) :
    ∃ vis, VisibleTiles px py m = .ok vis ∧ VisShape m vis ∧
      ∀ tx ty, m.InBounds tx ty = true →
        visGet vis tx ty =
          (decide ((goInt px).tdiv cellSize - 32 ≤ tx ∧ tx ≤ (goInt px).tdiv cellSize + 32 ∧
              (goInt py).tdiv cellSize - 32 ≤ ty ∧ ty ≤ (goInt py).tdiv cellSize + 32) &&
            visCond px py m tx ty) := by
  obtain ⟨hmk, hshape0⟩ := makeVis_eq m hwf
  have hinner : ∀ (vis : List (List Bool)), VisShape m vis →
      ∀ dy ∈ intsFromTo (-visMax) visMax,
        (intsFromTo (-visMax) visMax).foldlM
            (fun vis dx => visibleTilesCell px py m vis
              ((goInt px).tdiv cellSize + dx) ((goInt py).tdiv cellSize + dy)) vis =
          .ok ((intsFromTo (-visMax) visMax).foldl
            (fun vis dx => visStep px py m vis
              ((goInt px).tdiv cellSize + dx, (goInt py).tdiv cellSize + dy)) vis) ∧
        VisShape m ((intsFromTo (-visMax) visMax).foldl
            (fun vis dx => visStep px py m vis
              ((goInt px).tdiv cellSize + dx, (goInt py).tdiv cellSize + dy)) vis) := by
    intro vis hs dy _
    exact foldlM_eq_ok_of_inv (VisShape m) _ _ _
      (fun b hb a _ => ⟨visibleTilesCell_eq px py m hwf b hb _ _, visStep_shape px py m b hb _⟩)
      vis hs
  obtain ⟨houter, hshape⟩ := foldlM_eq_ok_of_inv (VisShape m) _ _ _ hinner _ hshape0
  refine ⟨_, ?_, hshape, ?_⟩
  · unfold VisibleTiles
    rw [hmk]
    exact houter
  · intro tx ty hin
    have hflat := foldl_flatMap_map (visStep px py m) (intsFromTo (-visMax) visMax)
      (intsFromTo (-visMax) visMax)
      (fun dx dy => ((goInt px).tdiv cellSize + dx, (goInt py).tdiv cellSize + dy))
      (List.replicate m.H.toNat (List.replicate m.W.toNat false))
    rw [← hflat]
    have hget := visGet_foldl px py m
      (boxCells ((goInt px).tdiv cellSize) ((goInt py).tdiv cellSize))
      _ hshape0 tx ty hin
    unfold boxCells at hget
    rw [hget, visGet_replicate, Bool.false_or]
    congr 1
    have hmem := mem_boxCells ((goInt px).tdiv cellSize) ((goInt py).tdiv cellSize) tx ty
    unfold boxCells at hmem
    exact decide_eq_decide.mpr hmem

theorem goInt_bounds (q : ℚ) : q - 1 < (goInt q : ℚ) ∧ (goInt q : ℚ) < q + 1 := by
  unfold goInt
  split_ifs with h
  · exact ⟨Int.sub_one_lt_floor q, lt_of_le_of_lt (Int.floor_le q) (by linarith)⟩
  · exact ⟨lt_of_lt_of_le (by linarith) (Int.le_ceil q), Int.ceil_lt_add_one q⟩

theorem tdiv_cellSize_bounds (g : Int) :
    32 * g.tdiv cellSize - 31 ≤ g ∧ g ≤ 32 * g.tdiv cellSize + 31 := by
  unfold cellSize
  rcases le_or_lt 0 g with h | h
  · rw [Int.tdiv_eq_ediv h (by decide)]
    omega
  · have e : g.tdiv 32 = -((-g) / 32) := by
      rw [← Int.tdiv_eq_ediv (by omega) (by decide), Int.neg_tdiv, neg_neg]
    rw [e]
    omega

theorem centreSqDist_eq (px py : ℚ) (tx ty : Int) :
    centreSqDist px py tx ty =
      ((tx : ℚ) * 32 + 16 - px) ^ 2 + ((ty : ℚ) * 32 + 16 - py) ^ 2 := by
  have h16 : cellSize.tdiv 2 = 16 := by decide
  unfold centreSqDist
  rw [h16]
  unfold cellSize
  push_cast
  ring

/-- The centre of the viewer's own tile is less than 48 away on each axis. -/
theorem own_centre_exact (px py : ℚ) :
    centreSqDist px py ((goInt px).tdiv cellSize) ((goInt py).tdiv cellSize) ≤ 4608 := by
  rw [centreSqDist_eq]
  have hx := goInt_bounds px
  have hy := goInt_bounds py
  obtain ⟨hx1, hx2⟩ := tdiv_cellSize_bounds (goInt px)
  obtain ⟨hy1, hy2⟩ := tdiv_cellSize_bounds (goInt py)
  have hx1q : (32 : ℚ) * ((goInt px).tdiv cellSize : ℚ) - 31 ≤ (goInt px : ℚ) := by
    exact_mod_cast hx1
  have hx2q : (goInt px : ℚ) ≤ 32 * ((goInt px).tdiv cellSize : ℚ) + 31 := by
    exact_mod_cast hx2
  have hy1q : (32 : ℚ) * ((goInt py).tdiv cellSize : ℚ) - 31 ≤ (goInt py : ℚ) := by
    exact_mod_cast hy1
  have hy2q : (goInt py : ℚ) ≤ 32 * ((goInt py).tdiv cellSize : ℚ) + 31 := by
    exact_mod_cast hy2
  generalize ((goInt px).tdiv cellSize : ℚ) = a at hx1q hx2q ⊢
  generalize ((goInt py).tdiv cellSize : ℚ) = b at hy1q hy2q ⊢
  generalize (goInt px : ℚ) = gx at hx hx1q hx2q
  generalize (goInt py : ℚ) = gy at hy hy1q hy2q
  have hA1 : -48 < a * 32 + 16 - px := by linarith [hx.1, hx.2]
  have hA2 : a * 32 + 16 - px < 48 := by linarith [hx.1, hx.2]
  have hB1 : -48 < b * 32 + 16 - py := by linarith [hy.1, hy.2]
  have hB2 : b * 32 + 16 - py < 48 := by linarith [hy.1, hy.2]
  have hA : (a * 32 + 16 - px) ^ 2 < 2304 := by nlinarith
  have hB : (b * 32 + 16 - py) ^ 2 < 2304 := by nlinarith
  linarith

/-- The viewer's own tile passes the radius test of `VisibleTiles`. -/
theorem own_centre_close (px py : ℚ) :
    ¬(floatSqDist px py ((goInt px).tdiv cellSize) ((goInt py).tdiv cellSize) > viewRadius2) := by
  apply not_lt.2
  apply floatSqDist_le_of_exact
  refine le_trans (own_centre_exact px py) ?_
  norm_num [viewRadius2, viewRadius]

/-- C8: on a map of the shape built by `NewTileMap`, whatever its walls, when
the viewer's tile `(int(px)/cellSize, int(py)/cellSize)` is in bounds,
`VisibleTiles` returns a mask whose entry for that tile is `true`, and `hasLOS`
from the viewer to its own tile returns `true`. -/
theorem visibleTiles_own_tile (m : TileMap) (hwf : m.WellFormed) (px py : ℚ)
    (hin : m.InBounds ((goInt px).tdiv cellSize) ((goInt py).tdiv cellSize) = true) :
    (∃ vis, VisibleTiles px py m = .ok vis ∧
      visLookup vis ((goInt px).tdiv cellSize) ((goInt py).tdiv cellSize) = .ok true) ∧
    hasLOS px py ((goInt px).tdiv cellSize) ((goInt py).tdiv cellSize) m = .ok true := by
  refine ⟨?_, hasLOS_own_tile m px py⟩
  obtain ⟨vis, hvis, hshape, hget⟩ := visibleTiles_spec m hwf px py
  refine ⟨vis, hvis, ?_⟩
  rw [visLookup_eq m vis hshape _ _ hin, hget _ _ hin]
  have hc : visCond px py m ((goInt px).tdiv cellSize) ((goInt py).tdiv cellSize) = true := by
    unfold visCond
    simp [hin, own_centre_close px py, hasLOS_own_tile m px py]
  rw [hc]
  simp

theorem viewerTile_5_40 :
    (goInt 5).tdiv cellSize = 0 ∧ (goInt 40).tdiv cellSize = 1 := by
  have h5 : goInt 5 = 5 := by exact_mod_cast goInt_intCast 5
  have h40 : goInt 40 = 40 := by exact_mod_cast goInt_intCast 40
  rw [h5, h40]
  decide

/-- Witness for C8: the viewer at `(5, 40)`, in tile `(0, 1)` of the 3×3 map
with a centre wall. -/
theorem visibleTiles_own_tile_witness :
    pillarMap.WellFormed ∧
    pillarMap.InBounds ((goInt 5).tdiv cellSize) ((goInt 40).tdiv cellSize) = true ∧
    ((∃ vis, VisibleTiles 5 40 pillarMap = .ok vis ∧
      visLookup vis ((goInt 5).tdiv cellSize) ((goInt 40).tdiv cellSize) = .ok true) ∧
    hasLOS 5 40 ((goInt 5).tdiv cellSize) ((goInt 40).tdiv cellSize) pillarMap = .ok true) :=
  have hin : pillarMap.InBounds ((goInt 5).tdiv cellSize) ((goInt 40).tdiv cellSize) = true := by
    rw [viewerTile_5_40.1, viewerTile_5_40.2]
    decide
  ⟨by decide, hin, visibleTiles_own_tile pillarMap (by decide) 5 40 hin⟩

end VisibleTilesProofs

section WalkProofs

/-- The loop of `hasLOS` gives the same result on two maps that answer alike
for every tile other than the viewer's tile and the target. -/
theorem hasLOSLoop_congr (m1 m2 : TileMap) (pcx pcy x1 y1 dx dy sx sy : Int)
    (h : ∀ x y, ¬(x = pcx ∧ y = pcy) → ¬(x = x1 ∧ y = y1) → m1.At x y = m2.At x y) :
    ∀ (fuel : Nat) (x0 y0 err : Int),
      hasLOSLoop m1 pcx pcy x1 y1 dx dy sx sy fuel x0 y0 err =
        hasLOSLoop m2 pcx pcy x1 y1 dx dy sx sy fuel x0 y0 err := by
  intro fuel
  induction fuel with
  | zero => intro x0 y0 err; rfl
  | succ fuel ih =>
    intro x0 y0 err
    rw [hasLOSLoop]
    conv_rhs => rw [hasLOSLoop]
    by_cases htgt : x0 = x1 ∧ y0 = y1
    · rw [if_pos htgt, if_pos htgt]
    · rw [if_neg htgt, if_neg htgt]
      by_cases hown : x0 = pcx ∧ y0 = pcy
      · simp only [hown, and_self, not_true_eq_false, if_false, bind, Except.bind, pure,
          Except.pure, Bool.false_eq_true]
        exact ih _ _ _
      · rw [h x0 y0 hown htgt]
        cases hat : m2.At x0 y0 with
        | error e => simp [hown, bind, Except.bind]
        | ok t =>
          by_cases hw : t.«Type» = TileWall
          · simp [hown, hw, bind, Except.bind, pure, Except.pure]
          · simp only [hown, hw, not_false_eq_true, if_true, bind, Except.bind, pure,
              Except.pure, decide_False, Bool.false_eq_true, if_false]
            exact ih _ _ _

/-- C20: for two maps of the shape built by `NewTileMap` and of the same size,
whose tiles have the same type at every in-bounds position except possibly at
the viewer's tile and at the target tile, `hasLOS` returns the same result (for
every amount of fuel given to the loop): neither of the two tiles is tested. -/
theorem hasLOS_ignores_endpoints (px py : ℚ) (tx ty : Int) (m1 m2 : TileMap)
    (hwf1 : m1.WellFormed) (hwf2 : m2.WellFormed) (hW : m1.W = m2.W) (hH : m1.H = m2.H)
    (hsame : ∀ x y, 0 ≤ x → x < m1.W → 0 ≤ y → y < m1.H →
      ¬(x = (goInt px).tdiv cellSize ∧ y = (goInt py).tdiv cellSize) →
      ¬(x = tx ∧ y = ty) → (m1.stored x y).«Type» = (m2.stored x y).«Type») :
    hasLOS px py tx ty m1 = hasLOS px py tx ty m2 ∧
    ∀ fuel, hasLOSFuel fuel px py tx ty m1 = hasLOSFuel fuel px py tx ty m2 := by
  have hat : ∀ x y, ¬(x = (goInt px).tdiv cellSize ∧ y = (goInt py).tdiv cellSize) →
      ¬(x = tx ∧ y = ty) → m1.At x y = m2.At x y := by
    intro x y h1 h2
    rw [at_eq m1 hwf1, at_eq m2 hwf2]
    have hin : m1.InBounds x y = m2.InBounds x y := by
      unfold TileMap.InBounds
      rw [hW, hH]
    unfold TileMap.tileAt
    rw [← hin]
    cases hb : m1.InBounds x y with
    | false => rfl
    | true =>
      obtain ⟨hx0, hx1, hy0, hy1⟩ := (inBounds_iff m1 x y).1 hb
      have hs := hsame x y hx0 hx1 hy0 hy1 h1 h2
      have e : m1.stored x y = m2.stored x y := by
        cases h1s : m1.stored x y
        cases h2s : m2.stored x y
        rw [h1s, h2s] at hs
        simp only at hs
        rw [hs]
      simp only [if_true]
      rw [e]
  have hfuel : ∀ fuel, hasLOSFuel fuel px py tx ty m1 = hasLOSFuel fuel px py tx ty m2 := by
    intro fuel
    unfold hasLOSFuel
    exact hasLOSLoop_congr m1 m2 _ _ _ _ _ _ _ _ hat fuel _ _ _
  exact ⟨by unfold hasLOS; exact hfuel _, hfuel⟩

/-- Witness for C20: the 3×3 map whose only wall is the corner `(0, 0)` and the
3×3 map without walls differ only at `(0, 0)`, the tile of the viewer at
`(5, 5)`; for the target `(2, 2)` both give the same result. -/
theorem hasLOS_ignores_endpoints_witness :
    cornerMap.WellFormed ∧ openMap.WellFormed ∧ cornerMap.W = openMap.W ∧
    cornerMap.H = openMap.H ∧
    (cornerMap.stored 0 0).«Type» ≠ (openMap.stored 0 0).«Type» ∧
    (∀ x y, 0 ≤ x → x < cornerMap.W → 0 ≤ y → y < cornerMap.H →
      ¬(x = (goInt 5).tdiv cellSize ∧ y = (goInt 5).tdiv cellSize) →
      ¬(x = 2 ∧ y = 2) → (cornerMap.stored x y).«Type» = (openMap.stored x y).«Type») ∧
    hasLOS 5 5 2 2 cornerMap = hasLOS 5 5 2 2 openMap :=
  have hv : (goInt 5).tdiv cellSize = 0 := by
    have h5 : goInt 5 = 5 := by exact_mod_cast goInt_intCast 5
    rw [h5]
    decide
  have hsame : ∀ x y, 0 ≤ x → x < cornerMap.W → 0 ≤ y → y < cornerMap.H →
      ¬(x = (goInt 5).tdiv cellSize ∧ y = (goInt 5).tdiv cellSize) →
      ¬(x = 2 ∧ y = 2) → (cornerMap.stored x y).«Type» = (openMap.stored x y).«Type» := by
    intro x y hx0 hx1 hy0 hy1 h1 _
    rw [hv] at h1
    have hW : cornerMap.W = 3 := rfl
    have hH : cornerMap.H = 3 := rfl
    rw [hW] at hx1
    rw [hH] at hy1
    have hx : x = 0 ∨ x = 1 ∨ x = 2 := by omega
    have hy : y = 0 ∨ y = 1 ∨ y = 2 := by omega
    rcases hx with rfl | rfl | rfl <;> rcases hy with rfl | rfl | rfl <;>
      first
      | rfl
      | (exfalso; exact h1 ⟨rfl, rfl⟩)
  ⟨by decide, by decide, rfl, rfl, by decide, hsame,
    (hasLOS_ignores_endpoints 5 5 2 2 cornerMap openMap (by decide) (by decide) rfl rfl
      hsame).1⟩

/-- Under the walk invariant the shorter axis never has more left to go than
the longer one. -/
theorem bres_le (dx dy rx ry : Int) (hinv : BresInv dx dy rx ry) :
    (dy ≤ dx → ry ≤ rx) ∧ (dx < dy → rx ≤ ry) := by
  obtain ⟨h0rx, hrxd, h0ry, hryd, hA, hB⟩ := hinv
  have hdx0 : 0 ≤ dx := le_trans h0rx hrxd
  have hdy0 : 0 ≤ dy := le_trans h0ry hryd
  constructor
  · intro hreg
    have hD := hA hreg
    by_contra hcon
    have h1 : rx + 1 ≤ ry := by omega
    have h2 : 0 ≤ (ry - (rx + 1)) * dx := mul_nonneg (by omega) hdx0
    have h3 : 0 ≤ rx * (dx - dy) := mul_nonneg h0rx (by omega)
    have hdx : dx ≤ 0 := by nlinarith
    omega
  · intro hreg
    have hD := hB hreg
    by_contra hcon
    have h1 : ry + 1 ≤ rx := by omega
    have h2 : 0 ≤ (rx - (ry + 1)) * dy := mul_nonneg (by omega) hdy0
    have h3 : 0 ≤ ry * (dy - dx) := mul_nonneg h0ry (by omega)
    have hdy : dy ≤ 0 := by nlinarith
    omega

/-- One step of the walk of `hasLOS` from a state that satisfies the walk
invariant and is not the target: each axis stays or moves one tile towards the
target, the longer axis moves, and the invariant holds again. -/
theorem losStep_bres (x1 y1 dx dy sx sy rx ry : Int) (hinv : BresInv dx dy rx ry)
    (hne : ¬(rx = 0 ∧ ry = 0)) :
    ∃ rx2 ry2,
      losStep dx dy sx sy (bresState x1 y1 dx dy sx sy rx ry) =
        bresState x1 y1 dx dy sx sy rx2 ry2 ∧
      BresInv dx dy rx2 ry2 ∧ (rx2 = rx ∨ rx2 = rx - 1) ∧ (ry2 = ry ∨ ry2 = ry - 1) ∧
      max rx2 ry2 + 1 = max rx ry := by
  have hle := bres_le dx dy rx ry hinv
  obtain ⟨h0rx, hrxd, h0ry, hryd, hA, hB⟩ := hinv
  have hdx0 : 0 ≤ dx := le_trans h0rx hrxd
  have hdy0 : 0 ≤ dy := le_trans h0ry hryd
  have key : ∀ rx2 ry2, BresInv dx dy rx2 ry2 → (rx2 = rx - 1 ∧ dy ≤ dx ∨ ry2 = ry - 1 ∧ dx < dy) →
      (rx2 = rx ∨ rx2 = rx - 1) → (ry2 = ry ∨ ry2 = ry - 1) →
      max rx2 ry2 + 1 = max rx ry := by
    intro rx2 ry2 hinv2 hlong hx hy
    have hle2 := bres_le dx dy rx2 ry2 hinv2
    rcases hlong with ⟨h1, hreg⟩ | ⟨h1, hreg⟩
    · rw [max_eq_left (hle2.1 hreg), max_eq_left (hle.1 hreg)]
      omega
    · rw [max_eq_right (hle2.2 hreg), max_eq_right (hle.2 hreg)]
      omega
  by_cases hreg : dy ≤ dx
  · have hD := hA hreg
    have hrx1 : 1 ≤ rx := by
      by_contra hcon
      have hrx0 : rx = 0 := by omega
      have hry1 : 1 ≤ ry := by
        by_contra hc2
        exact hne ⟨hrx0, by omega⟩
      rw [hrx0] at hD
      have h2 : 0 ≤ (ry - 1) * dx := mul_nonneg (by omega) hdx0
      have hdx : dx ≤ 0 := by nlinarith
      omega
    have hAstep : 2 * (dx - dy + rx * dy - ry * dx) > -dy := by
      by_contra hcon
      have hdxy : dx = dy := by omega
      rw [← hdxy] at hcon hD
      have h2 : dx * (2 * (rx - ry) + 1) = 0 := by nlinarith
      rcases mul_eq_zero.mp h2 with h3 | h3 <;> omega
    by_cases hBstep : 2 * (dx - dy + rx * dy - ry * dx) < dx
    · have hry1 : 1 ≤ ry := by
        by_contra hcon
        have hry0 : ry = 0 := by omega
        rw [hry0] at hBstep
        have h2 : 0 ≤ (rx - 1) * dy := mul_nonneg (by omega) hdy0
        nlinarith
      have e : (rx - 1) * dy - (ry - 1) * dx = rx * dy - ry * dx - dy + dx := by ring
      have hinv2 : BresInv dx dy (rx - 1) (ry - 1) := by
        refine ⟨by omega, by omega, by omega, by omega, ?_, ?_⟩
        · intro _
          rw [e]
          omega
        · intro h
          omega
      refine ⟨rx - 1, ry - 1, ?_, hinv2, Or.inr rfl, Or.inr rfl,
        key _ _ hinv2 (Or.inl ⟨rfl, hreg⟩) (Or.inr rfl) (Or.inr rfl)⟩
      simp only [losStep, bresState, hAstep, hBstep, if_true, Prod.mk.injEq]
      refine ⟨by ring, by ring, by ring⟩
    · have e : (rx - 1) * dy - ry * dx = rx * dy - ry * dx - dy := by ring
      have hinv2 : BresInv dx dy (rx - 1) ry := by
        refine ⟨by omega, by omega, by omega, by omega, ?_, ?_⟩
        · intro _
          rw [e]
          omega
        · intro h
          omega
      refine ⟨rx - 1, ry, ?_, hinv2, Or.inr rfl, Or.inl rfl,
        key _ _ hinv2 (Or.inl ⟨rfl, hreg⟩) (Or.inr rfl) (Or.inl rfl)⟩
      simp only [losStep, bresState, hAstep, hBstep, if_true, if_false, Prod.mk.injEq]
      refine ⟨by ring, trivial, by ring⟩
  · have hreg2 : dx < dy := by omega
    have hD := hB hreg2
    have hry1 : 1 ≤ ry := by
      by_contra hcon
      have hry0 : ry = 0 := by omega
      have hrx1 : 1 ≤ rx := by
        by_contra hc2
        exact hne ⟨by omega, hry0⟩
      rw [hry0] at hD
      have h2 : 0 ≤ (rx - 1) * dy := mul_nonneg (by omega) hdy0
      have hdy : dy ≤ 0 := by nlinarith
      omega
    have hBstep : 2 * (dx - dy + rx * dy - ry * dx) < dx := by omega
    by_cases hAstep : 2 * (dx - dy + rx * dy - ry * dx) > -dy
    · have hrx1 : 1 ≤ rx := by
        by_contra hcon
        have hrx0 : rx = 0 := by omega
        rw [hrx0] at hAstep
        have h2 : 0 ≤ (ry - 1) * dx := mul_nonneg (by omega) hdx0
        nlinarith
      have e : (rx - 1) * dy - (ry - 1) * dx = rx * dy - ry * dx - dy + dx := by ring
      have hinv2 : BresInv dx dy (rx - 1) (ry - 1) := by
        refine ⟨by omega, by omega, by omega, by omega, ?_, ?_⟩
        · intro h
          omega
        · intro _
          rw [e]
          omega
      refine ⟨rx - 1, ry - 1, ?_, hinv2, Or.inr rfl, Or.inr rfl,
        key _ _ hinv2 (Or.inr ⟨rfl, hreg2⟩) (Or.inr rfl) (Or.inr rfl)⟩
      simp only [losStep, bresState, hAstep, hBstep, if_true, Prod.mk.injEq]
      refine ⟨by ring, by ring, by ring⟩
    · have e : rx * dy - (ry - 1) * dx = rx * dy - ry * dx + dx := by ring
      have hinv2 : BresInv dx dy rx (ry - 1) := by
        refine ⟨by omega, by omega, by omega, by omega, ?_, ?_⟩
        · intro h
          omega
        · intro _
          rw [e]
          omega
      refine ⟨rx, ry - 1, ?_, hinv2, Or.inl rfl, Or.inr rfl,
        key _ _ hinv2 (Or.inr ⟨rfl, hreg2⟩) (Or.inl rfl) (Or.inr rfl)⟩
      simp only [losStep, bresState, hAstep, hBstep, if_true, if_false, Prod.mk.injEq]
      refine ⟨trivial, by ring, by ring⟩

/-- One iteration of the loop of `hasLOS` on a well-formed map, with the state
update written as `losStep`. -/
theorem hasLOSLoop_succ_step (m : TileMap) (hwf : m.WellFormed)
    (pcx pcy x1 y1 dx dy sx sy : Int) (fuel : Nat) (s : Int × Int × Int) :
    hasLOSLoop m pcx pcy x1 y1 dx dy sx sy (fuel + 1) s.1 s.2.1 s.2.2 =
      if s.1 = x1 ∧ s.2.1 = y1 then .ok true
      else if ¬(s.1 = pcx ∧ s.2.1 = pcy) ∧ (m.tileAt s.1 s.2.1).«Type» = TileWall then
        .ok false
      else hasLOSLoop m pcx pcy x1 y1 dx dy sx sy fuel (losStep dx dy sx sy s).1
        (losStep dx dy sx sy s).2.1 (losStep dx dy sx sy s).2.2 :=
  hasLOSLoop_succ m hwf pcx pcy x1 y1 dx dy sx sy fuel s.1 s.2.1 s.2.2

theorem bresState_target_iff (x1 y1 dx dy sx sy rx ry : Int) (hsx : sx = 1 ∨ sx = -1)
    (hsy : sy = 1 ∨ sy = -1) :
    ((bresState x1 y1 dx dy sx sy rx ry).1 = x1 ∧
      (bresState x1 y1 dx dy sx sy rx ry).2.1 = y1) ↔ (rx = 0 ∧ ry = 0) := by
  unfold bresState
  simp only
  constructor
  · rintro ⟨h1, h2⟩
    constructor
    · rcases hsx with h | h <;> rw [h] at h1 <;> omega
    · rcases hsy with h | h <;> rw [h] at h2 <;> omega
  · rintro ⟨h1, h2⟩
    rw [h1, h2]
    constructor <;> ring

/-- On a well-formed map the loop of `hasLOS`, started in a state of the walk
with more fuel than the longer remaining distance, returns a result; the
result is `true` when no tile between that state and the target, other than
the viewer's tile and the target, is a wall. -/
theorem hasLOSLoop_bres (m : TileMap) (hwf : m.WellFormed)
    (pcx pcy x1 y1 dx dy sx sy : Int) (hsx : sx = 1 ∨ sx = -1) (hsy : sy = 1 ∨ sy = -1) :
    ∀ (fuel : Nat) (rx ry : Int), BresInv dx dy rx ry → max rx ry < fuel →
      (∃ b, hasLOSLoop m pcx pcy x1 y1 dx dy sx sy fuel
        (bresState x1 y1 dx dy sx sy rx ry).1 (bresState x1 y1 dx dy sx sy rx ry).2.1
        (bresState x1 y1 dx dy sx sy rx ry).2.2 = .ok b) ∧
      ((∀ rx2 ry2, 0 ≤ rx2 → rx2 ≤ rx → 0 ≤ ry2 → ry2 ≤ ry → ¬(rx2 = 0 ∧ ry2 = 0) →
          (x1 - sx * rx2 = pcx ∧ y1 - sy * ry2 = pcy) ∨
            (m.tileAt (x1 - sx * rx2) (y1 - sy * ry2)).«Type» ≠ TileWall) →
        hasLOSLoop m pcx pcy x1 y1 dx dy sx sy fuel
          (bresState x1 y1 dx dy sx sy rx ry).1 (bresState x1 y1 dx dy sx sy rx ry).2.1
          (bresState x1 y1 dx dy sx sy rx ry).2.2 = .ok true) := by
  intro fuel
  induction fuel with
  | zero =>
    intro rx ry hinv hfuel
    obtain ⟨h0rx, -, h0ry, -, -, -⟩ := hinv
    have := le_max_left rx ry
    omega
  | succ fuel ih =>
    intro rx ry hinv hfuel
    rw [hasLOSLoop_succ_step m hwf]
    by_cases htgt : (bresState x1 y1 dx dy sx sy rx ry).1 = x1 ∧
        (bresState x1 y1 dx dy sx sy rx ry).2.1 = y1
    · rw [if_pos htgt]
      exact ⟨⟨true, rfl⟩, fun _ => rfl⟩
    · rw [if_neg htgt]
      have hne : ¬(rx = 0 ∧ ry = 0) :=
        fun h => htgt ((bresState_target_iff x1 y1 dx dy sx sy rx ry hsx hsy).2 h)
      obtain ⟨rx2, ry2, hstep, hinv2, hx2, hy2, hmax⟩ :=
        losStep_bres x1 y1 dx dy sx sy rx ry hinv hne
      have hih := ih rx2 ry2 hinv2 (by omega)
      obtain ⟨h0rx, -, h0ry, -, -, -⟩ := hinv
      obtain ⟨h0rx2, -, h0ry2, -, -, -⟩ := hinv2
      by_cases hblk : ¬((bresState x1 y1 dx dy sx sy rx ry).1 = pcx ∧
          (bresState x1 y1 dx dy sx sy rx ry).2.1 = pcy) ∧
          (m.tileAt (bresState x1 y1 dx dy sx sy rx ry).1
            (bresState x1 y1 dx dy sx sy rx ry).2.1).«Type» = TileWall
      · rw [if_pos hblk]
        refine ⟨⟨false, rfl⟩, ?_⟩
        intro hclear
        exfalso
        rcases hclear rx ry h0rx le_rfl h0ry le_rfl hne with h | h
        · exact hblk.1 h
        · exact h hblk.2
      · rw [if_neg hblk, hstep]
        refine ⟨hih.1, ?_⟩
        intro hclear
        apply hih.2
        intro rx3 ry3 h1 h2 h3 h4 h5
        exact hclear rx3 ry3 h1 (by omega) h3 (by omega) h5

theorem at_error (m : TileMap) (x y : Int) (e : Fault) (h : m.At x y = .error e) :
    e = .indexOutOfRange := by
  have hidx : ∀ {α : Type} (xs : List α) (i : Int) (e : Fault), index xs i = .error e →
      e = .indexOutOfRange := by
    intro α xs i e h
    unfold index at h
    split_ifs at h
    · injection h with h; exact h.symm
    · split at h
      · cases h
      · injection h with h; exact h.symm
  unfold TileMap.At at h
  split_ifs at h
  cases hrow : index m.Data y with
  | error e2 =>
    rw [hrow] at h
    simp only [bind, Except.bind] at h
    injection h with h
    rw [← h]
    exact hidx _ _ _ hrow
  | ok row =>
    rw [hrow] at h
    simp only [bind, Except.bind] at h
    exact hidx _ _ _ h

/-- One iteration of the loop of `hasLOS` on any map, with the state update
written as `losStep`. -/
theorem hasLOSLoop_succ_gen (m : TileMap) (pcx pcy x1 y1 dx dy sx sy : Int) (fuel : Nat)
    (s : Int × Int × Int) :
    hasLOSLoop m pcx pcy x1 y1 dx dy sx sy (fuel + 1) s.1 s.2.1 s.2.2 =
      if s.1 = x1 ∧ s.2.1 = y1 then .ok true
      else if s.1 = pcx ∧ s.2.1 = pcy then
        hasLOSLoop m pcx pcy x1 y1 dx dy sx sy fuel (losStep dx dy sx sy s).1
          (losStep dx dy sx sy s).2.1 (losStep dx dy sx sy s).2.2
      else
        match m.At s.1 s.2.1 with
        | .error e => .error e
        | .ok t =>
          if t.«Type» = TileWall then .ok false
          else hasLOSLoop m pcx pcy x1 y1 dx dy sx sy fuel (losStep dx dy sx sy s).1
            (losStep dx dy sx sy s).2.1 (losStep dx dy sx sy s).2.2 := by
  obtain ⟨x0, y0, err⟩ := s
  simp only [losStep]
  rw [hasLOSLoop]
  by_cases htgt : x0 = x1 ∧ y0 = y1
  · rw [if_pos htgt, if_pos htgt]
  · rw [if_neg htgt, if_neg htgt]
    by_cases hown : x0 = pcx ∧ y0 = pcy
    · simp [hown, bind, Except.bind, pure, Except.pure]
    · cases hat : m.At x0 y0 with
      | error e => simp [hown, bind, Except.bind]
      | ok t =>
        by_cases hw : t.«Type» = TileWall
        · simp [hown, hw, bind, Except.bind, pure, Except.pure]
        · simp [hown, hw, bind, Except.bind, pure, Except.pure]

/-- On every map, well-formed or not, the loop of `hasLOS` started in a state
of the walk with more fuel than the longer remaining distance does not run
out of fuel. -/
theorem hasLOSLoop_bres_fuel (m : TileMap)
    (pcx pcy x1 y1 dx dy sx sy : Int) (hsx : sx = 1 ∨ sx = -1) (hsy : sy = 1 ∨ sy = -1) :
    ∀ (fuel : Nat) (rx ry : Int), BresInv dx dy rx ry → max rx ry < fuel →
      hasLOSLoop m pcx pcy x1 y1 dx dy sx sy fuel
        (bresState x1 y1 dx dy sx sy rx ry).1 (bresState x1 y1 dx dy sx sy rx ry).2.1
        (bresState x1 y1 dx dy sx sy rx ry).2.2 ≠ .error .outOfFuel := by
  intro fuel
  induction fuel with
  | zero =>
    intro rx ry hinv hfuel
    obtain ⟨h0rx, -, h0ry, -, -, -⟩ := hinv
    have := le_max_left rx ry
    omega
  | succ fuel ih =>
    intro rx ry hinv hfuel
    rw [hasLOSLoop_succ_gen]
    by_cases htgt : (bresState x1 y1 dx dy sx sy rx ry).1 = x1 ∧
        (bresState x1 y1 dx dy sx sy rx ry).2.1 = y1
    · rw [if_pos htgt]
      intro h
      cases h
    · rw [if_neg htgt]
      have hne : ¬(rx = 0 ∧ ry = 0) :=
        fun h => htgt ((bresState_target_iff x1 y1 dx dy sx sy rx ry hsx hsy).2 h)
      obtain ⟨rx2, ry2, hstep, hinv2, hx2, hy2, hmax⟩ :=
        losStep_bres x1 y1 dx dy sx sy rx ry hinv hne
      have hih := ih rx2 ry2 hinv2 (by omega)
      rw [← hstep] at hih
      by_cases hown : (bresState x1 y1 dx dy sx sy rx ry).1 = pcx ∧
          (bresState x1 y1 dx dy sx sy rx ry).2.1 = pcy
      · rw [if_pos hown]
        exact hih
      · rw [if_neg hown]
        cases hat : m.At (bresState x1 y1 dx dy sx sy rx ry).1
            (bresState x1 y1 dx dy sx sy rx ry).2.1 with
        | error e =>
          have he := at_error m _ _ e hat
          simp only
          rw [he]
          intro h
          cases h
        | ok t =>
          simp only
          by_cases hw : t.«Type» = TileWall
          · rw [if_pos hw]
            intro h
            cases h
          · rw [if_neg hw]
            exact hih

theorem abs_nonneg_int (a : Int) : 0 ≤ abs a := by
  unfold abs
  split_ifs <;> omega

theorem sign_cases (x0 x1 : Int) :
    (if x0 > x1 then (-1 : Int) else 1) = 1 ∨ (if x0 > x1 then (-1 : Int) else 1) = -1 := by
  split_ifs
  · exact Or.inr rfl
  · exact Or.inl rfl

/-- The remaining distances of a walk state are its distances to the target. -/
theorem bresState_dist (x1 y1 dx dy sx sy rx ry : Int) (hsx : sx = 1 ∨ sx = -1)
    (hsy : sy = 1 ∨ sy = -1) (h0rx : 0 ≤ rx) (h0ry : 0 ≤ ry) :
    abs (x1 - (bresState x1 y1 dx dy sx sy rx ry).1) = rx ∧
      abs (y1 - (bresState x1 y1 dx dy sx sy rx ry).2.1) = ry := by
  unfold bresState abs
  simp only
  constructor
  · rcases hsx with h | h <;> rw [h] <;> split_ifs <;> omega
  · rcases hsy with h | h <;> rw [h] <;> split_ifs <;> omega

/-- The walk of `hasLOS` is in a state satisfying the walk invariant at every
iteration up to the `max(dx, dy)`-th, and the longer remaining distance has
gone down by one at each. -/
theorem losWalk_bres (x0 y0 x1 y1 : Int) :
    ∀ k : Nat, (k : Int) ≤ max (abs (x1 - x0)) (abs (y1 - y0)) →
      ∃ rx ry,
        losWalk x0 y0 x1 y1 k =
          bresState x1 y1 (abs (x1 - x0)) (abs (y1 - y0))
            (if x0 > x1 then -1 else 1) (if y0 > y1 then -1 else 1) rx ry ∧
        BresInv (abs (x1 - x0)) (abs (y1 - y0)) rx ry ∧
        max rx ry = max (abs (x1 - x0)) (abs (y1 - y0)) - k := by
  have hdx := abs_nonneg_int (x1 - x0)
  have hdy := abs_nonneg_int (y1 - y0)
  intro k
  induction k with
  | zero =>
    intro _
    refine ⟨abs (x1 - x0), abs (y1 - y0), ?_, ?_, by simp⟩
    · unfold losWalk bresState
      rw [← start_eq x0 x1, ← start_eq y0 y1]
      simp only [Prod.mk.injEq, true_and]
      ring
    · refine ⟨hdx, le_rfl, hdy, le_rfl, ?_, ?_⟩
      · intro _
        have e : abs (x1 - x0) * abs (y1 - y0) - abs (y1 - y0) * abs (x1 - x0) = 0 := by ring
        rw [e]
        omega
      · intro _
        have e : abs (x1 - x0) * abs (y1 - y0) - abs (y1 - y0) * abs (x1 - x0) = 0 := by ring
        rw [e]
        omega
  | succ k ih =>
    intro hk
    obtain ⟨rx, ry, hw, hinv, hmax⟩ := ih (by push_cast at hk; omega)
    have hne : ¬(rx = 0 ∧ ry = 0) := by
      rintro ⟨h1, h2⟩
      rw [h1, h2] at hmax
      push_cast at hk
      simp only [max_self] at hmax
      omega
    obtain ⟨rx2, ry2, hstep, hinv2, -, -, hmax2⟩ :=
      losStep_bres x1 y1 (abs (x1 - x0)) (abs (y1 - y0)) (if x0 > x1 then -1 else 1)
        (if y0 > y1 then -1 else 1) rx ry hinv hne
    refine ⟨rx2, ry2, ?_, hinv2, by push_cast; omega⟩
    rw [losWalk, hw, hstep]

/-- Whatever the loop of `hasLOS` returns with some fuel, it returns with any
larger fuel. -/
theorem hasLOSLoop_fuel_mono (m : TileMap) (pcx pcy x1 y1 dx dy sx sy : Int)
    (x0 y0 err : Int) (b : Bool) (fuel : Nat)
    (h : hasLOSLoop m pcx pcy x1 y1 dx dy sx sy fuel x0 y0 err = .ok b) :
    ∀ fuel2 : Nat, fuel ≤ fuel2 →
      hasLOSLoop m pcx pcy x1 y1 dx dy sx sy fuel2 x0 y0 err = .ok b := by
  intro fuel2 hle
  induction fuel2 with
  | zero =>
    have : fuel = 0 := by omega
    rw [this] at h
    exact h
  | succ n ih =>
    by_cases hn : fuel ≤ n
    · have h2 := ih hn
      rw [hasLOSLoop_fuel_succ m pcx pcy x1 y1 dx dy sx sy n x0 y0 err (by rw [h2]; simp)]
      exact h2
    · have : fuel = n + 1 := by omega
      rw [← this]
      exact h

theorem bresState_start (x0 y0 x1 y1 : Int) :
    bresState x1 y1 (abs (x1 - x0)) (abs (y1 - y0)) (if x0 > x1 then -1 else 1)
      (if y0 > y1 then -1 else 1) (abs (x1 - x0)) (abs (y1 - y0)) =
      (x0, y0, abs (x1 - x0) - abs (y1 - y0)) := by
  unfold bresState
  rw [← start_eq x0 x1, ← start_eq y0 y1]
  simp only [Prod.mk.injEq, true_and]
  ring

theorem bresInv_start (dx dy : Int) (hdx : 0 ≤ dx) (hdy : 0 ≤ dy) : BresInv dx dy dx dy := by
  have e : dx * dy - dy * dx = 0 := by ring
  refine ⟨hdx, le_rfl, hdy, le_rfl, ?_, ?_⟩
  · intro _
    rw [e]
    omega
  · intro _
    rw [e]
    omega

/-- The loop that `hasLOSFuel` runs, started in the first state of the walk. -/
theorem hasLOSFuel_eq (fuel : Nat) (px py : ℚ) (tx ty : Int) (m : TileMap) (x0 y0 : Int)
    (hx0 : x0 = (goInt px).tdiv cellSize) (hy0 : y0 = (goInt py).tdiv cellSize) :
    hasLOSFuel fuel px py tx ty m =
      hasLOSLoop m x0 y0 tx ty (abs (tx - x0)) (abs (ty - y0)) (if x0 > tx then -1 else 1)
        (if y0 > ty then -1 else 1) fuel
        (bresState tx ty (abs (tx - x0)) (abs (ty - y0)) (if x0 > tx then -1 else 1)
          (if y0 > ty then -1 else 1) (abs (tx - x0)) (abs (ty - y0))).1
        (bresState tx ty (abs (tx - x0)) (abs (ty - y0)) (if x0 > tx then -1 else 1)
          (if y0 > ty then -1 else 1) (abs (tx - x0)) (abs (ty - y0))).2.1
        (bresState tx ty (abs (tx - x0)) (abs (ty - y0)) (if x0 > tx then -1 else 1)
          (if y0 > ty then -1 else 1) (abs (tx - x0)) (abs (ty - y0))).2.2 := by
  rw [bresState_start, hx0, hy0]
  rfl

/-- C17: the loop of `hasLOS`, from the viewer's tile `(x0, y0)` to the target
`(tx, ty)`, with `N = max(|tx - x0|, |ty - y0|)`: at every iteration before the
`N`-th the current tile is not the target, and the step moves it by at most
one tile per axis, never away from the target, and brings the farther axis one
tile closer; the `N`-th state is the target. So with more than `N` iterations
allowed the loop never runs out, on any map; on a map of the shape built by
`NewTileMap` it returns a result, the one `hasLOS` returns. For a target in
the box that `VisibleTiles` scans, `N` is at most
`floor(viewRadius / cellSize) + 1 = 32`. -/
theorem hasLOS_terminates (m : TileMap) (px py : ℚ) (tx ty x0 y0 : Int)
    (hx0 : x0 = (goInt px).tdiv cellSize) (hy0 : y0 = (goInt py).tdiv cellSize) :
    (∀ k : Nat, (k : Int) < max (abs (tx - x0)) (abs (ty - y0)) →
      ¬((losWalk x0 y0 tx ty k).1 = tx ∧ (losWalk x0 y0 tx ty k).2.1 = ty) ∧
      abs (tx - (losWalk x0 y0 tx ty (k + 1)).1) ≤ abs (tx - (losWalk x0 y0 tx ty k).1) ∧
      abs (ty - (losWalk x0 y0 tx ty (k + 1)).2.1) ≤
        abs (ty - (losWalk x0 y0 tx ty k).2.1) ∧
      abs ((losWalk x0 y0 tx ty (k + 1)).1 - (losWalk x0 y0 tx ty k).1) ≤ 1 ∧
      abs ((losWalk x0 y0 tx ty (k + 1)).2.1 - (losWalk x0 y0 tx ty k).2.1) ≤ 1 ∧
      max (abs (tx - (losWalk x0 y0 tx ty (k + 1)).1))
          (abs (ty - (losWalk x0 y0 tx ty (k + 1)).2.1)) + 1 =
        max (abs (tx - (losWalk x0 y0 tx ty k).1))
          (abs (ty - (losWalk x0 y0 tx ty k).2.1))) ∧
    ((losWalk x0 y0 tx ty (max (abs (tx - x0)) (abs (ty - y0))).toNat).1 = tx ∧
      (losWalk x0 y0 tx ty (max (abs (tx - x0)) (abs (ty - y0))).toNat).2.1 = ty) ∧
    (∀ fuel : Nat, max (abs (tx - x0)) (abs (ty - y0)) < fuel →
      hasLOSFuel fuel px py tx ty m ≠ .error .outOfFuel) ∧
    (m.WellFormed → ∃ b, hasLOS px py tx ty m = .ok b ∧
      ∀ fuel : Nat, max (abs (tx - x0)) (abs (ty - y0)) < fuel →
        hasLOSFuel fuel px py tx ty m = .ok b) ∧
    ((tx, ty) ∈ boxCells x0 y0 →
      max (abs (tx - x0)) (abs (ty - y0)) ≤ visMax ∧ visMax = 32) := by
  have hdx := abs_nonneg_int (tx - x0)
  have hdy := abs_nonneg_int (ty - y0)
  have hsx := sign_cases x0 tx
  have hsy := sign_cases y0 ty
  refine ⟨?_, ?_, ?_, ?_, ?_⟩
  · intro k hk
    obtain ⟨rx, ry, hw, hinv, hmax⟩ := losWalk_bres x0 y0 tx ty k (by omega)
    have hne : ¬(rx = 0 ∧ ry = 0) := by
      rintro ⟨h1, h2⟩
      rw [h1, h2] at hmax
      simp only [max_self] at hmax
      omega
    obtain ⟨rx2, ry2, hstep, hinv2, hx2, hy2, hmax2⟩ :=
      losStep_bres tx ty (abs (tx - x0)) (abs (ty - y0)) (if x0 > tx then -1 else 1)
        (if y0 > ty then -1 else 1) rx ry hinv hne
    have hw2 : losWalk x0 y0 tx ty (k + 1) =
        bresState tx ty (abs (tx - x0)) (abs (ty - y0)) (if x0 > tx then -1 else 1)
          (if y0 > ty then -1 else 1) rx2 ry2 := by
      rw [losWalk, hw, hstep]
    obtain ⟨h0rx, -, h0ry, -, -, -⟩ := hinv
    obtain ⟨h0rx2, -, h0ry2, -, -, -⟩ := hinv2
    obtain ⟨hd1, hd2⟩ := bresState_dist tx ty (abs (tx - x0)) (abs (ty - y0))
      (if x0 > tx then -1 else 1) (if y0 > ty then -1 else 1) rx ry hsx hsy h0rx h0ry
    obtain ⟨hd3, hd4⟩ := bresState_dist tx ty (abs (tx - x0)) (abs (ty - y0))
      (if x0 > tx then -1 else 1) (if y0 > ty then -1 else 1) rx2 ry2 hsx hsy h0rx2 h0ry2
    rw [hw2, hw, hd1, hd2, hd3, hd4]
    refine ⟨fun h => hne ((bresState_target_iff _ _ _ _ _ _ _ _ hsx hsy).1 h),
      by omega, by omega, ?_, ?_, hmax2⟩
    · unfold bresState abs
      simp only
      rcases hsx with h | h <;> rw [h] <;> split_ifs <;> omega
    · unfold bresState abs
      simp only
      rcases hsy with h | h <;> rw [h] <;> split_ifs <;> omega
  · obtain ⟨rx, ry, hw, hinv, hmax⟩ := losWalk_bres x0 y0 tx ty
      (max (abs (tx - x0)) (abs (ty - y0))).toNat (by omega)
    obtain ⟨h0rx, -, h0ry, -, -, -⟩ := hinv
    have hz : rx = 0 ∧ ry = 0 := by omega
    rw [hw]
    exact (bresState_target_iff _ _ _ _ _ _ _ _ hsx hsy).2 hz
  · intro fuel hfuel
    rw [hasLOSFuel_eq fuel px py tx ty m x0 y0 hx0 hy0]
    exact hasLOSLoop_bres_fuel m x0 y0 tx ty _ _ _ _ hsx hsy fuel _ _
      (bresInv_start _ _ hdx hdy) hfuel
  · intro hwf
    obtain ⟨b, hb⟩ := (hasLOSLoop_bres m hwf x0 y0 tx ty _ _ _ _ hsx hsy
      ((max (abs (tx - x0)) (abs (ty - y0))).toNat + 1) _ _
      (bresInv_start _ _ hdx hdy) (by push_cast; omega)).1
    have hall : ∀ fuel : Nat, max (abs (tx - x0)) (abs (ty - y0)) < fuel →
        hasLOSFuel fuel px py tx ty m = .ok b := by
      intro fuel hfuel
      rw [hasLOSFuel_eq fuel px py tx ty m x0 y0 hx0 hy0]
      exact hasLOSLoop_fuel_mono m _ _ _ _ _ _ _ _ _ _ _ b _ hb fuel (by omega)
    refine ⟨b, ?_, hall⟩
    unfold hasLOS
    simp only
    rw [← hx0, ← hy0]
    exact hall _ (by omega)
  · intro hmem
    rw [mem_boxCells] at hmem
    rw [visMax_eq]
    refine ⟨?_, rfl⟩
    unfold abs
    split_ifs <;> omega

theorem viewerTile_5 : (0 : Int) = (goInt 5).tdiv cellSize := by
  have h5 : goInt 5 = 5 := by exact_mod_cast goInt_intCast 5
  rw [h5]
  decide

/-- Witness for C17: the viewer at `(5, 5)` in tile `(0, 0)` of the 3×3 map
with a centre wall, and the target `(2, 1)`, two steps away. -/
theorem hasLOS_terminates_witness :
    (0 : Int) = (goInt 5).tdiv cellSize ∧ pillarMap.WellFormed ∧
    ((2 : Int), (1 : Int)) ∈ boxCells 0 0 ∧
    (∃ b, hasLOS 5 5 2 1 pillarMap = .ok b ∧
      ∀ fuel : Nat, max (abs (2 - 0)) (abs (1 - 0)) < fuel →
        hasLOSFuel fuel 5 5 2 1 pillarMap = .ok b) ∧
    (max (abs (2 - 0)) (abs (1 - 0)) ≤ visMax ∧ visMax = 32) :=
  have hbox : ((2 : Int), (1 : Int)) ∈ boxCells 0 0 := by
    rw [mem_boxCells]
    decide
  ⟨viewerTile_5, by decide, hbox,
    (hasLOS_terminates pillarMap 5 5 2 1 0 0 viewerTile_5 viewerTile_5).2.2.2.1 (by decide),
    (hasLOS_terminates pillarMap 5 5 2 1 0 0 viewerTile_5 viewerTile_5).2.2.2.2 hbox⟩

theorem walk_rectangle (x0 y0 tx ty rx ry : Int) (h1 : 0 ≤ rx) (h2 : rx ≤ abs (tx - x0))
    (h3 : 0 ≤ ry) (h4 : ry ≤ abs (ty - y0)) :
    min x0 tx ≤ tx - (if x0 > tx then (-1 : Int) else 1) * rx ∧
    tx - (if x0 > tx then (-1 : Int) else 1) * rx ≤ max x0 tx ∧
    min y0 ty ≤ ty - (if y0 > ty then (-1 : Int) else 1) * ry ∧
    ty - (if y0 > ty then (-1 : Int) else 1) * ry ≤ max y0 ty := by
  unfold abs at h2 h4
  split_ifs at h2 h4 ⊢ <;> omega

/-- On a well-formed map `hasLOS` returns `true` when the rectangle of tiles
spanned by the viewer's tile and the target holds no wall other than possibly
these two tiles. -/
theorem hasLOS_of_clear_rectangle (m : TileMap) (hwf : m.WellFormed) (px py : ℚ)
    (tx ty x0 y0 : Int)
    (hx0 : x0 = (goInt px).tdiv cellSize) (hy0 : y0 = (goInt py).tdiv cellSize)
    (hclear : ∀ x y, min x0 tx ≤ x → x ≤ max x0 tx → min y0 ty ≤ y → y ≤ max y0 ty →
      ¬(x = x0 ∧ y = y0) → ¬(x = tx ∧ y = ty) → m.At x y ≠ .ok ⟨TileWall⟩) :
    hasLOS px py tx ty m = .ok true := by
  have hdx := abs_nonneg_int (tx - x0)
  have hdy := abs_nonneg_int (ty - y0)
  have hsx := sign_cases x0 tx
  have hsy := sign_cases y0 ty
  unfold hasLOS
  simp only
  rw [← hx0, ← hy0, hasLOSFuel_eq _ px py tx ty m x0 y0 hx0 hy0]
  apply (hasLOSLoop_bres m hwf x0 y0 tx ty _ _ _ _ hsx hsy _ _ _
    (bresInv_start _ _ hdx hdy) (by omega)).2
  intro rx ry h1 h2 h3 h4 hne
  by_cases hown : tx - (if x0 > tx then (-1 : Int) else 1) * rx = x0 ∧
      ty - (if y0 > ty then (-1 : Int) else 1) * ry = y0
  · exact Or.inl hown
  · refine Or.inr ?_
    rw [Ne, tileAt_wall_iff m hwf]
    obtain ⟨r1, r2, r3, r4⟩ := walk_rectangle x0 y0 tx ty rx ry h1 h2 h3 h4
    apply hclear _ _ r1 r2 r3 r4 hown
    intro htgt
    exact hne ((bresState_target_iff tx ty (abs (tx - x0)) (abs (ty - y0)) _ _ rx ry
      hsx hsy).1 htgt)

/-- C19: from the viewer's tile `(x0, y0)` to the target `(tx, ty)`, every
state of the walk of `hasLOS` up to the one that reaches the target lies in
the rectangle of tiles spanned by the two; hence, on a map of the shape built
by `NewTileMap`, if no tile of that rectangle other than the viewer's tile and
the target is a wall, `hasLOS` returns `true`. -/
theorem hasLOS_walk_in_rectangle (m : TileMap) (px py : ℚ) (tx ty x0 y0 : Int)
    (hx0 : x0 = (goInt px).tdiv cellSize) (hy0 : y0 = (goInt py).tdiv cellSize) :
    (∀ k : Nat, (k : Int) ≤ max (abs (tx - x0)) (abs (ty - y0)) →
      min x0 tx ≤ (losWalk x0 y0 tx ty k).1 ∧ (losWalk x0 y0 tx ty k).1 ≤ max x0 tx ∧
      min y0 ty ≤ (losWalk x0 y0 tx ty k).2.1 ∧ (losWalk x0 y0 tx ty k).2.1 ≤ max y0 ty) ∧
    (m.WellFormed →
      (∀ x y, min x0 tx ≤ x → x ≤ max x0 tx → min y0 ty ≤ y → y ≤ max y0 ty →
        ¬(x = x0 ∧ y = y0) → ¬(x = tx ∧ y = ty) → m.At x y ≠ .ok ⟨TileWall⟩) →
      hasLOS px py tx ty m = .ok true) := by
  constructor
  · intro k hk
    obtain ⟨rx, ry, hw, hinv, -⟩ := losWalk_bres x0 y0 tx ty k hk
    obtain ⟨h0rx, hrxd, h0ry, hryd, -, -⟩ := hinv
    rw [hw]
    exact walk_rectangle x0 y0 tx ty rx ry h0rx hrxd h0ry hryd
  · intro hwf hclear
    exact hasLOS_of_clear_rectangle m hwf px py tx ty x0 y0 hx0 hy0 hclear

/-- Witness for C19: the viewer at `(5, 5)` in tile `(0, 0)` of the 3×3 map
without walls, and the target `(2, 2)`. -/
theorem hasLOS_walk_in_rectangle_witness :
    (0 : Int) = (goInt 5).tdiv cellSize ∧ openMap.WellFormed ∧
    (∀ x y, min 0 2 ≤ x → x ≤ max 0 2 → min 0 2 ≤ y → y ≤ max 0 2 →
      ¬(x = 0 ∧ y = 0) → ¬(x = 2 ∧ y = 2) → openMap.At x y ≠ .ok ⟨TileWall⟩) ∧
    hasLOS 5 5 2 2 openMap = .ok true :=
  have hclear : ∀ x y : Int, min 0 2 ≤ x → x ≤ max 0 2 → min 0 2 ≤ y → y ≤ max 0 2 →
      ¬(x = 0 ∧ y = 0) → ¬(x = 2 ∧ y = 2) → openMap.At x y ≠ .ok ⟨TileWall⟩ := by
    intro x y h1 h2 h3 h4 _ _
    have hx : x = 0 ∨ x = 1 ∨ x = 2 := by omega
    have hy : y = 0 ∨ y = 1 ∨ y = 2 := by omega
    rcases hx with rfl | rfl | rfl <;> rcases hy with rfl | rfl | rfl <;> decide
  ⟨viewerTile_5, by decide, hclear,
    (hasLOS_walk_in_rectangle openMap 5 5 2 2 0 0 viewerTile_5 viewerTile_5).2 (by decide)
      hclear⟩

/-- The first state of the walk satisfies the two-sided walk invariant. -/
theorem bresInv2_start (dx dy : Int) (hdx : 0 ≤ dx) (hdy : 0 ≤ dy) : BresInv2 dx dy dx dy := by
  refine ⟨bresInv_start dx dy hdx hdy, ?_, ?_⟩
  · intro _ hpos
    have e : dx * dy - dy * dx = 0 := by ring
    rw [e]
    omega
  · intro h
    have e : dx * dy - dy * dx = 0 := by ring
    rw [e]
    omega

/-- One step of the walk of `hasLOS` keeps the two-sided walk invariant. -/
theorem losStep_bres2 (x1 y1 dx dy sx sy rx ry : Int) (hinv : BresInv2 dx dy rx ry)
    (hne : ¬(rx = 0 ∧ ry = 0)) :
    ∃ rx2 ry2,
      losStep dx dy sx sy (bresState x1 y1 dx dy sx sy rx ry) =
        bresState x1 y1 dx dy sx sy rx2 ry2 ∧
      BresInv2 dx dy rx2 ry2 ∧ (rx2 = rx ∨ rx2 = rx - 1) ∧ (ry2 = ry ∨ ry2 = ry - 1) ∧
      max rx2 ry2 + 1 = max rx ry := by
  obtain ⟨hinv1, hU, hL⟩ := hinv
  obtain ⟨rx2, ry2, hstep, hinv2, hx, hy, hmax⟩ :=
    losStep_bres x1 y1 dx dy sx sy rx ry hinv1 hne
  have hE : (losStep dx dy sx sy (bresState x1 y1 dx dy sx sy rx ry)).2.2 =
      dx - dy + rx2 * dy - ry2 * dx := by
    rw [hstep]
    rfl
  simp only [losStep, bresState] at hE
  obtain ⟨h0rx, hrxd, h0ry, hryd, hA, hB⟩ := hinv1
  have hdx0 : 0 ≤ dx := le_trans h0rx hrxd
  have hdy0 : 0 ≤ dy := le_trans h0ry hryd
  refine ⟨rx2, ry2, hstep, ⟨hinv2, ?_, ?_⟩, hx, hy, hmax⟩
  · intro hreg hpos
    have hD := hA hreg
    have hUp := hU hreg hpos
    have hAstep : 2 * (dx - dy + rx * dy - ry * dx) > -dy := by
      by_contra hcon
      have hdxy : dx = dy := by omega
      rw [← hdxy] at hcon hD
      have h2 : dx * (2 * (rx - ry) + 1) = 0 := by nlinarith
      rcases mul_eq_zero.mp h2 with h3 | h3 <;> omega
    rw [if_pos hAstep] at hE
    split_ifs at hE with h1 <;> omega
  · intro hreg
    have hD := hB hreg
    have hLo := hL hreg
    have hBstep : 2 * (dx - dy + rx * dy - ry * dx) < dx := by omega
    rw [if_pos hBstep] at hE
    split_ifs at hE with h1 <;> omega


/-- On a well-formed map the loop of `hasLOS`, started in a state of the walk,
returns `true` when no later state of the walk before the target, other than
the viewer's tile, is a wall. -/
theorem hasLOSLoop_clear (m : TileMap) (hwf : m.WellFormed)
    (pcx pcy x1 y1 dx dy sx sy : Int) (hsx : sx = 1 ∨ sx = -1) (hsy : sy = 1 ∨ sy = -1)
    (hclear : ∀ rx2 ry2, BresInv2 dx dy rx2 ry2 → ¬(rx2 = 0 ∧ ry2 = 0) →
      (x1 - sx * rx2 = pcx ∧ y1 - sy * ry2 = pcy) ∨
        (m.tileAt (x1 - sx * rx2) (y1 - sy * ry2)).«Type» ≠ TileWall) :
    ∀ (fuel : Nat) (rx ry : Int), BresInv2 dx dy rx ry → max rx ry < fuel →
      hasLOSLoop m pcx pcy x1 y1 dx dy sx sy fuel
        (bresState x1 y1 dx dy sx sy rx ry).1 (bresState x1 y1 dx dy sx sy rx ry).2.1
        (bresState x1 y1 dx dy sx sy rx ry).2.2 = .ok true := by
  intro fuel
  induction fuel with
  | zero =>
    intro rx ry hinv hfuel
    obtain ⟨⟨h0rx, -, h0ry, -, -, -⟩, -, -⟩ := hinv
    have := le_max_left rx ry
    omega
  | succ fuel ih =>
    intro rx ry hinv hfuel
    rw [hasLOSLoop_succ_step m hwf]
    by_cases htgt : (bresState x1 y1 dx dy sx sy rx ry).1 = x1 ∧
        (bresState x1 y1 dx dy sx sy rx ry).2.1 = y1
    · rw [if_pos htgt]
    · rw [if_neg htgt]
      have hne : ¬(rx = 0 ∧ ry = 0) :=
        fun h => htgt ((bresState_target_iff x1 y1 dx dy sx sy rx ry hsx hsy).2 h)
      obtain ⟨rx2, ry2, hstep, hinv2, hx2, hy2, hmax⟩ :=
        losStep_bres2 x1 y1 dx dy sx sy rx ry hinv hne
      have hnb : ¬(¬((bresState x1 y1 dx dy sx sy rx ry).1 = pcx ∧
          (bresState x1 y1 dx dy sx sy rx ry).2.1 = pcy) ∧
          (m.tileAt (bresState x1 y1 dx dy sx sy rx ry).1
            (bresState x1 y1 dx dy sx sy rx ry).2.1).«Type» = TileWall) := by
        rintro ⟨h1, h2⟩
        rcases hclear rx ry hinv hne with h | h
        · exact h1 h
        · exact h h2
      rw [if_neg hnb, hstep]
      exact ih rx2 ry2 hinv2 (by omega)

/-- On a well-formed map the loop of `hasLOS`, started in a state of the walk
that has at least one column to go, returns `false` when every state of the
walk with one column to go is a wall tile other than the viewer's tile and
the target. -/
theorem hasLOSLoop_barrier_x (m : TileMap) (hwf : m.WellFormed)
    (pcx pcy x1 y1 dx dy sx sy : Int) (hsx : sx = 1 ∨ sx = -1) (hsy : sy = 1 ∨ sy = -1)
    (hbar : ∀ ry2, BresInv2 dx dy 1 ry2 →
      ¬(x1 - sx * 1 = pcx ∧ y1 - sy * ry2 = pcy) ∧
        (m.tileAt (x1 - sx * 1) (y1 - sy * ry2)).«Type» = TileWall) :
    ∀ (fuel : Nat) (rx ry : Int), BresInv2 dx dy rx ry → max rx ry < fuel → 1 ≤ rx →
      hasLOSLoop m pcx pcy x1 y1 dx dy sx sy fuel
        (bresState x1 y1 dx dy sx sy rx ry).1 (bresState x1 y1 dx dy sx sy rx ry).2.1
        (bresState x1 y1 dx dy sx sy rx ry).2.2 = .ok false := by
  intro fuel
  induction fuel with
  | zero =>
    intro rx ry hinv hfuel
    obtain ⟨⟨h0rx, -, h0ry, -, -, -⟩, -, -⟩ := hinv
    have := le_max_left rx ry
    omega
  | succ fuel ih =>
    intro rx ry hinv hfuel hrx
    rw [hasLOSLoop_succ_step m hwf]
    have hne : ¬(rx = 0 ∧ ry = 0) := by omega
    have htgt : ¬((bresState x1 y1 dx dy sx sy rx ry).1 = x1 ∧
        (bresState x1 y1 dx dy sx sy rx ry).2.1 = y1) :=
      fun h => hne ((bresState_target_iff x1 y1 dx dy sx sy rx ry hsx hsy).1 h)
    rw [if_neg htgt]
    by_cases hblk : ¬((bresState x1 y1 dx dy sx sy rx ry).1 = pcx ∧
        (bresState x1 y1 dx dy sx sy rx ry).2.1 = pcy) ∧
        (m.tileAt (bresState x1 y1 dx dy sx sy rx ry).1
          (bresState x1 y1 dx dy sx sy rx ry).2.1).«Type» = TileWall
    · rw [if_pos hblk]
    · rw [if_neg hblk]
      have hrx2 : 2 ≤ rx := by
        by_contra hcon
        have h1 : rx = 1 := by omega
        subst h1
        exact hblk (hbar ry hinv)
      obtain ⟨rx2, ry2, hstep, hinv2, hx2, hy2, hmax⟩ :=
        losStep_bres2 x1 y1 dx dy sx sy rx ry hinv hne
      rw [hstep]
      exact ih rx2 ry2 hinv2 (by omega) (by omega)

/-- On a well-formed map the loop of `hasLOS`, started in a state of the walk
that has at least one row to go, returns `false` when every state of the walk
with one row to go is a wall tile other than the viewer's tile and the
target. -/
theorem hasLOSLoop_barrier_y (m : TileMap) (hwf : m.WellFormed)
    (pcx pcy x1 y1 dx dy sx sy : Int) (hsx : sx = 1 ∨ sx = -1) (hsy : sy = 1 ∨ sy = -1)
    (hbar : ∀ rx2, BresInv2 dx dy rx2 1 →
      ¬(x1 - sx * rx2 = pcx ∧ y1 - sy * 1 = pcy) ∧
        (m.tileAt (x1 - sx * rx2) (y1 - sy * 1)).«Type» = TileWall) :
    ∀ (fuel : Nat) (rx ry : Int), BresInv2 dx dy rx ry → max rx ry < fuel → 1 ≤ ry →
      hasLOSLoop m pcx pcy x1 y1 dx dy sx sy fuel
        (bresState x1 y1 dx dy sx sy rx ry).1 (bresState x1 y1 dx dy sx sy rx ry).2.1
        (bresState x1 y1 dx dy sx sy rx ry).2.2 = .ok false := by
  intro fuel
  induction fuel with
  | zero =>
    intro rx ry hinv hfuel
    obtain ⟨⟨h0rx, -, h0ry, -, -, -⟩, -, -⟩ := hinv
    have := le_max_left rx ry
    omega
  | succ fuel ih =>
    intro rx ry hinv hfuel hry
    rw [hasLOSLoop_succ_step m hwf]
    have hne : ¬(rx = 0 ∧ ry = 0) := by omega
    have htgt : ¬((bresState x1 y1 dx dy sx sy rx ry).1 = x1 ∧
        (bresState x1 y1 dx dy sx sy rx ry).2.1 = y1) :=
      fun h => hne ((bresState_target_iff x1 y1 dx dy sx sy rx ry hsx hsy).1 h)
    rw [if_neg htgt]
    by_cases hblk : ¬((bresState x1 y1 dx dy sx sy rx ry).1 = pcx ∧
        (bresState x1 y1 dx dy sx sy rx ry).2.1 = pcy) ∧
        (m.tileAt (bresState x1 y1 dx dy sx sy rx ry).1
          (bresState x1 y1 dx dy sx sy rx ry).2.1).«Type» = TileWall
    · rw [if_pos hblk]
    · rw [if_neg hblk]
      have hry2 : 2 ≤ ry := by
        by_contra hcon
        have h1 : ry = 1 := by omega
        subst h1
        exact hblk (hbar rx hinv)
      obtain ⟨rx2, ry2, hstep, hinv2, hx2, hy2, hmax⟩ :=
        losStep_bres2 x1 y1 dx dy sx sy rx ry hinv hne
      rw [hstep]
      exact ih rx2 ry2 hinv2 (by omega) (by omega)


/-- In a room with no wall among its interior tiles, seen from an interior
tile `(x0, y0)`, `hasLOS` to an in-bounds tile returns `true` when the walk
reaches the target before it meets the border: for a target in the top or
bottom row when `|tx - x0| ≤ 2 |ty - y0|`, for a target in the left or right
column when `|ty - y0| ≤ 2 |tx - x0|`, for an interior target always. -/
theorem hasLOS_room_clear (m : TileMap) (hwf : m.WellFormed)
    (hroom : ∀ x y : Int, 1 ≤ x → x ≤ m.W - 2 → 1 ≤ y → y ≤ m.H - 2 →
      m.At x y ≠ .ok ⟨TileWall⟩)
    (px py : ℚ) (x0 y0 : Int)
    (hx0 : x0 = (goInt px).tdiv cellSize) (hy0 : y0 = (goInt py).tdiv cellSize)
    (hviewer : 1 ≤ x0 ∧ x0 ≤ m.W - 2 ∧ 1 ≤ y0 ∧ y0 ≤ m.H - 2)
    (tx ty : Int) (hin : 0 ≤ tx ∧ tx < m.W ∧ 0 ≤ ty ∧ ty < m.H)
    (hrow : (ty = 0 ∨ ty = m.H - 1) → abs (tx - x0) ≤ 2 * abs (ty - y0))
    (hcol : (tx = 0 ∨ tx = m.W - 1) → abs (ty - y0) ≤ 2 * abs (tx - x0)) :
    hasLOS px py tx ty m = .ok true := by
  have hdx := abs_nonneg_int (tx - x0)
  have hdy := abs_nonneg_int (ty - y0)
  have hsx := sign_cases x0 tx
  have hsy := sign_cases y0 ty
  have hdxv : abs (tx - x0) = if x0 > tx then x0 - tx else tx - x0 := by
    unfold abs
    split_ifs <;> omega
  have hdyv : abs (ty - y0) = if y0 > ty then y0 - ty else ty - y0 := by
    unfold abs
    split_ifs <;> omega
  unfold hasLOS
  simp only
  rw [← hx0, ← hy0, hasLOSFuel_eq _ px py tx ty m x0 y0 hx0 hy0]
  generalize hdxe : abs (tx - x0) = dx at hdx hdxv hrow hcol ⊢
  generalize hdye : abs (ty - y0) = dy at hdy hdyv hrow hcol ⊢
  have hstart := bresInv2_start dx dy hdx hdy
  have hcond : ((ty = 0 ∨ ty = m.H - 1) → dx ≤ 2 * dy) ∧
      ((tx = 0 ∨ tx = m.W - 1) → dy ≤ 2 * dx) := ⟨hrow, hcol⟩
  apply hasLOSLoop_clear m hwf x0 y0 tx ty dx dy _ _ hsx hsy _ _ _ _ hstart (by omega)
  intro rx2 ry2 hinv hne
  refine Or.inr ?_
  obtain ⟨⟨h0rx, hrxd, h0ry, hryd, hA, hB⟩, hU, hL⟩ := hinv
  have hnx : ¬(rx2 = 0 ∧ (tx = 0 ∨ tx = m.W - 1)) := by
    rintro ⟨hr0, hb⟩
    have hc := hcond.2 hb
    have hry1 : 1 ≤ ry2 := by omega
    have h2 : 0 ≤ (ry2 - 1) * dx := mul_nonneg (by omega) hdx
    have h3 : (ry2 - 1) * dx = ry2 * dx - dx := by ring
    rw [h3] at h2
    subst hr0
    simp only [zero_mul, zero_sub] at hA hL
    by_cases hreg : dy ≤ dx
    · have := hA hreg
      omega
    · have := hL (by omega)
      omega
  have hny : ¬(ry2 = 0 ∧ (ty = 0 ∨ ty = m.H - 1)) := by
    rintro ⟨hr0, hb⟩
    have hc := hcond.1 hb
    have hrx1 : 1 ≤ rx2 := by omega
    have h2 : 0 ≤ (rx2 - 1) * dy := mul_nonneg (by omega) hdy
    have h3 : (rx2 - 1) * dy = rx2 * dy - dy := by ring
    rw [h3] at h2
    subst hr0
    simp only [zero_mul, sub_zero] at hB hU
    by_cases hreg : dy ≤ dx
    · have := hU hreg (by omega)
      omega
    · have := hB (by omega)
      omega
  rw [Ne, tileAt_wall_iff m hwf]
  apply hroom
  · split_ifs at hdxv ⊢ <;> omega
  · split_ifs at hdxv ⊢ <;> omega
  · split_ifs at hdyv ⊢ <;> omega
  · split_ifs at hdyv ⊢ <;> omega

/-- In a room whose border tiles are walls and whose interior tiles are not,
seen from an interior tile `(x0, y0)`, `hasLOS` to an in-bounds tile returns
`true` exactly when the walk does not meet the border before the target: a
target in the top or bottom row needs `|tx - x0| ≤ 2 |ty - y0|`, a target in
the left or right column needs `|ty - y0| ≤ 2 |tx - x0|`. -/
theorem hasLOS_room (m : TileMap) (hwf : m.WellFormed)
    (hborder : ∀ x y : Int, 0 ≤ x → x < m.W → 0 ≤ y → y < m.H →
      (x = 0 ∨ x = m.W - 1 ∨ y = 0 ∨ y = m.H - 1) → m.At x y = .ok ⟨TileWall⟩)
    (hroom : ∀ x y : Int, 1 ≤ x → x ≤ m.W - 2 → 1 ≤ y → y ≤ m.H - 2 →
      m.At x y ≠ .ok ⟨TileWall⟩)
    (px py : ℚ) (x0 y0 : Int)
    (hx0 : x0 = (goInt px).tdiv cellSize) (hy0 : y0 = (goInt py).tdiv cellSize)
    (hviewer : 1 ≤ x0 ∧ x0 ≤ m.W - 2 ∧ 1 ≤ y0 ∧ y0 ≤ m.H - 2)
    (tx ty : Int) (hin : 0 ≤ tx ∧ tx < m.W ∧ 0 ≤ ty ∧ ty < m.H) :
    hasLOS px py tx ty m = .ok (decide
      (((ty = 0 ∨ ty = m.H - 1) → abs (tx - x0) ≤ 2 * abs (ty - y0)) ∧
        ((tx = 0 ∨ tx = m.W - 1) → abs (ty - y0) ≤ 2 * abs (tx - x0)))) := by
  by_cases hcond0 : ((ty = 0 ∨ ty = m.H - 1) → abs (tx - x0) ≤ 2 * abs (ty - y0)) ∧
      ((tx = 0 ∨ tx = m.W - 1) → abs (ty - y0) ≤ 2 * abs (tx - x0))
  · rw [decide_eq_true hcond0]
    exact hasLOS_room_clear m hwf hroom px py x0 y0 hx0 hy0 hviewer tx ty hin hcond0.1 hcond0.2
  rw [decide_eq_false hcond0]
  have hdx := abs_nonneg_int (tx - x0)
  have hdy := abs_nonneg_int (ty - y0)
  have hsx := sign_cases x0 tx
  have hsy := sign_cases y0 ty
  have hdxv : abs (tx - x0) = if x0 > tx then x0 - tx else tx - x0 := by
    unfold abs
    split_ifs <;> omega
  have hdyv : abs (ty - y0) = if y0 > ty then y0 - ty else ty - y0 := by
    unfold abs
    split_ifs <;> omega
  unfold hasLOS
  simp only
  rw [← hx0, ← hy0, hasLOSFuel_eq _ px py tx ty m x0 y0 hx0 hy0]
  generalize hdxe : abs (tx - x0) = dx at hdx hdxv hcond0 ⊢
  generalize hdye : abs (ty - y0) = dy at hdy hdyv hcond0 ⊢
  have hstart := bresInv2_start dx dy hdx hdy
  have hcond := hcond0
  rw [not_and_or] at hcond
  rcases hcond with hc | hc
  · have hb : ty = 0 ∨ ty = m.H - 1 := by
      by_contra h
      exact hc (fun h2 => absurd h2 h)
    have hfar : 2 * dy < dx := by
      by_contra h
      exact hc (fun _ => by omega)
    apply hasLOSLoop_barrier_x m hwf x0 y0 tx ty dx dy _ _ hsx hsy _ _ _ _ hstart (by omega)
      (by omega)
    intro ry2 hinv
    obtain ⟨⟨h0rx, hrxd, h0ry, hryd, hA, hB⟩, hU, hL⟩ := hinv
    have hry0 : ry2 = 0 := by
      by_contra hcon
      have hry1 : 1 ≤ ry2 := by omega
      have h2 : 0 ≤ (ry2 - 1) * dx := mul_nonneg (by omega) hdx
      have h3 : (ry2 - 1) * dx = ry2 * dx - dx := by ring
      rw [h3] at h2
      have := hA (by omega)
      omega
    subst hry0
    refine ⟨?_, ?_⟩
    · rintro ⟨-, h2⟩
      omega
    · rw [tileAt_wall_iff m hwf]
      apply hborder
      · split_ifs at hdxv ⊢ <;> omega
      · split_ifs at hdxv ⊢ <;> omega
      · omega
      · omega
      · right; right
        omega
  · have hb : tx = 0 ∨ tx = m.W - 1 := by
      by_contra h
      exact hc (fun h2 => absurd h2 h)
    have hfar : 2 * dx < dy := by
      by_contra h
      exact hc (fun _ => by omega)
    apply hasLOSLoop_barrier_y m hwf x0 y0 tx ty dx dy _ _ hsx hsy _ _ _ _ hstart (by omega)
      (by omega)
    intro rx2 hinv
    obtain ⟨⟨h0rx, hrxd, h0ry, hryd, hA, hB⟩, hU, hL⟩ := hinv
    have hrx0 : rx2 = 0 := by
      by_contra hcon
      have hrx1 : 1 ≤ rx2 := by omega
      have h2 : 0 ≤ (rx2 - 1) * dy := mul_nonneg (by omega) hdy
      have h3 : (rx2 - 1) * dy = rx2 * dy - dy := by ring
      rw [h3] at h2
      have := hB (by omega)
      omega
    subst hrx0
    refine ⟨?_, ?_⟩
    · rintro ⟨h1, -⟩
      omega
    · rw [tileAt_wall_iff m hwf]
      apply hborder
      · omega
      · omega
      · split_ifs at hdyv ⊢ <;> omega
      · split_ifs at hdyv ⊢ <;> omega
      · omega

end WalkProofs

section MaskProofs

/-- A tile whose centre is at most 1002 away from the viewer lies in the box
of tiles that `VisibleTiles` scans around the viewer's tile. -/
theorem box_covers (px py : ℚ) (tx ty : Int)
    (h : centreSqDist px py tx ty ≤ 1002 * 1002) :
    (goInt px).tdiv cellSize - 32 ≤ tx ∧ tx ≤ (goInt px).tdiv cellSize + 32 ∧
      (goInt py).tdiv cellSize - 32 ≤ ty ∧ ty ≤ (goInt py).tdiv cellSize + 32 := by
  rw [centreSqDist_eq] at h
  have key : ∀ (p : ℚ) (t : Int), ((t : ℚ) * 32 + 16 - p) ^ 2 ≤ 1002 * 1002 →
      (goInt p).tdiv cellSize - 32 ≤ t ∧ t ≤ (goInt p).tdiv cellSize + 32 := by
    intro p t hsq
    have hb := goInt_bounds p
    obtain ⟨h1, h2⟩ := tdiv_cellSize_bounds (goInt p)
    have h1q : (32 : ℚ) * ((goInt p).tdiv cellSize : ℚ) - 31 ≤ (goInt p : ℚ) := by
      exact_mod_cast h1
    have h2q : (goInt p : ℚ) ≤ 32 * ((goInt p).tdiv cellSize : ℚ) + 31 := by
      exact_mod_cast h2
    have habs : -1002 ≤ (t : ℚ) * 32 + 16 - p ∧ (t : ℚ) * 32 + 16 - p ≤ 1002 := by
      constructor <;> nlinarith
    have hlo : (32 : ℚ) * (((goInt p).tdiv cellSize : ℚ) - 33) < 32 * (t : ℚ) := by
      linarith [hb.1, hb.2, habs.1, habs.2]
    have hhi : (32 : ℚ) * (t : ℚ) < 32 * (((goInt p).tdiv cellSize : ℚ) + 32) := by
      linarith [hb.1, hb.2, habs.1, habs.2]
    have hlo2 : ((goInt p).tdiv cellSize : ℚ) - 33 < (t : ℚ) := by linarith
    have hhi2 : (t : ℚ) < ((goInt p).tdiv cellSize : ℚ) + 32 := by linarith
    have hlo3 : (goInt p).tdiv cellSize - 33 < t := by exact_mod_cast hlo2
    have hhi3 : t < (goInt p).tdiv cellSize + 32 := by exact_mod_cast hhi2
    omega
  have hx := key px tx (by nlinarith [sq_nonneg ((ty : ℚ) * 32 + 16 - py)])
  have hy := key py ty (by nlinarith [sq_nonneg ((tx : ℚ) * 32 + 16 - px)])
  exact ⟨hx.1, hx.2, hy.1, hy.2⟩

/-- A tile whose centre is within the view radius lies in the box of tiles
that `VisibleTiles` scans around the viewer's tile. -/
theorem box_covers_radius (px py : ℚ) (tx ty : Int)
    (h : centreSqDist px py tx ty ≤ viewRadius2) :
    (goInt px).tdiv cellSize - 32 ≤ tx ∧ tx ≤ (goInt px).tdiv cellSize + 32 ∧
      (goInt py).tdiv cellSize - 32 ≤ ty ∧ ty ≤ (goInt py).tdiv cellSize + 32 :=
  box_covers px py tx ty (le_trans h (by norm_num [viewRadius2, viewRadius]))

/-- A tile that passes the radius test of `VisibleTiles` lies in the box of
tiles that `VisibleTiles` scans around the viewer's tile. -/
theorem box_covers_float (px py : ℚ) (tx ty : Int)
    (h : floatSqDist px py tx ty ≤ viewRadius2) :
    (goInt px).tdiv cellSize - 32 ≤ tx ∧ tx ≤ (goInt px).tdiv cellSize + 32 ∧
      (goInt py).tdiv cellSize - 32 ≤ ty ∧ ty ≤ (goInt py).tdiv cellSize + 32 :=
  box_covers px py tx ty
    (le_trans (exact_le_of_floatSqDist px py tx ty h) (by norm_num [viewRadius2, viewRadius]))

/-- Reading a mask of the map's shape succeeds only inside the map. -/
theorem visLookup_inBounds (m : TileMap) (vis : List (List Bool)) (hs : VisShape m vis)
    (tx ty : Int) (b : Bool) (h : visLookup vis tx ty = .ok b) : m.InBounds tx ty = true := by
  obtain ⟨hH, hW⟩ := hs
  unfold visLookup at h
  cases hrow : index vis ty with
  | error e =>
    rw [hrow] at h
    simp only [bind, Except.bind] at h
    cases h
  | ok row =>
    rw [hrow] at h
    simp only [bind, Except.bind] at h
    obtain ⟨hy0, hyget⟩ := (index_eq_ok_iff _ _ _).1 hrow
    obtain ⟨hx0, hxget⟩ := (index_eq_ok_iff _ _ _).1 h
    obtain ⟨hylt, hyeq⟩ := List.getElem?_eq_some.1 hyget
    obtain ⟨hxlt, -⟩ := List.getElem?_eq_some.1 hxget
    have hrowmem : row ∈ vis := hyeq ▸ List.getElem_mem hylt
    have hrl := hW row hrowmem
    rw [inBounds_iff]
    omega

/-- On a well-formed map the mask returned by `VisibleTiles` reads `true` at a
tile exactly when the tile is in bounds, it passes the radius test and
`hasLOS` returns `true` for it; at every in-bounds tile it reads a value. -/
theorem visibleTiles_lookup (m : TileMap) (hwf : m.WellFormed) (px py : ℚ) :
    ∃ vis, VisibleTiles px py m = .ok vis ∧
      ∀ tx ty,
        (visLookup vis tx ty = .ok true ↔
          (m.InBounds tx ty = true ∧ floatSqDist px py tx ty ≤ viewRadius2 ∧
            hasLOS px py tx ty m = .ok true)) ∧
        (m.InBounds tx ty = true →
          visLookup vis tx ty = .ok (decide (floatSqDist px py tx ty ≤ viewRadius2) &&
            decide (hasLOS px py tx ty m = .ok true))) := by
  obtain ⟨vis, hvis, hshape, hget⟩ := visibleTiles_spec m hwf px py
  refine ⟨vis, hvis, ?_⟩
  intro tx ty
  have hval : m.InBounds tx ty = true →
      visLookup vis tx ty = .ok (decide (floatSqDist px py tx ty ≤ viewRadius2) &&
        decide (hasLOS px py tx ty m = .ok true)) := by
    intro hin
    rw [visLookup_eq m vis hshape tx ty hin, hget tx ty hin]
    unfold visCond
    rw [hin, Bool.true_and]
    by_cases hd : floatSqDist px py tx ty ≤ viewRadius2
    · have hbox := box_covers_float px py tx ty hd
      have hnd : ¬(floatSqDist px py tx ty > viewRadius2) := not_lt.mpr hd
      simp [hd, hnd, hbox]
    · have hnd : floatSqDist px py tx ty > viewRadius2 := not_le.mp hd
      simp [hd, hnd]
  refine ⟨⟨?_, ?_⟩, hval⟩
  · intro h
    have hin := visLookup_inBounds m vis hshape tx ty true h
    rw [hval hin] at h
    injection h with h
    simp only [Bool.and_eq_true, decide_eq_true_eq] at h
    exact ⟨hin, h.1, h.2⟩
  · rintro ⟨hin, hd, hlos⟩
    rw [hval hin]
    simp [hd, hlos]

set_option maxRecDepth 1000000 in
/-- C9, as stated, fails at the edge of the radius: on the map of one row of
40 floor tiles that `NewTileMap(40, 1)` builds, for the viewer at
`(72 - 2^-46, 16)`, the in-bounds tile `(33, 0)` has its centre `(1072, 16)` at
a squared distance greater than `viewRadius²`, yet the mask returned by
`VisibleTiles` is `true` there: in `float64` the difference `1072 - px`
rounds to `1000`. -/
theorem visibleTiles_marks_beyond_radius :
    NewTileMap 40 1 = .ok (floorMap 40 1) ∧
    (0 ≤ (33 : Int) ∧ (33 : Int) < (floorMap 40 1).W ∧ 0 ≤ (0 : Int) ∧
      (0 : Int) < (floorMap 40 1).H) ∧
    (((33 : Int) : ℚ) * 32 + 16 - (72 - 1 / 2 ^ 46)) ^ 2 + (((0 : Int) : ℚ) * 32 + 16 - 16) ^ 2 >
      viewRadius * viewRadius ∧
    fsub 1072 (72 - 1 / 2 ^ 46) = 1000 ∧
    ∃ vis, VisibleTiles (72 - 1 / 2 ^ 46) 16 (floorMap 40 1) = .ok vis ∧
      visLookup vis 33 0 = .ok true := by
  have hwf : (floorMap 40 1).WellFormed := by decide!
  refine ⟨by decide!, by decide!, by norm_num [viewRadius], by decide!, ?_⟩
  obtain ⟨vis, hvis, hall⟩ := visibleTiles_lookup (floorMap 40 1) hwf (72 - 1 / 2 ^ 46) 16
  refine ⟨vis, hvis, (hall 33 0).1.2 ⟨by decide!, by decide!, by decide!⟩⟩

/-- C9, amended: on a map of the shape built by `NewTileMap`, whatever its
walls, the mask returned by `VisibleTiles` is `false` at every in-bounds tile
whose squared distance from the viewer, computed as the source computes it in
`float64`, is greater than `viewRadius²`; this is the case of every in-bounds
tile whose centre `(tx*32 + 16, ty*32 + 16)` is at an exact squared distance
greater than `viewRadius² * (1 + 2^-50)`. -/
theorem visibleTiles_radius_cutoff (m : TileMap) (hwf : m.WellFormed) (px py : ℚ)
    (tx ty : Int) (hin : 0 ≤ tx ∧ tx < m.W ∧ 0 ≤ ty ∧ ty < m.H) :
    ∃ vis, VisibleTiles px py m = .ok vis ∧
      (floatSqDist px py tx ty > viewRadius2 → visLookup vis tx ty = .ok false) ∧
      (((tx : ℚ) * 32 + 16 - px) ^ 2 + ((ty : ℚ) * 32 + 16 - py) ^ 2 >
          viewRadius * viewRadius * (1 + 1 / 2 ^ 50) →
        floatSqDist px py tx ty > viewRadius2 ∧ visLookup vis tx ty = .ok false) := by
  have hin2 := (inBounds_iff m tx ty).2 hin
  obtain ⟨vis, hvis, hall⟩ := visibleTiles_lookup m hwf px py
  have hfalse : floatSqDist px py tx ty > viewRadius2 → visLookup vis tx ty = .ok false := by
    intro hfar
    rw [(hall tx ty).2 hin2]
    have : decide (floatSqDist px py tx ty ≤ viewRadius2) = false := by
      rw [decide_eq_false_iff_not]
      exact not_le.2 hfar
    rw [this]
    simp
  refine ⟨vis, hvis, hfalse, ?_⟩
  intro hfar
  have hflt : floatSqDist px py tx ty > viewRadius2 := by
    by_contra hle
    have h := exact_le_of_floatSqDist px py tx ty (not_lt.1 hle)
    rw [centreSqDist_eq] at h
    unfold viewRadius2 at h
    exact absurd hfar (not_lt.2 h)
  exact ⟨hflt, hfalse hflt⟩

/-- Witness for the amended C9: the viewer at `(2000, 0)` and the tile `(0, 0)`
of the 3×3 map, whose centre `(16, 16)` is farther than 1000 away. -/
theorem visibleTiles_radius_cutoff_witness :
    pillarMap.WellFormed ∧
    (0 ≤ (0 : Int) ∧ (0 : Int) < pillarMap.W ∧ 0 ≤ (0 : Int) ∧ (0 : Int) < pillarMap.H) ∧
    (((0 : Int) : ℚ) * 32 + 16 - 2000) ^ 2 + (((0 : Int) : ℚ) * 32 + 16 - 0) ^ 2 >
      viewRadius * viewRadius * (1 + 1 / 2 ^ 50) ∧
    ∃ vis, VisibleTiles 2000 0 pillarMap = .ok vis ∧
      floatSqDist 2000 0 0 0 > viewRadius2 ∧ visLookup vis 0 0 = .ok false :=
  have hfar : (((0 : Int) : ℚ) * 32 + 16 - 2000) ^ 2 + (((0 : Int) : ℚ) * 32 + 16 - 0) ^ 2 >
      viewRadius * viewRadius * (1 + 1 / 2 ^ 50) := by
    norm_num [viewRadius]
  ⟨by decide, by decide, hfar,
    (visibleTiles_radius_cutoff pillarMap (by decide) 2000 0 0 0 (by decide)).imp
      fun _ h => ⟨h.1, h.2.2 hfar⟩⟩

set_option maxRecDepth 1000000 in
/-- C18, as stated, fails at the edge of the radius: on the map of 20 rows of
40 floor tiles that `NewTileMap(40, 20)` builds, for the viewer at
`(1399978759761 / 2^44, 5345 / 256)` in tile `(0, 0)`, the tile `(27, 15)` is
in bounds, its centre `(880, 496)` is at a squared distance less than
`viewRadius²` and `hasLOS` returns `true` for it, yet the mask returned by
`VisibleTiles` is `false` there: in `float64` the squared distance comes out
greater than `viewRadius²`. -/
theorem visibleTiles_misses_within_radius :
    NewTileMap 40 20 = .ok (floorMap 40 20) ∧
    (0 ≤ (27 : Int) ∧ (27 : Int) < (floorMap 40 20).W ∧ 0 ≤ (15 : Int) ∧
      (15 : Int) < (floorMap 40 20).H) ∧
    (((27 : Int) : ℚ) * 32 + 16 - 1399978759761 / 2 ^ 44) ^ 2 +
        (((15 : Int) : ℚ) * 32 + 16 - 5345 / 256) ^ 2 ≤ viewRadius * viewRadius ∧
    hasLOS (1399978759761 / 2 ^ 44) (5345 / 256) 27 15 (floorMap 40 20) = .ok true ∧
    floatSqDist (1399978759761 / 2 ^ 44) (5345 / 256) 27 15 > viewRadius2 ∧
    ∃ vis, VisibleTiles (1399978759761 / 2 ^ 44) (5345 / 256) (floorMap 40 20) = .ok vis ∧
      visLookup vis 27 15 = .ok false := by
  have hwf : (floorMap 40 20).WellFormed := by decide!
  have hflt : floatSqDist (1399978759761 / 2 ^ 44) (5345 / 256) 27 15 > viewRadius2 := by
    decide!
  refine ⟨by decide!, by decide!, by norm_num [viewRadius], by decide!, hflt, ?_⟩
  obtain ⟨vis, hvis, hall⟩ :=
    visibleTiles_lookup (floorMap 40 20) hwf (1399978759761 / 2 ^ 44) (5345 / 256)
  refine ⟨vis, hvis, ?_⟩
  rw [(hall 27 15).2 (by decide!)]
  have : decide (floatSqDist (1399978759761 / 2 ^ 44) (5345 / 256) 27 15 ≤ viewRadius2) =
      false := by
    rw [decide_eq_false_iff_not]
    exact not_le.2 hflt
  rw [this]
  simp

/-- C18, amended: on a map of the shape built by `NewTileMap`, `VisibleTiles`
returns a mask whose entry `[ty][tx]` is `true` if and only if `(tx, ty)` is in
bounds, its squared distance from the viewer, computed as the source computes
it in `float64`, is at most `viewRadius²`, and `hasLOS` returns `true` for it.
Every tile that passes this radius test, and every tile whose centre is within
the radius, lies in the scanned box of half-width
`floor(viewRadius / cellSize) + 1 = 32` around the viewer's tile. The test is
passed by every tile whose centre `(tx*32 + 16, ty*32 + 16)` is at an exact
squared distance of at most `viewRadius² * (1 - 2^-50)`, and by no tile whose
centre is at an exact squared distance greater than
`viewRadius² * (1 + 2^-50)`. -/
theorem visibleTiles_iff (m : TileMap) (hwf : m.WellFormed) (px py : ℚ) :
    (∃ vis, VisibleTiles px py m = .ok vis ∧
      ∀ tx ty : Int,
        (visLookup vis tx ty = .ok true ↔
          ((0 ≤ tx ∧ tx < m.W ∧ 0 ≤ ty ∧ ty < m.H) ∧
            floatSqDist px py tx ty ≤ viewRadius2 ∧
            hasLOS px py tx ty m = .ok true))) ∧
    (∀ tx ty : Int, floatSqDist px py tx ty ≤ viewRadius2 →
      (tx, ty) ∈ boxCells ((goInt px).tdiv cellSize) ((goInt py).tdiv cellSize)) ∧
    (∀ tx ty : Int,
      ((tx : ℚ) * 32 + 16 - px) ^ 2 + ((ty : ℚ) * 32 + 16 - py) ^ 2 ≤
          viewRadius * viewRadius →
        (tx, ty) ∈ boxCells ((goInt px).tdiv cellSize) ((goInt py).tdiv cellSize)) ∧
    visMax = 32 ∧
    (∀ tx ty : Int,
      ((tx : ℚ) * 32 + 16 - px) ^ 2 + ((ty : ℚ) * 32 + 16 - py) ^ 2 ≤
          viewRadius * viewRadius * (1 - 1 / 2 ^ 50) →
        floatSqDist px py tx ty ≤ viewRadius2) ∧
    (∀ tx ty : Int, floatSqDist px py tx ty ≤ viewRadius2 →
      ((tx : ℚ) * 32 + 16 - px) ^ 2 + ((ty : ℚ) * 32 + 16 - py) ^ 2 ≤
        viewRadius * viewRadius * (1 + 1 / 2 ^ 50)) := by
  refine ⟨?_, ?_, ?_, visMax_eq, ?_, ?_⟩
  · obtain ⟨vis, hvis, hall⟩ := visibleTiles_lookup m hwf px py
    refine ⟨vis, hvis, ?_⟩
    intro tx ty
    rw [(hall tx ty).1, inBounds_iff]
  · intro tx ty h
    rw [mem_boxCells]
    exact box_covers_float px py tx ty h
  · intro tx ty h
    rw [mem_boxCells]
    apply box_covers_radius
    rw [centreSqDist_eq]
    exact h
  · intro tx ty h
    apply floatSqDist_le_of_exact
    rw [centreSqDist_eq]
    exact h
  · intro tx ty h
    have h2 := exact_le_of_floatSqDist px py tx ty h
    rw [centreSqDist_eq] at h2
    exact h2

/-- Witness for the amended C18: the 3×3 map with a centre wall, seen from
`(5, 5)`; the tile `(2, 0)` has its centre `(80, 16)` well within the radius. -/
theorem visibleTiles_iff_witness :
    pillarMap.WellFormed ∧
    (((2 : Int) : ℚ) * 32 + 16 - 5) ^ 2 + (((0 : Int) : ℚ) * 32 + 16 - 5) ^ 2 ≤
      viewRadius * viewRadius * (1 - 1 / 2 ^ 50) ∧
    floatSqDist 5 5 2 0 ≤ viewRadius2 ∧
    ((2 : Int), (0 : Int)) ∈ boxCells ((goInt 5).tdiv cellSize) ((goInt 5).tdiv cellSize) :=
  have hd : (((2 : Int) : ℚ) * 32 + 16 - 5) ^ 2 + (((0 : Int) : ℚ) * 32 + 16 - 5) ^ 2 ≤
      viewRadius * viewRadius * (1 - 1 / 2 ^ 50) := by
    norm_num [viewRadius]
  have h := visibleTiles_iff pillarMap (by decide) 5 5
  ⟨by decide, hd, h.2.2.2.2.1 2 0 hd, h.2.1 2 0 (h.2.2.2.2.1 2 0 hd)⟩

end MaskProofs

section ScenarioProofs

/-- A position inside the square of tile `(0, 0)` has viewer tile index `0`. -/
theorem viewerTile_zero (p : ℚ) (h0 : 0 ≤ p) (h1 : p < 32) : (goInt p).tdiv cellSize = 0 := by
  unfold goInt cellSize
  rw [if_pos h0]
  have hf0 : 0 ≤ ⌊p⌋ := Int.floor_nonneg.mpr h0
  have hf1 : ⌊p⌋ < 32 := Int.floor_lt.mpr (by exact_mod_cast h1)
  exact Int.tdiv_eq_zero_of_lt hf0 hf1

/-- The loop that `hasLOS` runs, for a viewer whose tile is `(x0, y0)`. -/
theorem hasLOS_eq_loop (px py : ℚ) (tx ty : Int) (m : TileMap) (x0 y0 : Int)
    (hx0 : (goInt px).tdiv cellSize = x0) (hy0 : (goInt py).tdiv cellSize = y0) :
    hasLOS px py tx ty m =
      hasLOSLoop m x0 y0 tx ty (abs (tx - x0)) (abs (ty - y0)) (if x0 > tx then -1 else 1)
        (if y0 > ty then -1 else 1) (abs (tx - x0) + abs (ty - y0) + 1).toNat x0 y0
        (abs (tx - x0) - abs (ty - y0)) := by
  unfold hasLOS hasLOSFuel
  simp only
  rw [hx0, hy0]

/-- C11: in the 3×3 map whose only wall is the centre tile `(1, 1)`, for every
viewer position inside tile `(0, 0)` (that is `0 ≤ px < 32`, `0 ≤ py < 32`),
the mask returned by `VisibleTiles` is `false` at tile `(2, 2)` and `true` at
tiles `(0, 2)` and `(2, 0)`. -/
theorem visibleTiles_pillar (px py : ℚ) (hx0 : 0 ≤ px) (hx1 : px < 32) (hy0 : 0 ≤ py)
    (hy1 : py < 32) :
    ∃ vis, VisibleTiles px py pillarMap = .ok vis ∧
      visLookup vis 2 2 = .ok false ∧ visLookup vis 0 2 = .ok true ∧
      visLookup vis 2 0 = .ok true := by
  have htx := viewerTile_zero px hx0 hx1
  have hty := viewerTile_zero py hy0 hy1
  obtain ⟨vis, hvis, hall⟩ := visibleTiles_lookup pillarMap (by decide) px py
  have h22 : hasLOS px py 2 2 pillarMap = .ok false := by
    rw [hasLOS_eq_loop px py 2 2 pillarMap 0 0 htx hty]
    decide
  have h02 : hasLOS px py 0 2 pillarMap = .ok true := by
    rw [hasLOS_eq_loop px py 0 2 pillarMap 0 0 htx hty]
    decide
  have h20 : hasLOS px py 2 0 pillarMap = .ok true := by
    rw [hasLOS_eq_loop px py 2 0 pillarMap 0 0 htx hty]
    decide
  have hd02 : floatSqDist px py 0 2 ≤ viewRadius2 := by
    apply floatSqDist_le_of_exact
    have h : centreSqDist px py 0 2 ≤ 12800 := by
      rw [centreSqDist_eq]
      push_cast
      nlinarith
    exact le_trans h (by norm_num [viewRadius2, viewRadius])
  have hd20 : floatSqDist px py 2 0 ≤ viewRadius2 := by
    apply floatSqDist_le_of_exact
    have h : centreSqDist px py 2 0 ≤ 12800 := by
      rw [centreSqDist_eq]
      push_cast
      nlinarith
    exact le_trans h (by norm_num [viewRadius2, viewRadius])
  refine ⟨vis, hvis, ?_, ?_, ?_⟩
  · rw [(hall 2 2).2 (by decide), h22]
    simp
  · exact (hall 0 2).1.2 ⟨by decide, hd02, h02⟩
  · exact (hall 2 0).1.2 ⟨by decide, hd20, h20⟩

/-- Witness for C11: the viewer at `(5, 5)`. -/
theorem visibleTiles_pillar_witness :
    (0 : ℚ) ≤ 5 ∧ (5 : ℚ) < 32 ∧
    ∃ vis, VisibleTiles 5 5 pillarMap = .ok vis ∧
      visLookup vis 2 2 = .ok false ∧ visLookup vis 0 2 = .ok true ∧
      visLookup vis 2 0 = .ok true :=
  ⟨by norm_num, by norm_num,
    visibleTiles_pillar 5 5 (by norm_num) (by norm_num) (by norm_num) (by norm_num)⟩

theorem viewerTile_112_48 :
    (3 : Int) = (goInt 112).tdiv cellSize ∧ (1 : Int) = (goInt 48).tdiv cellSize := by
  have h1 : goInt 112 = 112 := by exact_mod_cast goInt_intCast 112
  have h2 : goInt 48 = 48 := by exact_mod_cast goInt_intCast 48
  rw [h1, h2]
  decide

/-- C12, as stated, fails on a corner: in the 5×3 room whose border tiles are
all walls and whose interior is floor, for the viewer at `(112, 48)` in the
interior tile `(3, 1)`, the in-bounds corner tile `(0, 0)` has its centre
`(16, 16)` within the radius, yet the mask returned by `VisibleTiles` is
`false` there: the walk to it passes the border wall `(1, 0)`. -/
theorem visibleTiles_room_corner_hidden :
    borderRoom.WellFormed ∧
    (∀ x y : Int, 0 ≤ x → x < borderRoom.W → 0 ≤ y → y < borderRoom.H →
      (borderRoom.At x y = .ok ⟨TileWall⟩ ↔
        (x = 0 ∨ x = borderRoom.W - 1 ∨ y = 0 ∨ y = borderRoom.H - 1))) ∧
    ((goInt 112).tdiv cellSize = 3 ∧ (goInt 48).tdiv cellSize = 1) ∧
    (1 ≤ (3 : Int) ∧ (3 : Int) ≤ borderRoom.W - 2 ∧ 1 ≤ (1 : Int) ∧
      (1 : Int) ≤ borderRoom.H - 2) ∧
    (0 ≤ (0 : Int) ∧ (0 : Int) < borderRoom.W ∧ 0 ≤ (0 : Int) ∧ (0 : Int) < borderRoom.H) ∧
    (((0 : Int) : ℚ) * 32 + 16 - 112) ^ 2 + (((0 : Int) : ℚ) * 32 + 16 - 48) ^ 2 ≤
      viewRadius * viewRadius ∧
    (losWalk 3 1 0 0 2).1 = 1 ∧ (losWalk 3 1 0 0 2).2.1 = 0 ∧
    ∃ vis, VisibleTiles 112 48 borderRoom = .ok vis ∧ visLookup vis 0 0 = .ok false := by
  have hwf : borderRoom.WellFormed := by decide
  refine ⟨hwf, ?_, ⟨viewerTile_112_48.1.symm, viewerTile_112_48.2.symm⟩, by decide, by decide,
    by norm_num [viewRadius], by decide, by decide, ?_⟩
  · intro x y h1 h2 h3 h4
    have hW : borderRoom.W = 5 := rfl
    have hH : borderRoom.H = 3 := rfl
    rw [hW] at h2
    rw [hH] at h4
    have hx : x = 0 ∨ x = 1 ∨ x = 2 ∨ x = 3 ∨ x = 4 := by omega
    have hy : y = 0 ∨ y = 1 ∨ y = 2 := by omega
    rcases hx with rfl | rfl | rfl | rfl | rfl <;> rcases hy with rfl | rfl | rfl <;> decide
  · obtain ⟨vis, hvis, hall⟩ := visibleTiles_lookup borderRoom hwf 112 48
    refine ⟨vis, hvis, ?_⟩
    have hlos : hasLOS 112 48 0 0 borderRoom = .ok false := by
      rw [hasLOS_eq_loop 112 48 0 0 borderRoom 3 1 viewerTile_112_48.1.symm
        viewerTile_112_48.2.symm]
      decide
    rw [(hall 0 0).2 (by decide), hlos]
    simp

/-- C12, amended: in a room of the shape built by `NewTileMap` with no wall
among its interior tiles, for a viewer whose tile `(x0, y0)` is an interior
tile, `VisibleTiles` marks `true` every in-bounds tile `(tx, ty)` that passes
the radius test of the source (squared distance computed in `float64` at most
`viewRadius²`, which holds whenever the exact squared distance is at most
`viewRadius² * (1 - 2^-50)`) and that the walk reaches before it meets the
border: every interior tile, every tile of the top or bottom row with
`|tx - x0| ≤ 2 |ty - y0|` and every tile of the left or right column with
`|ty - y0| ≤ 2 |tx - x0|` (a corner needs both). When all the border tiles
are walls these are exactly the tiles marked `true`: the other border tiles
are hidden behind a border wall. -/
theorem visibleTiles_room (m : TileMap) (hwf : m.WellFormed)
    (hroom : ∀ x y : Int, 1 ≤ x → x ≤ m.W - 2 → 1 ≤ y → y ≤ m.H - 2 →
      m.At x y ≠ .ok ⟨TileWall⟩)
    (px py : ℚ) (x0 y0 : Int)
    (hx0 : x0 = (goInt px).tdiv cellSize) (hy0 : y0 = (goInt py).tdiv cellSize)
    (hviewer : 1 ≤ x0 ∧ x0 ≤ m.W - 2 ∧ 1 ≤ y0 ∧ y0 ≤ m.H - 2)
    (tx ty : Int) (hin : 0 ≤ tx ∧ tx < m.W ∧ 0 ≤ ty ∧ ty < m.H) :
    ∃ vis, VisibleTiles px py m = .ok vis ∧
      (floatSqDist px py tx ty ≤ viewRadius2 →
        ((ty = 0 ∨ ty = m.H - 1) → abs (tx - x0) ≤ 2 * abs (ty - y0)) →
        ((tx = 0 ∨ tx = m.W - 1) → abs (ty - y0) ≤ 2 * abs (tx - x0)) →
        visLookup vis tx ty = .ok true) ∧
      (((tx : ℚ) * 32 + 16 - px) ^ 2 + ((ty : ℚ) * 32 + 16 - py) ^ 2 ≤
          viewRadius * viewRadius * (1 - 1 / 2 ^ 50) →
        floatSqDist px py tx ty ≤ viewRadius2) ∧
      ((∀ x y : Int, 0 ≤ x → x < m.W → 0 ≤ y → y < m.H →
          (x = 0 ∨ x = m.W - 1 ∨ y = 0 ∨ y = m.H - 1) → m.At x y = .ok ⟨TileWall⟩) →
        (visLookup vis tx ty = .ok true ↔
          (floatSqDist px py tx ty ≤ viewRadius2 ∧
            ((ty = 0 ∨ ty = m.H - 1) → abs (tx - x0) ≤ 2 * abs (ty - y0)) ∧
            ((tx = 0 ∨ tx = m.W - 1) → abs (ty - y0) ≤ 2 * abs (tx - x0))))) := by
  obtain ⟨vis, hvis, hall⟩ := visibleTiles_lookup m hwf px py
  have hin2 := (inBounds_iff m tx ty).2 hin
  refine ⟨vis, hvis, ?_, ?_, ?_⟩
  · intro hd hrow hcol
    exact (hall tx ty).1.2 ⟨hin2, hd,
      hasLOS_room_clear m hwf hroom px py x0 y0 hx0 hy0 hviewer tx ty hin hrow hcol⟩
  · intro h
    apply floatSqDist_le_of_exact
    rw [centreSqDist_eq]
    exact h
  · intro hborder
    rw [(hall tx ty).1]
    have hlos := hasLOS_room m hwf hborder hroom px py x0 y0 hx0 hy0 hviewer tx ty hin
    constructor
    · rintro ⟨-, hd, h⟩
      rw [hlos] at h
      injection h with h
      exact ⟨hd, of_decide_eq_true h⟩
    · rintro ⟨hd, hc⟩
      refine ⟨hin2, hd, ?_⟩
      rw [hlos, decide_eq_true hc]

set_option maxRecDepth 1000000 in
/-- Witness for the amended C12: in the 5×3 room, from the viewer at
`(112, 48)` in tile `(3, 1)`, the tile `(1, 0)` of the top row, two columns
and one row away, is marked. -/
theorem visibleTiles_room_witness :
    borderRoom.WellFormed ∧
    (∀ x y : Int, 1 ≤ x → x ≤ borderRoom.W - 2 → 1 ≤ y → y ≤ borderRoom.H - 2 →
      borderRoom.At x y ≠ .ok ⟨TileWall⟩) ∧
    floatSqDist 112 48 1 0 ≤ viewRadius2 ∧
    abs (1 - 3) ≤ 2 * abs (0 - 1) ∧
    ∃ vis, VisibleTiles 112 48 borderRoom = .ok vis ∧ visLookup vis 1 0 = .ok true :=
  have hroom : ∀ x y : Int, 1 ≤ x → x ≤ borderRoom.W - 2 → 1 ≤ y → y ≤ borderRoom.H - 2 →
      borderRoom.At x y ≠ .ok ⟨TileWall⟩ := by
    intro x y h1 h2 h3 h4
    have hW : borderRoom.W = 5 := rfl
    have hH : borderRoom.H = 3 := rfl
    rw [hW] at h2
    rw [hH] at h4
    have hx : x = 1 ∨ x = 2 ∨ x = 3 := by omega
    have hy : y = 1 := by omega
    rcases hx with rfl | rfl | rfl <;> rw [hy] <;> decide
  have hd : floatSqDist 112 48 1 0 ≤ viewRadius2 := by decide!
  ⟨by decide, hroom, hd, by decide,
    (visibleTiles_room borderRoom (by decide) hroom 112 48 3 1 viewerTile_112_48.1
      viewerTile_112_48.2 (by decide) 1 0 (by decide)).imp
      fun _ h => ⟨h.1, h.2.1 hd (fun _ => by decide) (fun h0 => by
        rcases h0 with h0 | h0
        · exact absurd h0 (by decide)
        · exact absurd h0 (by decide))⟩⟩

end ScenarioProofs

section LightProofs

variable {K : Type} [LinearOrderedField K]

theorem foldl_snoc_eq_map {α β : Type} (f : α → β) (l : List α) (init : List β) :
    l.foldl (fun out a => out ++ [f a]) init = init ++ l.map f := by
  induction l generalizing init with
  | nil => simp
  | cons a rest ih => simp [ih, List.append_assoc]

theorem castRays_nil (T : Trig K) (px py : K) : castRays T px py [] = [] := rfl

/-- The loop body of `DrawLight` at an index of the ray list does not fail. -/
theorem drawLightStep_eq (px py camX camY : K) (rays : List (line K))
    (drawn : List (List (Vertex K))) (ir : Nat × line K) (hmem : ir ∈ rays.enum) :
    0 < rays.length ∧
    goMod ((ir.1 : Int) + 1) (rays.length : Int) = .ok (((ir.1 + 1) % rays.length : Nat) : Int) ∧
    drawLightStep px py camX camY rays drawn ir =
      .ok (drawn ++ [triangleVerts (px - camX) (py - camY)
        ((rays[(ir.1 + 1) % rays.length]?.getD ir.2).X2 - camX)
        ((rays[(ir.1 + 1) % rays.length]?.getD ir.2).Y2 - camY)
        (ir.2.X2 - camX) (ir.2.Y2 - camY)]) := by
  have hlt := List.fst_lt_of_mem_enum hmem
  have hpos : 0 < rays.length := by omega
  have hmod : goMod ((ir.1 : Int) + 1) (rays.length : Int) =
      .ok (((ir.1 + 1) % rays.length : Nat) : Int) := by
    unfold goMod
    rw [if_neg (by omega)]
    have h1 : ((ir.1 : Int) + 1).tmod (rays.length : Int) = ((ir.1 : Int) + 1) % (rays.length : Int) :=
      Int.tmod_eq_emod (by omega) (by omega)
    rw [h1]
    push_cast
    rfl
  refine ⟨hpos, hmod, ?_⟩
  have hj : (ir.1 + 1) % rays.length < rays.length := Nat.mod_lt _ hpos
  unfold drawLightStep
  rw [hmod]
  simp only [bind, Except.bind]
  have hidx : index rays (((ir.1 + 1) % rays.length : Nat) : Int) =
      .ok (rays[(ir.1 + 1) % rays.length]) :=
    (index_eq_ok_iff _ _ _).2 ⟨by omega, by
      rw [Int.toNat_ofNat]
      exact List.getElem?_eq_getElem hj⟩
  rw [hidx]
  simp [pure, Except.pure, List.getElem?_eq_getElem hj]

/-- C13: for every segment list, `DrawLight` draws one triangle per ray
returned by `castRays`, the `i`-th being (viewer, end of ray `(i+1) mod n`, end
of ray `i`) shifted by the camera; the remainder `(i+1) % n` is only taken with
`n > 0` and never fails; with no segments `castRays` returns no rays and no
triangle is drawn. -/
theorem drawLight_fan (T : Trig K) (px py : K) (segs : List (line K)) (camX camY : K) :
    ∃ tris, DrawLight T px py segs camX camY = .ok tris ∧
      tris.length = (castRays T px py segs).length ∧
      (∀ (i : Nat) (r : line K), (castRays T px py segs)[i]? = some r →
        0 < (castRays T px py segs).length ∧
        goMod ((i : Int) + 1) ((castRays T px py segs).length : Int) =
          .ok (((i + 1) % (castRays T px py segs).length : Nat) : Int) ∧
        ∃ nx, (castRays T px py segs)[(i + 1) % (castRays T px py segs).length]? = some nx ∧
          tris[i]? = some (triangleVerts (px - camX) (py - camY) (nx.X2 - camX)
            (nx.Y2 - camY) (r.X2 - camX) (r.Y2 - camY))) ∧
      (segs = [] → castRays T px py segs = [] ∧ tris = []) := by
  have hnil : segs = [] → castRays T px py segs = [] := by
    intro h
    rw [h]
    rfl
  unfold DrawLight
  simp only
  generalize castRays T px py segs = rays at hnil
  have hfold := foldlM_eq_ok_of_inv (fun _ => True)
    (drawLightStep px py camX camY rays)
    (fun drawn ir => drawn ++ [triangleVerts (px - camX) (py - camY)
        ((rays[(ir.1 + 1) % rays.length]?.getD ir.2).X2 - camX)
        ((rays[(ir.1 + 1) % rays.length]?.getD ir.2).Y2 - camY)
        (ir.2.X2 - camX) (ir.2.Y2 - camY)])
    rays.enum
    (fun b _ a ha => ⟨(drawLightStep_eq px py camX camY rays b a ha).2.2, trivial⟩)
    [] trivial
  rw [foldl_snoc_eq_map, List.nil_append] at hfold
  refine ⟨_, hfold.1, by simp, ?_, ?_⟩
  · intro i r hr
    have hmem : (i, r) ∈ rays.enum := List.mk_mem_enum_iff_getElem?.2 hr
    obtain ⟨hpos, hmod, -⟩ := drawLightStep_eq px py camX camY rays [] (i, r) hmem
    have hj : (i + 1) % rays.length < rays.length := Nat.mod_lt _ hpos
    refine ⟨hpos, hmod, rays[(i + 1) % rays.length], List.getElem?_eq_getElem hj, ?_⟩
    rw [List.getElem?_map, List.getElem?_enum, hr]
    simp [List.getElem?_eq_getElem hj]
  · intro hsegs
    have hr := hnil hsegs
    subst hr
    exact ⟨rfl, rfl⟩

/-- Witness for C13: with one segment there are four rays, so ray `0` exists
and its triangle is drawn; with no segment nothing is drawn. -/
theorem drawLight_fan_witness :
    (∃ r, (castRays trigQ 0 0 [⟨100, -1, 100, 1⟩])[0]? = some r ∧
      0 < (castRays trigQ 0 0 [⟨100, -1, 100, 1⟩]).length) ∧
    (∃ tris, DrawLight trigQ 0 0 ([] : List (line ℚ)) 0 0 = .ok tris ∧
      castRays trigQ 0 0 ([] : List (line ℚ)) = [] ∧ tris = []) :=
  have hlen : (castRays trigQ 0 0 [⟨100, -1, 100, 1⟩]).length = 4 := by
    rw [(castRays_perm trigQ 0 0 [⟨100, -1, 100, 1⟩]).length_eq, castRaysUnsorted_eq_map,
      List.length_map, probes_length]
    rfl
  have h0 : ∃ r, (castRays trigQ 0 0 [⟨100, -1, 100, 1⟩])[0]? = some r := by
    cases hl : castRays trigQ 0 0 [⟨100, -1, 100, 1⟩] with
    | nil => rw [hl] at hlen; cases hlen
    | cons a t => exact ⟨a, by simp⟩
  ⟨h0.imp (fun r hr => ⟨hr,
      (drawLight_fan trigQ 0 0 [⟨100, -1, 100, 1⟩] 0 0).elim
        (fun _ h => (h.2.2.1 0 r hr).1)⟩),
    (drawLight_fan trigQ 0 0 [] 0 0).imp (fun _ h => ⟨h.1, h.2.2.2 rfl⟩)⟩

end LightProofs

section PlayerProofs

theorem at_ne_wall_iff (m : TileMap) (hwf : m.WellFormed) (x y : Int) :
    m.At x y ≠ .ok ⟨TileWall⟩ ↔ (m.tileAt x y).«Type» ≠ TileWall := by
  rw [Ne, Ne, tileAt_wall_iff m hwf]

theorem tileAt_door_inBounds (m : TileMap) (x y : Int)
    (h : (m.tileAt x y).«Type» = TileDoor) : m.InBounds x y = true := by
  unfold TileMap.tileAt at h
  cases hin : m.InBounds x y with
  | true => rfl
  | false =>
    rw [hin] at h
    simp [TileWall, TileDoor] at h

/-- What `Player.Update` returns on a well-formed map, by the type of the tile
under the candidate centre. -/
theorem player_update_eq (p : Player) (keys : Keys) (m : TileMap) (hwf : m.WellFormed) :
    p.Update keys m =
      .ok (if (m.tileAt (p.candidate keys).tileUnder.1
              (p.candidate keys).tileUnder.2).«Type» = TileWall then (p, 0, 0)
        else if (m.tileAt (p.candidate keys).tileUnder.1
              (p.candidate keys).tileUnder.2).«Type» = TileDoor then
          (if (p.candidate keys).tileUnder.1 = 0 then (p.candidate keys, -1, 0)
          else if (p.candidate keys).tileUnder.1 = m.W - 1 then (p.candidate keys, 1, 0)
          else if (p.candidate keys).tileUnder.2 = 0 then (p.candidate keys, 0, -1)
          else if (p.candidate keys).tileUnder.2 = m.H - 1 then (p.candidate keys, 0, 1)
          else (p.candidate keys, 0, 0))
        else (p.candidate keys, 0, 0)) := by
  simp only [Player.Update, at_eq m hwf, bind, Except.bind, pure, Except.pure]
  split_ifs <;> rfl

/-- C16: on a map of the shape built by `NewTileMap`, `Player.Update` returns;
when the tile under the candidate centre is a wall (`At` answers wall out of
bounds) the position is unchanged and the direction is `(0, 0)`; if the tile
under the player's centre was not a wall before the call, it is not a wall
after it; and a non-zero direction is returned only when the player has moved
to the candidate position and the tile under the new centre is a door tile of
the map lying on its border. -/
theorem player_update_blocked (p : Player) (keys : Keys) (m : TileMap) (hwf : m.WellFormed) :
    ∃ p2 dx dy, p.Update keys m = .ok (p2, dx, dy) ∧
      (m.At (p.candidate keys).tileUnder.1 (p.candidate keys).tileUnder.2 = .ok ⟨TileWall⟩ →
        p2 = p ∧ dx = 0 ∧ dy = 0) ∧
      (m.At (p.candidate keys).tileUnder.1 (p.candidate keys).tileUnder.2 ≠ .ok ⟨TileWall⟩ →
        p2 = p.candidate keys) ∧
      (m.At p.tileUnder.1 p.tileUnder.2 ≠ .ok ⟨TileWall⟩ →
        m.At p2.tileUnder.1 p2.tileUnder.2 ≠ .ok ⟨TileWall⟩) ∧
      (¬(dx = 0 ∧ dy = 0) →
        p2 = p.candidate keys ∧
        m.At p2.tileUnder.1 p2.tileUnder.2 = .ok ⟨TileDoor⟩ ∧
        (0 ≤ p2.tileUnder.1 ∧ p2.tileUnder.1 < m.W ∧ 0 ≤ p2.tileUnder.2 ∧
          p2.tileUnder.2 < m.H) ∧
        ((p2.tileUnder.1 = 0 ∧ dx = -1 ∧ dy = 0) ∨
          (p2.tileUnder.1 = m.W - 1 ∧ dx = 1 ∧ dy = 0) ∨
          (p2.tileUnder.2 = 0 ∧ dx = 0 ∧ dy = -1) ∨
          (p2.tileUnder.2 = m.H - 1 ∧ dx = 0 ∧ dy = 1))) := by
  have hdoor : ∀ x y, (m.tileAt x y).«Type» = TileDoor → m.At x y = .ok ⟨TileDoor⟩ := by
    intro x y h
    rw [at_eq m hwf, ← h]
  rw [player_update_eq p keys m hwf]
  simp only [at_ne_wall_iff m hwf, ← tileAt_wall_iff m hwf]
  by_cases hw : (m.tileAt (p.candidate keys).tileUnder.1
      (p.candidate keys).tileUnder.2).«Type» = TileWall
  · rw [if_pos hw]
    refine ⟨p, 0, 0, rfl, fun _ => ⟨rfl, rfl, rfl⟩, fun h => absurd hw h, fun h => h, ?_⟩
    intro h
    exact absurd ⟨rfl, rfl⟩ h
  · rw [if_neg hw]
    by_cases hd : (m.tileAt (p.candidate keys).tileUnder.1
        (p.candidate keys).tileUnder.2).«Type» = TileDoor
    · rw [if_pos hd]
      have hin := (inBounds_iff m _ _).1 (tileAt_door_inBounds m _ _ hd)
      have hat := hdoor _ _ hd
      split_ifs with h1 h2 h3 h4
      · exact ⟨_, _, _, rfl, fun h => absurd h hw, fun _ => rfl, fun _ => hw,
          fun _ => ⟨rfl, hat, hin, Or.inl ⟨h1, rfl, rfl⟩⟩⟩
      · exact ⟨_, _, _, rfl, fun h => absurd h hw, fun _ => rfl, fun _ => hw,
          fun _ => ⟨rfl, hat, hin, Or.inr (Or.inl ⟨h2, rfl, rfl⟩)⟩⟩
      · exact ⟨_, _, _, rfl, fun h => absurd h hw, fun _ => rfl, fun _ => hw,
          fun _ => ⟨rfl, hat, hin, Or.inr (Or.inr (Or.inl ⟨h3, rfl, rfl⟩))⟩⟩
      · exact ⟨_, _, _, rfl, fun h => absurd h hw, fun _ => rfl, fun _ => hw,
          fun _ => ⟨rfl, hat, hin, Or.inr (Or.inr (Or.inr ⟨h4, rfl, rfl⟩))⟩⟩
      · exact ⟨_, _, _, rfl, fun h => absurd h hw, fun _ => rfl, fun _ => hw,
          fun h => absurd ⟨rfl, rfl⟩ h⟩
    · rw [if_neg hd]
      exact ⟨_, _, _, rfl, fun h => absurd h hw, fun _ => rfl, fun _ => hw,
        fun h => absurd ⟨rfl, rfl⟩ h⟩

/-- Witness for C16: in the 3×3 map with a centre wall, a player at `(22, 40)`
pressing `D`; the candidate centre `(32, 48)` is in the wall tile `(1, 1)`. -/
theorem player_update_blocked_witness :
    pillarMap.WellFormed ∧
    pillarMap.At ((⟨22, 40⟩ : Player).candidate ⟨false, true, false, false⟩).tileUnder.1
      ((⟨22, 40⟩ : Player).candidate ⟨false, true, false, false⟩).tileUnder.2 =
      .ok ⟨TileWall⟩ ∧
    ∃ p2 dx dy, (⟨22, 40⟩ : Player).Update ⟨false, true, false, false⟩ pillarMap =
      .ok (p2, dx, dy) ∧ p2 = ⟨22, 40⟩ ∧ dx = 0 ∧ dy = 0 := by
  have hc : ((⟨22, 40⟩ : Player).candidate ⟨false, true, false, false⟩).tileUnder = (1, 1) := by
    have h8 : playerSize.tdiv 2 = 8 := by decide
    have hg2 : goInt (((1 : Int) : ℚ) + 1 / 2) = 1 := by
      unfold goInt
      rw [if_pos (by norm_num)]
      rw [Int.floor_eq_iff]
      norm_num
    simp only [Player.candidate, Player.tileUnder, h8, playerSpeed, cellSize, if_true,
      Bool.false_eq_true, if_false]
    push_cast
    rw [show ((22 : ℚ) + (0 + 2) + 8) / 32 = ((1 : Int) : ℚ) by norm_num,
      show ((40 : ℚ) + 0 + 8) / 32 = ((1 : Int) : ℚ) + 1 / 2 by norm_num,
      goInt_intCast, hg2]
  have hat : pillarMap.At
      ((⟨22, 40⟩ : Player).candidate ⟨false, true, false, false⟩).tileUnder.1
      ((⟨22, 40⟩ : Player).candidate ⟨false, true, false, false⟩).tileUnder.2 =
      .ok ⟨TileWall⟩ := by
    rw [hc]
    decide
  obtain ⟨p2, dx, dy, h1, h2, -⟩ :=
    player_update_blocked ⟨22, 40⟩ ⟨false, true, false, false⟩ pillarMap (by decide)
  exact ⟨by decide, hat, p2, dx, dy, h1, h2 hat⟩

end PlayerProofs

section RoomProofs

/-- On a well-formed map `Set` does not fail, keeps the shape and the size, and
changes no tile other than `(x, y)`. -/
theorem set_frame (m : TileMap) (hwf : m.WellFormed) (x y : Int) (t : TileType) :
    ∃ m2, m.Set x y t = .ok m2 ∧ m2.WellFormed ∧ m2.W = m.W ∧ m2.H = m.H ∧
      ∀ x2 y2, ¬(x2 = x ∧ y2 = y) → m2.At x2 y2 = m.At x2 y2 := by
  cases hin : m.InBounds x y with
  | false =>
    refine ⟨m, ?_, hwf, rfl, rfl, fun _ _ _ => rfl⟩
    unfold TileMap.Set
    simp [hin, pure, Except.pure]
  | true =>
    obtain ⟨hx0, hx1, hy0, hy1⟩ := (inBounds_iff m x y).1 hin
    have hwf0 := hwf
    obtain ⟨hH, hW⟩ := hwf
    have hylt : y.toNat < m.Data.length := by omega
    have hrowlen := hW _ (List.getElem_mem hylt)
    have hxlt : x.toNat < (m.Data[y.toNat]).length := by omega
    have hi1 : index m.Data y = .ok (m.Data[y.toNat]) :=
      (index_eq_ok_iff _ _ _).2 ⟨hy0, List.getElem?_eq_getElem hylt⟩
    have ha1 : assign (m.Data[y.toNat]) x (⟨t⟩ : Tile) =
        .ok ((m.Data[y.toNat]).set x.toNat ⟨t⟩) := by
      unfold assign
      rw [if_neg]
      rintro (h | h) <;> omega
    have ha2 : assign m.Data y ((m.Data[y.toNat]).set x.toNat ⟨t⟩) =
        .ok (m.Data.set y.toNat ((m.Data[y.toNat]).set x.toNat ⟨t⟩)) := by
      unfold assign
      rw [if_neg]
      rintro (h | h) <;> omega
    have hwf2 : TileMap.WellFormed
        ⟨m.W, m.H, m.Data.set y.toNat ((m.Data[y.toNat]).set x.toNat ⟨t⟩)⟩ := by
      refine ⟨by simp only [List.length_set]; exact hH, ?_⟩
      intro row hrow
      rcases List.mem_or_eq_of_mem_set hrow with h | h
      · exact hW row h
      · rw [h, List.length_set]
        exact hrowlen
    refine ⟨⟨m.W, m.H, m.Data.set y.toNat ((m.Data[y.toNat]).set x.toNat ⟨t⟩)⟩, ?_, hwf2,
      rfl, rfl, ?_⟩
    · unfold TileMap.Set
      simp only [hin, if_true, bind, Except.bind, hi1, ha1, ha2, pure, Except.pure]
    · intro x2 y2 hne
      rw [at_eq _ hwf2, at_eq m hwf0]
      unfold TileMap.tileAt
      have hinb : TileMap.InBounds
          ⟨m.W, m.H, m.Data.set y.toNat ((m.Data[y.toNat]).set x.toNat ⟨t⟩)⟩ x2 y2 =
          m.InBounds x2 y2 := rfl
      rw [hinb]
      cases hin2 : m.InBounds x2 y2 with
      | false => rfl
      | true =>
        obtain ⟨hx20, hx21, hy20, hy21⟩ := (inBounds_iff m x2 y2).1 hin2
        simp only [if_true, TileMap.stored, List.getD_eq_getElem?_getD]
        by_cases hy : y2 = y
        · subst hy
          have hx : x2 ≠ x := fun h => hne ⟨h, rfl⟩
          rw [List.getElem?_set_self hylt, List.getElem?_eq_getElem hylt]
          simp only [Option.getD_some]
          rw [List.getElem?_set_ne (by omega)]
        · rw [List.getElem?_set_ne (by omega)]

theorem keepsProtected_refl (m : TileMap) (hwf : m.WellFormed) : KeepsProtected m m :=
  ⟨hwf, rfl, rfl, fun _ _ _ => rfl⟩

theorem keepsProtected_trans (m m2 m3 : TileMap) (h1 : KeepsProtected m m2)
    (h2 : KeepsProtected m2 m3) : KeepsProtected m m3 :=
  ⟨h2.1, h2.2.1.trans h1.2.1, h2.2.2.1.trans h1.2.2.1,
    fun x y hp => (h2.2.2.2 x y hp).trans (h1.2.2.2 x y hp)⟩

theorem protected_iff (x y : Int) :
    Protected x y ↔ (x = 0 ∨ x = 24 ∨ y = 0 ∨ y = 17 ∨ x = 12 ∨ y = 9) := by
  have h1 : wTiles - 1 = 24 := by decide
  have h2 : hTiles - 1 = 17 := by decide
  have h3 : gridWidth.tdiv 2 = 12 := by decide
  have h4 : gridHeight.tdiv 2 = 9 := by decide
  unfold Protected
  rw [h1, h2, h3, h4]

/-- Writing a wall on a tile that is not protected keeps the protected tiles. -/
theorem setWallUnless_keeps (m0 m : TileMap) (hk : KeepsProtected m0 m) (x y ex ey : Int)
    (hnp : ¬Protected x y) :
    ∃ m2, setWallUnless m x y ex ey = .ok m2 ∧ KeepsProtected m0 m2 := by
  unfold setWallUnless
  split_ifs with hc
  · obtain ⟨m2, hset, hwf2, hW, hH, hframe⟩ := set_frame m hk.1 x y TileWall
    refine ⟨m2, hset, keepsProtected_trans m0 m m2 hk ⟨hwf2, hW, hH, ?_⟩⟩
    intro x2 y2 hp
    apply hframe
    rintro ⟨rfl, rfl⟩
    exact hnp hp
  · exact ⟨m, rfl, hk⟩

/-- A loop whose body does not fail on states satisfying an invariant, and
keeps it, does not fail and ends in a state satisfying it. -/
theorem foldlM_ok_of_inv {α β : Type} (P : β → Prop) (f : β → α → Except Fault β)
    (l : List α) (h : ∀ b, P b → ∀ a ∈ l, ∃ b2, f b a = .ok b2 ∧ P b2) (b : β) (hb : P b) :
    ∃ b2, l.foldlM f b = .ok b2 ∧ P b2 := by
  induction l generalizing b with
  | nil => exact ⟨b, rfl, hb⟩
  | cons a rest ih =>
    obtain ⟨b2, h1, h2⟩ := h b hb a (List.mem_cons_self _ _)
    rw [List.foldlM_cons, h1]
    exact ih (fun b3 hb3 a3 ha3 => h b3 hb3 a3 (List.mem_cons_of_mem _ ha3)) b2 h2

/-- Drawing the perimeter of a rectangle that holds no protected tile keeps
the protected tiles. -/
theorem drawPerimeter_keeps (m0 m : TileMap) (hk : KeepsProtected m0 m)
    (x0 y0 rw rh ex ey : Int) (hrw : 1 ≤ rw) (hrh : 1 ≤ rh)
    (hrect : ∀ x y, x0 ≤ x → x ≤ x0 + rw - 1 → y0 ≤ y → y ≤ y0 + rh - 1 → ¬Protected x y) :
    ∃ m2, drawPerimeter m x0 y0 rw rh ex ey = .ok m2 ∧ KeepsProtected m0 m2 := by
  unfold drawPerimeter
  obtain ⟨m1, h1, hk1⟩ := foldlM_ok_of_inv (KeepsProtected m0)
    (fun m cx => do
      let m ← setWallUnless m (x0 + cx) y0 ex ey
      setWallUnless m (x0 + cx) (y0 + rh - 1) ex ey)
    (intsFromTo 0 (rw - 1))
    (by
      intro b hb cx hcx
      rw [mem_intsFromTo] at hcx
      obtain ⟨b1, hb1, hkb1⟩ := setWallUnless_keeps m0 b hb (x0 + cx) y0 ex ey
        (hrect _ _ (by omega) (by omega) (by omega) (by omega))
      obtain ⟨b2, hb2, hkb2⟩ := setWallUnless_keeps m0 b1 hkb1 (x0 + cx) (y0 + rh - 1) ex ey
        (hrect _ _ (by omega) (by omega) (by omega) (by omega))
      exact ⟨b2, by simp only [hb1, bind, Except.bind, hb2], hkb2⟩)
    m hk
  obtain ⟨m2, h2, hk2⟩ := foldlM_ok_of_inv (KeepsProtected m0)
    (fun m cy => do
      let m ← setWallUnless m x0 (y0 + cy) ex ey
      setWallUnless m (x0 + rw - 1) (y0 + cy) ex ey)
    (intsFromTo 1 (rh - 1 - 1))
    (by
      intro b hb cy hcy
      rw [mem_intsFromTo] at hcy
      obtain ⟨b1, hb1, hkb1⟩ := setWallUnless_keeps m0 b hb x0 (y0 + cy) ex ey
        (hrect _ _ (by omega) (by omega) (by omega) (by omega))
      obtain ⟨b2, hb2, hkb2⟩ := setWallUnless_keeps m0 b1 hkb1 (x0 + rw - 1) (y0 + cy) ex ey
        (hrect _ _ (by omega) (by omega) (by omega) (by omega))
      exact ⟨b2, by simp only [hb1, bind, Except.bind, hb2], hkb2⟩)
    m1 hk1
  refine ⟨m2, ?_, hk2⟩
  simp only [bind, Except.bind] at h1 h2 ⊢
  simp only [h1, h2]

/-- With a positive argument `Intn` does not fail and returns a number of
`[0, n)`. -/
theorem intn_ok (r : Rng) (n : Int) (hn : 0 < n) :
    ∃ v r2, r.Intn n = .ok (v, r2) ∧ 0 ≤ v ∧ v < n := by
  refine ⟨(r.stream r.pos : Int) % n, ⟨r.stream, r.pos + 1⟩, ?_, Int.emod_nonneg _ (by omega),
    Int.emod_lt_of_pos _ hn⟩
  unfold Rng.Intn
  rw [if_neg (by omega)]

/-- The entrance of a room of at least three tiles a side is chosen without
failure. -/
theorem pickEntrance_ok (rng : Rng) (x0 y0 rw rh : Int) (hrw : 2 < rw) (hrh : 2 < rh) :
    ∃ e rng2, pickEntrance rng x0 y0 rw rh = .ok (e, rng2) := by
  obtain ⟨side, r1, h1, _, _⟩ := intn_ok rng 4 (by decide)
  obtain ⟨k, r2, h2, _, _⟩ := intn_ok r1 (rw - 2) (by omega)
  obtain ⟨k2, r3, h3, _, _⟩ := intn_ok r1 (rh - 2) (by omega)
  unfold pickEntrance
  simp only [h1, bind, Except.bind, gt_iff_lt, hrw, hrh, if_true, h2, h3, pure, Except.pure]
  split_ifs <;> exact ⟨_, _, rfl⟩

/-- The placement loop of one random room does not fail and keeps the
protected tiles, whatever the numbers drawn. -/
theorem placeRoom_keeps (m0 : TileMap) (rw rh : Int) (hrw : 4 ≤ rw) (hrw2 : rw ≤ 8)
    (hrh : 4 ≤ rh) (hrh2 : rh ≤ 8) (n : Nat) (st : RoomGen) (hk : KeepsProtected m0 st.m) :
    ∃ st2, placeRoom rw rh n st = .ok st2 ∧ KeepsProtected m0 st2.m := by
  have hgw : gridWidth = 25 := by decide
  have hgh : gridHeight = 18 := by decide
  have hgw2 : gridWidth.tdiv 2 = 12 := by decide
  have hgh2 : gridHeight.tdiv 2 = 9 := by decide
  induction n generalizing st with
  | zero => exact ⟨st, rfl, hk⟩
  | succ n ih =>
    obtain ⟨a, r1, h1, ha0, ha1⟩ := intn_ok st.rng (gridWidth - 2 - rw) (by omega)
    obtain ⟨b, r2, h2, hb0, hb1⟩ := intn_ok r1 (gridHeight - 2 - rh) (by omega)
    rw [placeRoom]
    simp only [h1, bind, Except.bind, h2]
    split_ifs with hc1 hc2 hc3
    · exact ih ⟨r2, st.m, st.taken⟩ hk
    · exact ih ⟨r2, st.m, st.taken⟩ hk
    · exact ih ⟨r2, st.m, st.taken⟩ hk
    · obtain ⟨e, r3, h3⟩ := pickEntrance_ok r2 (a + 1) (b + 1) rw rh (by omega) (by omega)
      obtain ⟨m2, h4, hk2⟩ := drawPerimeter_keeps m0 st.m hk (a + 1) (b + 1) rw rh e.1 e.2
        (by omega) (by omega)
        (by
          intro x y hx0 hx1 hy0 hy1
          rw [protected_iff]
          rw [hgw2] at hc1
          rw [hgh2] at hc2
          omega)
      simp only [h3, h4, pure, Except.pure]
      exact ⟨_, rfl, hk2⟩

/-- One round of `addRandomRooms` does not fail and keeps the protected
tiles. -/
theorem addRandomRoom_keeps (m0 : TileMap) (st : RoomGen) (hk : KeepsProtected m0 st.m) :
    ∃ st2, addRandomRoom st = .ok st2 ∧ KeepsProtected m0 st2.m := by
  have hmin : minRoomSize = 4 := rfl
  have hmax : maxRoomSize = 8 := rfl
  obtain ⟨a, r1, h1, ha0, ha1⟩ := intn_ok st.rng (maxRoomSize - minRoomSize + 1) (by decide)
  obtain ⟨b, r2, h2, hb0, hb1⟩ := intn_ok r1 (maxRoomSize - minRoomSize + 1) (by decide)
  unfold addRandomRoom
  simp only [h1, bind, Except.bind, h2]
  exact placeRoom_keeps m0 (a + minRoomSize) (b + minRoomSize) (by omega) (by omega)
    (by omega) (by omega) 10 ⟨r2, st.m, st.taken⟩ hk

/-- The procedure `addRandomRooms` does not fail, so every argument it
passes to `Intn` is positive, and it keeps the shape of the map and every
protected tile, whatever the numbers drawn. -/
theorem addRandomRooms_keeps (rng : Rng) (m : TileMap) (hwf : m.WellFormed) :
    ∃ st, addRandomRooms rng m = .ok st ∧ KeepsProtected m st.m := by
  unfold addRandomRooms
  exact foldlM_ok_of_inv (fun st => KeepsProtected m st.m) (fun st _ => addRandomRoom st)
    (intsFromTo 0 (roomCount - 1))
    (fun b hb _ _ => addRandomRoom_keeps m b hb) ⟨rng, m, []⟩ (keepsProtected_refl m hwf)

set_option maxRecDepth 100000 in
/-- The map that `GenerateRoom` has built before it calls `addRandomRooms`,
checked by evaluation: it is built without failure, it has 18 rows of 25
tiles, and each border tile is a door at the four exits and a wall elsewhere. -/
theorem baseRoomMap_check :
    (match baseRoomMap with
      | .ok m => decide m.WellFormed && decide (m.W = wTiles) && decide (m.H = hTiles) &&
          (intsFromTo 0 (wTiles - 1)).all fun tx => (intsFromTo 0 (hTiles - 1)).all fun ty =>
            decide ((tx = 0 ∨ tx = wTiles - 1 ∨ ty = 0 ∨ ty = hTiles - 1) →
              m.At tx ty = .ok ⟨if (tx = wTiles.tdiv 2 ∧ ty = 0) ∨
                (tx = wTiles.tdiv 2 ∧ ty = hTiles - 1) ∨ (tx = 0 ∧ ty = hTiles.tdiv 2) ∨
                (tx = wTiles - 1 ∧ ty = hTiles.tdiv 2) then TileDoor else TileWall⟩)
      | .error _ => false) = true := by
  decide!

theorem baseRoomMap_ok :
    ∃ m, baseRoomMap = .ok m ∧ m.WellFormed ∧ m.W = wTiles ∧ m.H = hTiles ∧
      ∀ tx ty, 0 ≤ tx → tx < wTiles → 0 ≤ ty → ty < hTiles →
        (tx = 0 ∨ tx = wTiles - 1 ∨ ty = 0 ∨ ty = hTiles - 1) →
        m.At tx ty = .ok ⟨if (tx = wTiles.tdiv 2 ∧ ty = 0) ∨
          (tx = wTiles.tdiv 2 ∧ ty = hTiles - 1) ∨ (tx = 0 ∧ ty = hTiles.tdiv 2) ∨
          (tx = wTiles - 1 ∧ ty = hTiles.tdiv 2) then TileDoor else TileWall⟩ := by
  have h := baseRoomMap_check
  cases hb : baseRoomMap with
  | error e =>
    rw [hb] at h
    cases h
  | ok m =>
    rw [hb] at h
    simp only [Bool.and_eq_true, decide_eq_true_eq, List.all_eq_true] at h
    obtain ⟨⟨⟨hwf, hW⟩, hH⟩, hall⟩ := h
    refine ⟨m, rfl, hwf, hW, hH, ?_⟩
    intro tx ty hx0 hx1 hy0 hy1 hborder
    exact hall tx ((mem_intsFromTo _ _ _).2 ⟨hx0, by omega⟩) ty
      ((mem_intsFromTo _ _ _).2 ⟨hy0, by omega⟩) hborder

/-- C15: whatever the numbers the generator yields, `GenerateRoom` returns (no
`Intn` call fails, so each of its arguments is positive) a room with the
coordinates asked for, whose map has 18 rows of 25 tiles, with doors at
`(W/2, 0)`, `(W/2, H-1)`, `(0, H/2)`, `(W-1, H/2)` and a wall on every other
border tile; and `addRandomRooms`, run on any map of that shape from any
point of the sequence, returns and leaves each tile of the border, of column
`gridWidth/2` and of row `gridHeight/2` as it was. -/
theorem generateRoom_keeps_exits (stream : Nat → Nat) (x y : Int) :
    ∃ room, GenerateRoom stream x y = .ok room ∧ room.X = x ∧ room.Y = y ∧
      room.Map.WellFormed ∧ room.Map.W = wTiles ∧ room.Map.H = hTiles ∧
      room.Map.At (wTiles.tdiv 2) 0 = .ok ⟨TileDoor⟩ ∧
      room.Map.At (wTiles.tdiv 2) (hTiles - 1) = .ok ⟨TileDoor⟩ ∧
      room.Map.At 0 (hTiles.tdiv 2) = .ok ⟨TileDoor⟩ ∧
      room.Map.At (wTiles - 1) (hTiles.tdiv 2) = .ok ⟨TileDoor⟩ ∧
      (∀ tx ty, 0 ≤ tx → tx < wTiles → 0 ≤ ty → ty < hTiles →
        (tx = 0 ∨ tx = wTiles - 1 ∨ ty = 0 ∨ ty = hTiles - 1) →
        ¬(tx = wTiles.tdiv 2 ∧ ty = 0) → ¬(tx = wTiles.tdiv 2 ∧ ty = hTiles - 1) →
        ¬(tx = 0 ∧ ty = hTiles.tdiv 2) → ¬(tx = wTiles - 1 ∧ ty = hTiles.tdiv 2) →
        room.Map.At tx ty = .ok ⟨TileWall⟩) ∧
      (∀ (m : TileMap) (pos : Nat), m.WellFormed →
        ∃ st, addRandomRooms ⟨stream, pos⟩ m = .ok st ∧ st.m.WellFormed ∧
          st.m.W = m.W ∧ st.m.H = m.H ∧
          ∀ tx ty, (tx = 0 ∨ tx = wTiles - 1 ∨ ty = 0 ∨ ty = hTiles - 1 ∨
              tx = gridWidth.tdiv 2 ∨ ty = gridHeight.tdiv 2) →
            st.m.At tx ty = m.At tx ty) := by
  obtain ⟨m, hm, hwf, hW, hH, hborder⟩ := baseRoomMap_ok
  obtain ⟨st, hst, hwf2, hW2, hH2, hkeep⟩ := addRandomRooms_keeps ⟨stream, 0⟩ m hwf
  have hwt : wTiles = 25 := by decide
  have hht : hTiles = 18 := by decide
  have hwt2 : wTiles.tdiv 2 = 12 := by decide
  have hht2 : hTiles.tdiv 2 = 9 := by decide
  have hat : ∀ tx ty, 0 ≤ tx → tx < wTiles → 0 ≤ ty → ty < hTiles →
      (tx = 0 ∨ tx = wTiles - 1 ∨ ty = 0 ∨ ty = hTiles - 1) →
      st.m.At tx ty = .ok ⟨if (tx = wTiles.tdiv 2 ∧ ty = 0) ∨
          (tx = wTiles.tdiv 2 ∧ ty = hTiles - 1) ∨ (tx = 0 ∧ ty = hTiles.tdiv 2) ∨
          (tx = wTiles - 1 ∧ ty = hTiles.tdiv 2) then TileDoor else TileWall⟩ := by
    intro tx ty hx0 hx1 hy0 hy1 hb
    rw [hkeep tx ty (by unfold Protected; tauto)]
    exact hborder tx ty hx0 hx1 hy0 hy1 hb
  refine ⟨⟨x, y, st.m⟩, ?_, rfl, rfl, hwf2, hW2.trans hW, hH2.trans hH, ?_, ?_, ?_, ?_, ?_, ?_⟩
  · unfold GenerateRoom
    simp only [hm, bind, Except.bind, hst, pure, Except.pure]
  · have h := hat (wTiles.tdiv 2) 0 (by omega) (by omega) (by omega) (by omega) (by tauto)
    rw [h, if_pos (Or.inl ⟨rfl, rfl⟩)]
  · have h := hat (wTiles.tdiv 2) (hTiles - 1) (by omega) (by omega) (by omega) (by omega)
      (by tauto)
    rw [h, if_pos (Or.inr (Or.inl ⟨rfl, rfl⟩))]
  · have h := hat 0 (hTiles.tdiv 2) (by omega) (by omega) (by omega) (by omega) (by tauto)
    rw [h, if_pos (Or.inr (Or.inr (Or.inl ⟨rfl, rfl⟩)))]
  · have h := hat (wTiles - 1) (hTiles.tdiv 2) (by omega) (by omega) (by omega) (by omega)
      (by tauto)
    rw [h, if_pos (Or.inr (Or.inr (Or.inr ⟨rfl, rfl⟩)))]
  · intro tx ty hx0 hx1 hy0 hy1 hb h1 h2 h3 h4
    rw [hat tx ty hx0 hx1 hy0 hy1 hb, if_neg]
    tauto
  · intro m2 pos hwfm
    obtain ⟨st2, hst2, hwf3, hW3, hH3, hkeep3⟩ := addRandomRooms_keeps ⟨stream, pos⟩ m2 hwfm
    exact ⟨st2, hst2, hwf3, hW3, hH3, fun tx ty hp => hkeep3 tx ty hp⟩

/-- C15 at a concrete input: the room generated at `(2, -1)` from the constant
sequence `7, 7, ...`. -/
theorem generateRoom_keeps_exits_witness :
    ∃ room, GenerateRoom (fun _ => 7) 2 (-1) = .ok room ∧ room.X = 2 ∧ room.Y = -1 ∧
      room.Map.At 12 0 = .ok ⟨TileDoor⟩ ∧ room.Map.At 12 17 = .ok ⟨TileDoor⟩ ∧
      room.Map.At 0 9 = .ok ⟨TileDoor⟩ ∧ room.Map.At 24 9 = .ok ⟨TileDoor⟩ ∧
      room.Map.At 0 0 = .ok ⟨TileWall⟩ :=
  (generateRoom_keeps_exits (fun _ => 7) 2 (-1)).imp fun _ h =>
    ⟨h.1, h.2.1, h.2.2.1, h.2.2.2.2.2.2.1, h.2.2.2.2.2.2.2.1, h.2.2.2.2.2.2.2.2.1,
      h.2.2.2.2.2.2.2.2.2.1,
      h.2.2.2.2.2.2.2.2.2.2.1 0 0 (by decide) (by decide) (by decide) (by decide)
        (Or.inl rfl) (by decide) (by decide) (by decide) (by decide)⟩

end RoomProofs

section GameProofs

theorem lookup_mem {α β : Type} [BEq α] [LawfulBEq α] (k : α) (r : β) (l : List (α × β))
    (h : l.lookup k = some r) : (k, r) ∈ l := by
  induction l with
  | nil => cases h
  | cons e rest ih =>
    obtain ⟨k2, r2⟩ := e
    rw [List.lookup_cons] at h
    cases hk : (k == k2) with
    | true =>
      rw [hk] at h
      have hk2 : k = k2 := eq_of_beq hk
      have hr : r2 = r := Option.some.inj h
      rw [hk2, hr]
      exact List.mem_cons_self _ _
    | false =>
      rw [hk] at h
      exact List.mem_cons_of_mem _ (ih h)

/-- The function `GenerateRoom` returns, whatever the numbers drawn, a room
with the coordinates asked for and a map of the shape `NewTileMap` builds. -/
theorem generateRoom_ok (stream : Nat → Nat) (x y : Int) :
    ∃ r, GenerateRoom stream x y = .ok r ∧ r.X = x ∧ r.Y = y ∧ r.Map.WellFormed := by
  obtain ⟨m, hm, hwf, _⟩ := baseRoomMap_ok
  obtain ⟨st, hst, hwf2, _⟩ := addRandomRooms_keeps ⟨stream, 0⟩ m hwf
  refine ⟨⟨x, y, st.m⟩, ?_, rfl, rfl, hwf2⟩
  unfold GenerateRoom
  simp only [hm, bind, Except.bind, hst, pure, Except.pure]

/-- In a consistent world `loadRoom` returns, and makes the room with the
coordinates given the current one. -/
theorem loadRoom_ok (w : World) (hw : w.Consistent) (stream : Nat → Nat) (x y : Int) :
    ∃ w2, w.loadRoom stream x y = .ok w2 ∧ w2.Current.X = x ∧ w2.Current.Y = y ∧
      w2.Consistent := by
  obtain ⟨_, _, _, hrooms⟩ := hw
  unfold World.loadRoom
  cases hl : w.Rooms.lookup (x, y) with
  | some r =>
    obtain ⟨hx, hy, hwf⟩ := hrooms (x, y) r (lookup_mem _ _ _ hl)
    exact ⟨⟨w.Rooms, x, y, r⟩, rfl, hx, hy, hx.symm, hy.symm, hwf, hrooms⟩
  | none =>
    obtain ⟨r, hr, hx, hy, hwf⟩ := generateRoom_ok stream x y
    refine ⟨⟨((x, y), r) :: w.Rooms, x, y, r⟩, ?_, hx, hy, hx.symm, hy.symm, hwf, ?_⟩
    · simp only [hr, bind, Except.bind, pure, Except.pure]
    · intro k r2 hmem
      rcases List.mem_cons.1 hmem with h | h
      · cases h
        exact ⟨hx, hy, hwf⟩
      · exact hrooms k r2 h

theorem newGame_ok (stream : Nat → Nat) :
    ∃ g, NewGame stream = .ok g ∧ g.World.Consistent := by
  obtain ⟨r, hr, hx, hy, hwf⟩ := generateRoom_ok stream 0 0
  refine ⟨⟨NewPlayer, ⟨[((0, 0), r)], 0, 0, r⟩, 0, 0, false, 0, 0, 0, 0, false⟩, ?_,
    hx.symm, hy.symm, hwf, ?_⟩
  · unfold NewGame NewWorld
    simp only [hr, bind, Except.bind, pure, Except.pure]
  · intro k r2 hmem
    rcases List.mem_cons.1 hmem with h | h
    · cases h
      exact ⟨hx, hy, hwf⟩
    · cases h

theorem animate_ok (g : Game) (hc : g.World.Consistent) (stream : Nat → Nat) :
    ∃ g2, g.animate stream = .ok g2 ∧ g2.World.Consistent := by
  unfold Game.animate
  simp only []
  split_ifs
  · obtain ⟨w2, hw2, _, _, hc2⟩ := loadRoom_ok g.World hc stream
      (g.World.RoomX + g.PendingRoomX) (g.World.RoomY + g.PendingRoomY)
    unfold World.MoveTo
    simp only [hw2, bind, Except.bind, pure, Except.pure]
    exact ⟨_, rfl, hc2⟩
  · exact ⟨_, rfl, hc⟩
  · exact ⟨_, rfl, hc⟩

theorem play_ok (g : Game) (hc : g.World.Consistent) (keys : Keys) :
    ∃ g2, g.play keys = .ok g2 ∧ g2.World.Consistent := by
  obtain ⟨r, hr⟩ : ∃ r, g.Player.Update keys g.World.Current.Map = .ok r :=
    ⟨_, player_update_eq _ _ _ hc.2.2.1⟩
  unfold Game.play
  simp only [hr, bind, Except.bind, pure, Except.pure]
  split_ifs
  · exact ⟨_, rfl, hc⟩
  · exact ⟨_, rfl, hc⟩

/-- From a state with a consistent world `Game.Update` returns a state with a
consistent world. -/
theorem update_ok (g : Game) (hc : g.World.Consistent) (inp : Input) :
    ∃ g2, g.Update inp = .ok g2 ∧ g2.World.Consistent := by
  unfold Game.Update
  simp only []
  cases inp.R
  · simp only [Bool.false_eq_true, if_false]
    split_ifs
    · apply animate_ok
      exact hc
    · apply play_ok
      exact hc
  · simp only [if_true]
    split_ifs
    · apply animate_ok
      exact hc
    · apply play_ok
      exact hc

theorem run_ok (inps : List Input) (g : Game) (hc : g.World.Consistent) :
    ∃ g2, g.run inps = .ok g2 ∧ g2.World.Consistent := by
  induction inps generalizing g with
  | nil => exact ⟨g, rfl, hc⟩
  | cons inp rest ih =>
    obtain ⟨g1, h1, hc1⟩ := update_ok g hc inp
    obtain ⟨g2, h2, hc2⟩ := ih g1 hc1
    refine ⟨g2, ?_, hc2⟩
    unfold Game.run at h2 ⊢
    rw [List.foldlM_cons, h1]
    exact h2

/-- Each reachable state has a consistent world. -/
theorem reachable_consistent (g : Game) (hr : Reachable g) : g.World.Consistent := by
  obtain ⟨stream, g0, inps, h0, hrun⟩ := hr
  obtain ⟨g0b, h0b, hc0⟩ := newGame_ok stream
  rw [h0] at h0b
  cases h0b
  obtain ⟨g2, h2, hc2⟩ := run_ok inps g0 hc0
  rw [hrun] at h2
  cases h2
  exact hc2

/-- One tick of the closing or opening animation that neither ends the
closing phase nor the transition. -/
theorem animate_tick (g : Game) (htr : g.Transitioning = true) (inp : Input)
    (h0 : 0 < g.TransitionT + (1 / 20 : ℚ) * ((g.TransitionDir : Int) : ℚ))
    (h1 : g.TransitionT + (1 / 20 : ℚ) * ((g.TransitionDir : Int) : ℚ) < 1) :
    g.Update inp = .ok ⟨g.Player, g.World, g.CamX, g.CamY, g.Transitioning,
      g.TransitionT + (1 / 20 : ℚ) * ((g.TransitionDir : Int) : ℚ), g.TransitionDir,
      g.PendingRoomX, g.PendingRoomY, if inp.R then !g.ShowRays else g.ShowRays⟩ := by
  unfold Game.Update
  cases inp.R
  · simp only [Bool.false_eq_true, if_false, htr, if_true]
    unfold Game.animate
    simp only [ge_iff_le, not_le.2 h1, not_le.2 h0, if_false, htr]
    rfl
  · simp only [if_true, htr]
    unfold Game.animate
    simp only [ge_iff_le, not_le.2 h1, not_le.2 h0, if_false, htr]
    rfl

/-- The ticks of the closing phase before its last one: the world and the
pending coordinates stay as they are and the animation advances by `1/20` a
tick. -/
theorem closing_run (inps : List Input) (g : Game) (htr : g.Transitioning = true)
    (hdir : g.TransitionDir = 1) (j : Nat) (hT : g.TransitionT = (j : ℚ) / 20)
    (hlen : j + inps.length ≤ 19) :
    ∃ sr, g.run inps = .ok ⟨g.Player, g.World, g.CamX, g.CamY, true,
      ((j + inps.length : Nat) : ℚ) / 20, 1, g.PendingRoomX, g.PendingRoomY, sr⟩ := by
  induction inps generalizing g j with
  | nil =>
    refine ⟨g.ShowRays, ?_⟩
    obtain ⟨pl, w, cx, cy, tr, T, dir, px, py, sr⟩ := g
    simp only at htr hdir hT
    subst htr hdir hT
    simp [Game.run, pure, Except.pure]
  | cons inp rest ih =>
    have hlen2 : j + 1 + rest.length ≤ 19 := by
      simp only [List.length_cons] at hlen
      omega
    have hj : ((j : ℚ)) ≤ 18 := by
      have : j ≤ 18 := by omega
      exact_mod_cast this
    have hj0 : (0 : ℚ) ≤ (j : ℚ) := Nat.cast_nonneg j
    have hstep : g.TransitionT + (1 / 20 : ℚ) * ((g.TransitionDir : Int) : ℚ) =
        ((j + 1 : Nat) : ℚ) / 20 := by
      rw [hT, hdir]
      push_cast
      ring
    have h1 := animate_tick g htr inp (by rw [hstep]; push_cast; linarith)
      (by rw [hstep]; push_cast; linarith)
    rw [hstep, htr, hdir] at h1
    obtain ⟨sr, hsr⟩ := ih ⟨g.Player, g.World, g.CamX, g.CamY, true, ((j + 1 : Nat) : ℚ) / 20, 1,
      g.PendingRoomX, g.PendingRoomY, if inp.R then !g.ShowRays else g.ShowRays⟩ rfl rfl (j + 1)
      rfl hlen2
    refine ⟨sr, ?_⟩
    unfold Game.run at hsr ⊢
    rw [List.foldlM_cons, h1]
    simp only [bind, Except.bind]
    rw [hsr]
    simp only [List.length_cons]
    have e : j + 1 + rest.length = j + (rest.length + 1) := by omega
    rw [e]

/-- The tick that ends the closing phase: `MoveTo` is called with the pending
coordinates, which it adds to `RoomX` and `RoomY`. -/
theorem closing_last_tick (g : Game) (hc : g.World.Consistent) (htr : g.Transitioning = true)
    (hdir : g.TransitionDir = 1) (hT : g.TransitionT = 19 / 20) (inp : Input) :
    ∃ w2 sr, g.Update inp = .ok ⟨g.Player.SetCenter 384 284, w2, g.CamX, g.CamY, true, 1, -1,
        g.PendingRoomX, g.PendingRoomY, sr⟩ ∧
      w2.Current.X = g.World.RoomX + g.PendingRoomX ∧
      w2.Current.Y = g.World.RoomY + g.PendingRoomY ∧ w2.Consistent := by
  obtain ⟨w2, hw2, hx, hy, hc2⟩ := loadRoom_ok g.World hc inp.stream
    (g.World.RoomX + g.PendingRoomX) (g.World.RoomY + g.PendingRoomY)
  have ht : g.TransitionT + (1 / 20 : ℚ) * ((g.TransitionDir : Int) : ℚ) = 1 := by
    rw [hT, hdir]
    norm_num
  refine ⟨w2, if inp.R then !g.ShowRays else g.ShowRays, ?_, hx, hy, hc2⟩
  unfold Game.Update
  cases inp.R
  · simp only [Bool.false_eq_true, if_false, htr, if_true]
    unfold Game.animate World.MoveTo
    simp only [ht, ge_iff_le, le_refl, if_true, hw2, bind, Except.bind, pure, Except.pure, htr]
  · simp only [if_true, htr]
    unfold Game.animate World.MoveTo
    simp only [ht, ge_iff_le, le_refl, if_true, hw2, bind, Except.bind, pure, Except.pure, htr]

/-- The tick in which the player walks through a border door: the transition
starts with the pending coordinates `Current.X + dx`, `Current.Y + dy`. -/
theorem start_tick (g : Game) (hnt : g.Transitioning = false) (inp : Input) (p : Player)
    (dx dy : Int) (hup : g.Player.Update inp.keys g.World.Current.Map = .ok (p, dx, dy))
    (hd : dx ≠ 0 ∨ dy ≠ 0) :
    ∃ cx cy sr, g.Update inp = .ok ⟨p, g.World, cx, cy, true, 0, 1, g.World.Current.X + dx,
      g.World.Current.Y + dy, sr⟩ := by
  refine ⟨g.CamX + (g.Player.X + ((playerSize.tdiv 2 : Int) : ℚ) -
      ((screenWidth.tdiv 2 : Int) : ℚ) - g.CamX) * camLerp,
    g.CamY + (g.Player.Y + ((playerSize.tdiv 2 : Int) : ℚ) -
      ((screenHeight.tdiv 2 : Int) : ℚ) - g.CamY) * camLerp,
    if inp.R then !g.ShowRays else g.ShowRays, ?_⟩
  unfold Game.Update
  cases inp.R
  · simp only [Bool.false_eq_true, if_false, hnt]
    unfold Game.play
    simp only [hup, bind, Except.bind, hnt, hd, and_self, if_true, pure, Except.pure]
  · simp only [if_true, hnt, Bool.false_eq_true, if_false]
    unfold Game.play
    simp only [hup, bind, Except.bind, hnt, hd, and_self, if_true, pure, Except.pure]

theorem run_cons (g g1 : Game) (inp : Input) (rest : List Input) (h : g.Update inp = .ok g1) :
    g.run (inp :: rest) = g1.run rest := by
  unfold Game.run
  rw [List.foldlM_cons, h]
  rfl

theorem run_append (g g1 : Game) (l1 l2 : List Input) (h : g.run l1 = .ok g1) :
    g.run (l1 ++ l2) = g1.run l2 := by
  unfold Game.run at h ⊢
  rw [List.foldlM_append, h]
  rfl

set_option maxRecDepth 1000000 in
/-- The run `westRun`, checked by evaluation: it ends in the room `(-1, 0)`,
outside a transition, one step below the top door. -/
theorem westRun_check :
    (match westRun with
      | .ok g => decide (g.World.Current.X = -1 ∧ g.World.Current.Y = 0 ∧
          g.Transitioning = false ∧
          g.Player.Update (press false false true false).keys g.World.Current.Map =
            .ok (⟨376, 22⟩, 0, -1))
      | .error _ => false) = true := by
  decide!

/-- C14: from a reachable state outside a transition in which `Player.Update`
reports the direction `(dx, dy)` of a border door, the transition starts in
that tick and stays in its closing phase, in the same room, for the next 19
ticks; the tick after, the closing phase ends (`TransitionDir` becomes `-1`)
and `World.Current` becomes the room with coordinates `(2X + dx, 2Y + dy)`,
where `(X, Y)` are the coordinates of the room the player left, because
`MoveTo` adds the pending absolute coordinates `(X + dx, Y + dy)` to
`(RoomX, RoomY) = (X, Y)`. -/
theorem transition_target (g : Game) (hr : Reachable g) (hnt : g.Transitioning = false)
    (inp : Input) (p : Player) (dx dy : Int)
    (hup : g.Player.Update inp.keys g.World.Current.Map = .ok (p, dx, dy))
    (hd : dx ≠ 0 ∨ dy ≠ 0) (inps : List Input) (hlen : inps.length = 20) :
    ∃ g2, g.run (inp :: inps) = .ok g2 ∧ g2.TransitionDir = -1 ∧
      g2.World.Current.X = 2 * g.World.Current.X + dx ∧
      g2.World.Current.Y = 2 * g.World.Current.Y + dy ∧
      ∀ k, k < 20 → ∃ gk, g.run (inp :: inps.take k) = .ok gk ∧ gk.Transitioning = true ∧
        gk.TransitionDir = 1 ∧ gk.World.Current = g.World.Current := by
  have hc := reachable_consistent g hr
  obtain ⟨cx, cy, sr, h1⟩ := start_tick g hnt inp p dx dy hup hd
  have hclose : ∀ k, k < 20 → ∃ sr2, g.run (inp :: inps.take k) =
      .ok ⟨p, g.World, cx, cy, true, ((k : Nat) : ℚ) / 20, 1, g.World.Current.X + dx,
        g.World.Current.Y + dy, sr2⟩ := by
    intro k hk
    have hl : (inps.take k).length = k := by
      rw [List.length_take, hlen]
      omega
    obtain ⟨sr2, h2⟩ := closing_run (inps.take k)
      ⟨p, g.World, cx, cy, true, 0, 1, g.World.Current.X + dx, g.World.Current.Y + dy, sr⟩
      rfl rfl 0 (by simp) (by rw [hl]; omega)
    rw [hl, Nat.zero_add] at h2
    exact ⟨sr2, by rw [run_cons g _ inp _ h1]; exact h2⟩
  obtain ⟨sr19, h19⟩ := hclose 19 (by decide)
  obtain ⟨last, hlast⟩ : ∃ last, inps.drop 19 = [last] := by
    have hl : (inps.drop 19).length = 1 := by
      rw [List.length_drop, hlen]
    match hd2 : inps.drop 19, hl with
    | [a], _ => exact ⟨a, rfl⟩
  obtain ⟨w2, sr20, h20, hx, hy, _⟩ := closing_last_tick
    ⟨p, g.World, cx, cy, true, ((19 : Nat) : ℚ) / 20, 1, g.World.Current.X + dx,
      g.World.Current.Y + dy, sr19⟩ hc rfl rfl (by norm_num) last
  refine ⟨⟨p.SetCenter 384 284, w2, cx, cy, true, 1, -1, g.World.Current.X + dx,
    g.World.Current.Y + dy, sr20⟩, ?_, ?_, ?_, ?_, ?_⟩
  · have e : inp :: inps = (inp :: inps.take 19) ++ [last] := by
      rw [← hlast, List.cons_append, List.take_append_drop]
    rw [e, run_append g _ _ _ h19, run_cons _ _ last [] h20]
    rfl
  · rfl
  · show w2.Current.X = 2 * g.World.Current.X + dx
    rw [hx, hc.1]
    show g.World.Current.X + (g.World.Current.X + dx) = _
    ring
  · show w2.Current.Y = 2 * g.World.Current.Y + dy
    rw [hy, hc.2.1]
    show g.World.Current.Y + (g.World.Current.Y + dy) = _
    ring
  · intro k hk
    obtain ⟨sr2, h2⟩ := hclose k hk
    exact ⟨_, h2, rfl, rfl, rfl⟩

/-- C14 at a concrete reachable state: after the run `walkWest` the game is in
the room `(-1, 0)` with the player one step below the top door; walking up,
direction `(0, -1)`, the closing phase ends in the room `(-2, -1)`. -/
theorem transition_target_witness :
    ∃ g g2, Reachable g ∧ g.Transitioning = false ∧ g.World.Current.X = -1 ∧
      g.World.Current.Y = 0 ∧
      g.Player.Update (press false false true false).keys g.World.Current.Map =
        .ok (⟨376, 22⟩, 0, -1) ∧
      g.run (List.replicate 21 (press false false true false)) = .ok g2 ∧
      g2.TransitionDir = -1 ∧ g2.World.Current.X = -2 ∧ g2.World.Current.Y = -1 := by
  have h := westRun_check
  unfold westRun at h
  cases h0 : NewGame (fun _ => 14) with
  | error e =>
    rw [h0] at h
    cases h
  | ok g0 =>
    rw [h0] at h
    simp only [bind, Except.bind] at h
    cases hrun : g0.run walkWest with
    | error e =>
      rw [hrun] at h
      cases h
    | ok g =>
      rw [hrun] at h
      obtain ⟨hx, hy, hnt, hup⟩ := of_decide_eq_true h
      have hr : Reachable g := ⟨fun _ => 14, g0, walkWest, h0, hrun⟩
      obtain ⟨g2, h2, hdir, hx2, hy2, _⟩ := transition_target g hr hnt
        (press false false true false) ⟨376, 22⟩ 0 (-1) hup (Or.inr (by decide))
        (List.replicate 20 (press false false true false)) (List.length_replicate _ _)
      refine ⟨g, g2, hr, hnt, hx, hy, hup, h2, hdir, ?_, ?_⟩
      · rw [hx2, hx]
        rfl
      · rw [hy2, hy]
        rfl

end GameProofs

end Dungeon
